import Mathlib

/-!
Verification of the crypto matching engine core (`src/engine/`) against its
natural-language specification.

Shallow embedding conventions:

* Python `Decimal` is modelled as `ℚ`.  Every arithmetic operation the engine
  performs on decimals (`+`, `-`, `*`, `min`, comparisons) is exact decimal
  arithmetic, modelled by exact rational arithmetic.  The one place where the
  code leaves decimals — the float64 persistence columns of
  `persistence.py` — is modelled separately and precisely (`roundToDouble`).
* `datetime` timestamps are modelled as `ℕ`; `uuid` identifiers as `String`
  (the engine never inspects their contents, only compares them).
* Python dictionaries keyed by price are modelled as lists of `PriceLevel`
  with pairwise-distinct prices; the best-price heap with lazy deletion of
  `data_structures.py` is modelled by its specified observable behaviour:
  `get_best_price` returns the best price whose level is not `empty()`
  (the heap-cleanup invariant of `OrderBookSide._clean_heap`).  The
  defensive write-back that `PriceLevel.empty` performs while *reading*
  (`get_best_price`, `get_depth`) is the identity on every state whose level
  aggregates are in sync — which the invariant theorems below establish for
  all reachable states — so the read path is modelled as pure.  On the
  *mutation* path (`OrderBookSide.remove_order`) the write-back is
  load-bearing and is modelled faithfully (`PriceLevel.emptyCheck`).
* In-place mutation of a shared `Order` object (Python object aliasing
  between a `PriceLevel.orders` list and the `OrderBook.orders` index) is
  modelled by writing the updated order back into every list that holds it
  (`writeBack`), keyed by `order_id`.
-/

namespace CME

/-- `OrderSide` of `order_types.py`. -/
inductive OrderSide where
  | buy
  | sell
deriving DecidableEq, Repr

/-- `OrderType` of `order_types.py`. -/
inductive OrderType where
  | market
  | limit
  | ioc
  | fok
  | stopLoss
  | stopLimit
  | takeProfit
deriving DecidableEq, Repr

/-- `OrderStatus` of `order_types.py`. -/
inductive OrderStatus where
  | pending
  | partiallyFilled
  | filled
  | cancelled
  | rejected
deriving DecidableEq, Repr

/-- `Order` of `order_types.py` (the `stop_price` field is omitted: stop order
types are rejected by the engine and no claim mentions it). -/
structure Order where
  order_id : String
  symbol : String
  side : OrderSide
  order_type : OrderType
  price : Option ℚ
  quantity : ℚ
  filled_quantity : ℚ
  status : OrderStatus
  timestamp : ℕ
  user_id : Option String
deriving DecidableEq, Repr

/-- `Order.remaining_quantity` of `order_types.py`. -/
def Order.remaining_quantity (o : Order) : ℚ :=
  o.quantity - o.filled_quantity

/-- `Trade` of `order_types.py`.  `trade_id` and `timestamp` are generated
from a uuid and the wall clock; they are modelled as constants (no claim
depends on them). -/
structure Trade where
  trade_id : String
  symbol : String
  price : ℚ
  quantity : ℚ
  aggressor_side : OrderSide
  maker_order_id : String
  taker_order_id : String
  timestamp : ℕ
  maker_fee : ℚ
  taker_fee : ℚ
deriving DecidableEq, Repr

/-- `PriceLevel` of `data_structures.py`. -/
structure PriceLevel where
  price : ℚ
  orders : List Order
  total_quantity : ℚ
deriving DecidableEq, Repr

namespace PriceLevel

/-- Sum of remaining quantities of the level's orders
(the `agg` computed inside `PriceLevel.empty`). -/
def agg (l : PriceLevel) : ℚ :=
  (l.orders.map Order.remaining_quantity).sum

/-- `PriceLevel.add_order`: append to FIFO, aggregate `+= remaining`. -/
def add_order (l : PriceLevel) (o : Order) : PriceLevel :=
  { l with orders := l.orders ++ [o],
           total_quantity := l.total_quantity + o.remaining_quantity }

/-- `PriceLevel.remove_order`: find the first order with the id, subtract its
(current) remaining quantity from the aggregate, clamping at 0, and pop it.
Returns the updated level and whether an order was removed. -/
def remove_order (l : PriceLevel) (oid : String) : PriceLevel × Bool :=
  match l.orders.find? (fun o => o.order_id = oid) with
  | none => (l, false)
  | some o =>
      let tq0 := l.total_quantity - o.remaining_quantity
      let tq := if tq0 < 0 then 0 else tq0
      ({ l with total_quantity := tq,
                orders := l.orders.eraseP (fun o' => o'.order_id = oid) }, true)

/-- `PriceLevel.update_quantity`: after a partial fill of `fq` against the
order `oid`, subtract `fq` from the aggregate (clamped at 0) and drop the
order if its remaining quantity is now `≤ 0`.  No-op for `fq ≤ 0` or an
unknown id. -/
def update_quantity (l : PriceLevel) (oid : String) (fq : ℚ) : PriceLevel :=
  if fq ≤ 0 then l
  else
    match l.orders.find? (fun o => o.order_id = oid) with
    | none => l
    | some o =>
        let tq0 := l.total_quantity - fq
        let tq := if tq0 < 0 then 0 else tq0
        let os := if o.remaining_quantity ≤ 0
          then l.orders.eraseP (fun o' => o'.order_id = oid) else l.orders
        { l with total_quantity := tq, orders := os }

/-- `PriceLevel.empty`, including its defensive reconcile of
`total_quantity`: returns the boolean and the (possibly reconciled) level. -/
def emptyCheck (l : PriceLevel) : Bool × PriceLevel :=
  if l.total_quantity ≤ 0 then (true, l)
  else (decide (l.agg ≤ 0), { l with total_quantity := l.agg })

/-- The boolean `PriceLevel.empty` returns (its reconcile write-back is the
identity on aggregate-consistent states). -/
def emptyB (l : PriceLevel) : Bool :=
  (l.emptyCheck).1

end PriceLevel

/-! ### One side of the book (`OrderBookSide` of `data_structures.py`)

A side is the list of its price levels (the `price_levels` dict; distinct
prices).  The price heap and `_price_set` are bookkeeping for
`get_best_price`, whose specified observable behaviour after `_clean_heap`
is: the best (max for bids, min for asks) price among non-`empty()` levels. -/

/-- Best of a list of prices: max for the bid side, min for the ask side. -/
def bestPriceList (is_bid : Bool) : List ℚ → Option ℚ
  | [] => none
  | p :: ps =>
      match bestPriceList is_bid ps with
      | none => some p
      | some q => some (if is_bid then max p q else min p q)

/-- `OrderBookSide.get_best_price`: after `_clean_heap`, the heap head is the
best price whose level is not `empty()`. -/
def get_best_price (is_bid : Bool) (levels : List PriceLevel) : Option ℚ :=
  bestPriceList is_bid ((levels.filter (fun l => !l.emptyB)).map PriceLevel.price)

/-- Replace the level at a given price (Python mutates the level object held
in the `price_levels` dict in place). -/
def replaceLevel (p : ℚ) (l' : PriceLevel) (levels : List PriceLevel) : List PriceLevel :=
  levels.map (fun l => if l.price = p then l' else l)

/-- Delete the level at a given price (`del self.price_levels[price]`). -/
def removeLevel (p : ℚ) : List PriceLevel → List PriceLevel
  | [] => []
  | l :: ls => if l.price = p then ls else l :: removeLevel p ls

/-- `OrderBookSide.add_order`: insert the order at its price level, creating
the level if absent.  (Python evaluates `Decimal(order.price)`, which raises
on `None`; book insertion is only reached with priced orders.) -/
def sideAddOrder (levels : List PriceLevel) (o : Order) : List PriceLevel :=
  match o.price with
  | none => levels
  | some p =>
      match levels.find? (fun l => l.price = p) with
      | none =>
          levels ++ [PriceLevel.add_order { price := p, orders := [], total_quantity := 0 } o]
      | some lvl => replaceLevel p (lvl.add_order o) levels

/-- `OrderBookSide.remove_order`: look the level up by price, run
`PriceLevel.remove_order`, and when an order was removed evaluate
`PriceLevel.empty()` (whose reconcile persists on the level object) and
drop the level if empty. -/
def sideRemoveOrder (levels : List PriceLevel) (oid : String) (p : ℚ) :
    List PriceLevel × Bool :=
  match levels.find? (fun l => l.price = p) with
  | none => (levels, false)
  | some lvl =>
      let (lvl', removed) := lvl.remove_order oid
      if removed then
        let (isEmp, lvl'') := lvl'.emptyCheck
        if isEmp then (removeLevel p levels, true)
        else (replaceLevel p lvl'' levels, true)
      else (levels, false)

/-- `OrderBook` of `order_book.py`: the two sides plus the `orders` index.
The index holds the same `Order` objects as the levels (modelled by
writing updates back into both). -/
structure OrderBook where
  bids : List PriceLevel
  asks : List PriceLevel
  index : List Order
deriving DecidableEq, Repr

/-- `OrderBook.add_order`: duplicate ids are refused, otherwise the order is
indexed and inserted at its price level on its side. -/
def OrderBook.add_order (b : OrderBook) (o : Order) : OrderBook × Bool :=
  if b.index.any (fun e => e.order_id = o.order_id) then (b, false)
  else
    let b' := { b with index := b.index ++ [o] }
    match o.side with
    | OrderSide.buy => ({ b' with bids := sideAddOrder b'.bids o }, true)
    | OrderSide.sell => ({ b' with asks := sideAddOrder b'.asks o }, true)

/-- `OrderBook.remove_filled`: look the order up in the index, remove it from
its side at its price, and pop it from the index (status untouched). -/
def OrderBook.remove_filled (b : OrderBook) (oid : String) : OrderBook × Bool :=
  match b.index.find? (fun e => e.order_id = oid) with
  | none => (b, false)
  | some e =>
      let b' :=
        match e.side, e.price with
        | OrderSide.buy, some p => { b with bids := (sideRemoveOrder b.bids oid p).1 }
        | OrderSide.sell, some p => { b with asks := (sideRemoveOrder b.asks oid p).1 }
        | _, none => b
      ({ b' with index := b'.index.eraseP (fun e' => e'.order_id = oid) }, true)

/-- `OrderBook.cancel_order`: look up by id, remove from the side at the
indexed price, set status CANCELLED, pop from the index. -/
def OrderBook.cancel_order (b : OrderBook) (oid : String) : OrderBook × Option Order :=
  match b.index.find? (fun e => e.order_id = oid) with
  | none => (b, none)
  | some e =>
      let b' :=
        match e.side, e.price with
        | OrderSide.buy, some p => { b with bids := (sideRemoveOrder b.bids oid p).1 }
        | OrderSide.sell, some p => { b with asks := (sideRemoveOrder b.asks oid p).1 }
        | _, none => b
      let o' := { e with status := OrderStatus.cancelled }
      ({ b' with index := b'.index.eraseP (fun e' => e'.order_id = oid) }, some o')

/-- `OrderBook._best_from_side`: `(price, total_quantity)` of the best
non-empty level, if any. -/
def bestFromSide (is_bid : Bool) (levels : List PriceLevel) : Option (ℚ × ℚ) :=
  match get_best_price is_bid levels with
  | none => none
  | some p =>
      match levels.find? (fun l => l.price = p) with
      | none => none
      | some lvl => if lvl.emptyB then none else some (p, lvl.total_quantity)

/-- `OrderBook.get_best_bid`. -/
def OrderBook.get_best_bid (b : OrderBook) : Option (ℚ × ℚ) :=
  bestFromSide true b.bids

/-- `OrderBook.get_best_ask`. -/
def OrderBook.get_best_ask (b : OrderBook) : Option (ℚ × ℚ) :=
  bestFromSide false b.asks

/-! ### The matching engine (`matching_engine.py`) -/

/-- The per-symbol engine configuration (`MatchingEngine.__init__`:
symbol, `maker_fee` default `0.001`, `taker_fee` default `0.002`). -/
structure EngineCfg where
  symbol : String
  maker_fee : ℚ
  taker_fee : ℚ
deriving DecidableEq, Repr

/-- `MatchingEngine._create_trade_fast`: a trade at the maker's level price;
fees are `quantity * price * fee_rate` in exact decimal arithmetic
(`trade_id` and wall-clock timestamp modelled as constants). -/
def createTradeFast (cfg : EngineCfg) (price quantity : ℚ) (maker taker : Order) : Trade :=
  { trade_id := "",
    symbol := cfg.symbol,
    price := price,
    quantity := quantity,
    aggressor_side := taker.side,
    maker_order_id := maker.order_id,
    taker_order_id := taker.order_id,
    timestamp := 0,
    maker_fee := quantity * price * cfg.maker_fee,
    taker_fee := quantity * price * cfg.taker_fee }

/-- Model of Python in-place mutation of a shared `Order` object: write the
updated order back into a list that holds (an alias of) it, keyed by id. -/
def writeBack (o : Order) (os : List Order) : List Order :=
  os.map (fun x => if x.order_id = o.order_id then o else x)

/-- State threaded through the inner FIFO walk of one price level. -/
structure LevelSt where
  lvl : PriceLevel
  attached : Bool
  index : List Order
  remaining : ℚ
  enq : List Order
deriving Repr

/-- The inner `for resting_order in list(level.orders)` loop shared verbatim by
`_match_market_order_sync`, `_match_limit_order_sync` and
`_match_limit_constrained_sync`: walk the FIFO snapshot; for each maker fill
`min(remaining, maker.remaining_quantity)` at the level price; a fully filled
maker is marked FILLED and removed via `OrderBook.remove_filled` (which
subtracts its now-zero remainder, pops it, and lets `PriceLevel.empty`'s
reconcile repair the aggregate, dropping the level from the side when it
empties); a partially filled maker is marked PARTIALLY_FILLED and the level
aggregate is adjusted via `PriceLevel.update_quantity`; each touched maker is
enqueued for persistence.  `attached` records whether the level object is
still in the side's `price_levels` dict.  When the indexed entry names a
different side or price than this level, the removal acts on some other dict
entry; with globally distinct order ids that removal finds nothing, so it is
modelled as a no-op on this level. -/
def fillLoop (cfg : EngineCfg) (taker : Order) (price : ℚ) (makerSide : OrderSide) :
    List Order → LevelSt → List Trade × LevelSt
  | [], s => ([], s)
  | m :: rest, s =>
      if s.remaining ≤ 0 then ([], s)
      else
        let fill := min s.remaining m.remaining_quantity
        let tr := createTradeFast cfg price fill m taker
        let remaining' := s.remaining - fill
        let m1 : Order := { m with filled_quantity := m.filled_quantity + fill }
        if m1.remaining_quantity = 0 then
          let m2 : Order := { m1 with status := OrderStatus.filled }
          let lvlW : PriceLevel := { s.lvl with orders := writeBack m2 s.lvl.orders }
          let idxW := writeBack m2 s.index
          match idxW.find? (fun e => e.order_id = m2.order_id) with
          | none =>
              -- not in the index: `remove_filled` returns False without touching the book
              let s1 : LevelSt := { lvl := lvlW, attached := s.attached, index := idxW,
                                    remaining := remaining', enq := s.enq ++ [m2] }
              let (ts, s2) := fillLoop cfg taker price makerSide rest s1
              (tr :: ts, s2)
          | some e =>
              let hit := s.attached && decide (e.side = makerSide)
                         && decide (e.price = some s.lvl.price)
              let rr := lvlW.remove_order m2.order_id
              let ec := rr.1.emptyCheck
              let lvlNew := if hit then (if rr.2 then ec.2 else lvlW) else lvlW
              let att' := if hit && rr.2 && ec.1 then false else s.attached
              let idx' := idxW.eraseP (fun e' => e'.order_id = m2.order_id)
              let s1 : LevelSt := { lvl := lvlNew, attached := att', index := idx',
                                    remaining := remaining', enq := s.enq ++ [m2] }
              let (ts, s2) := fillLoop cfg taker price makerSide rest s1
              (tr :: ts, s2)
        else
          let m2 : Order := { m1 with status := OrderStatus.partiallyFilled }
          let lvlW : PriceLevel := { s.lvl with orders := writeBack m2 s.lvl.orders }
          let idxW := writeBack m2 s.index
          let lvl' := lvlW.update_quantity m2.order_id fill
          let s1 : LevelSt := { lvl := lvl', attached := s.attached, index := idxW,
                                remaining := remaining', enq := s.enq ++ [m2] }
          let (ts, s2) := fillLoop cfg taker price makerSide rest s1
          (tr :: ts, s2)

/-- State threaded through the outer best-level loop of the matchers. -/
structure SweepSt where
  levels : List PriceLevel
  index : List Order
  remaining : ℚ
  enq : List Order
deriving Repr

/-- The outer `while remaining > 0` loop shared by the three sweep matchers:
repeatedly select the best opposite-side level (`get_best_price`), stop when
none remains or (for the price-bounded variants) the best price is worse than
the limit, and consume the level FIFO with `fillLoop`; a level emptied by the
walk has been dropped from the side, otherwise the (mutated) level object
stays.  Fuel bounds the recursion; each iteration that does not exhaust the
taker deletes one price level, so `levels.length + 1` fuel reproduces the
loop exactly on the aggregate-consistent states the theorems quantify over
(the `price_levels` non-emptiness test of the `while` condition coincides
with `get_best_price` returning `None`, and the `prune_empty_levels` call of
`_match_limit_constrained_sync` is the identity there: an emptied level has
already been dropped by `remove_filled`). -/
def sweepFuel (cfg : EngineCfg) (taker : Order) (takerIsBuy : Bool) (bound : Option ℚ) :
    ℕ → SweepSt → List Trade × SweepSt
  | 0, s => ([], s)
  | Nat.succ fuel, s =>
      if s.remaining ≤ 0 then ([], s)
      else
        match get_best_price (!takerIsBuy) s.levels with
        | none => ([], s)
        | some best =>
            if (match bound with
                | some bp => if takerIsBuy then decide (bp < best) else decide (best < bp)
                | none => false) then ([], s)
            else
              match s.levels.find? (fun l => l.price = best) with
              | none => ([], s)
              | some lvl =>
                  let r := fillLoop cfg taker best
                    (if takerIsBuy then OrderSide.sell else OrderSide.buy) lvl.orders
                    { lvl := lvl, attached := true, index := s.index,
                      remaining := s.remaining, enq := [] }
                  let ls := r.2
                  let levels' := if ls.attached then replaceLevel best ls.lvl s.levels
                                 else removeLevel best s.levels
                  let r2 := sweepFuel cfg taker takerIsBuy bound fuel
                    { levels := levels', index := ls.index, remaining := ls.remaining,
                      enq := s.enq ++ ls.enq }
                  (r.1 ++ r2.1, r2.2)

/-- Entry point of the sweep with sufficient fuel. -/
def runSweep (cfg : EngineCfg) (taker : Order) (takerIsBuy : Bool) (bound : Option ℚ)
    (s : SweepSt) : List Trade × SweepSt :=
  sweepFuel cfg taker takerIsBuy bound (s.levels.length + 1) s

/-- Result of one matcher call: the mutated taker, the mutated book, the
trade list the matcher returns, all trades it created (these differ only on
the defensive FOK rollback path, which discards its return value), and the
maker orders enqueued for persistence during matching. -/
structure MatchResult where
  taker : Order
  book : OrderBook
  trades : List Trade
  created : List Trade
  enq : List Order
deriving Repr

/-- Build a `MatchResult` for a taker that swept the opposite side. -/
def finishSweep (takerIsBuy : Bool) (b : OrderBook) (order : Order)
    (out : List Trade × SweepSt) : MatchResult :=
  let s1 := out.2
  let filled' := order.filled_quantity + (order.quantity - s1.remaining)
  let order' := { order with filled_quantity := filled' }
  { taker := order',
    book := if takerIsBuy then { b with asks := s1.levels, index := s1.index }
            else { b with bids := s1.levels, index := s1.index },
    trades := out.1, created := out.1, enq := s1.enq }

/-- `MatchingEngine._match_market_order_sync`: sweep the opposite side with no
price bound; final status FILLED / PARTIALLY_FILLED / PENDING by the filled
quantity; the taker is never added to the book. -/
def matchMarketOrderSync (cfg : EngineCfg) (b : OrderBook) (order : Order) : MatchResult :=
  let takerIsBuy := decide (order.side = OrderSide.buy)
  let s0 : SweepSt := { levels := if takerIsBuy then b.asks else b.bids,
                        index := b.index, remaining := order.quantity, enq := [] }
  let r := finishSweep takerIsBuy b order (runSweep cfg order takerIsBuy none s0)
  let t := r.taker
  { r with taker := { t with status :=
      if t.filled_quantity = t.quantity then OrderStatus.filled
      else if 0 < t.filled_quantity then OrderStatus.partiallyFilled
      else OrderStatus.pending } }

/-- `MatchingEngine._match_limit_order_sync`: only match when the opposite
best crosses the limit; sweep levels at prices no worse than the limit; any
positive remainder rests at the order's own price with status
PARTIALLY_FILLED (if it traded) or PENDING, else the order is FILLED.
(Python compares `order.price` as a `Decimal`; the `none` branch is
unreachable, validation requires a price for LIMIT orders.) -/
def matchLimitOrderSync (cfg : EngineCfg) (b : OrderBook) (order : Order) : MatchResult :=
  match order.price with
  | none => { taker := order, book := b, trades := [], created := [], enq := [] }
  | some p =>
      let takerIsBuy := decide (order.side = OrderSide.buy)
      let gate :=
        if takerIsBuy then
          match b.get_best_ask with
          | some ba => decide (ba.1 ≤ p)
          | none => false
        else
          match b.get_best_bid with
          | some bb => decide (p ≤ bb.1)
          | none => false
      let s0 : SweepSt := { levels := if takerIsBuy then b.asks else b.bids,
                            index := b.index, remaining := order.quantity, enq := [] }
      let out := if gate then runSweep cfg order takerIsBuy (some p) s0 else ([], s0)
      let r := finishSweep takerIsBuy b order out
      if 0 < out.2.remaining then
        let t' := { r.taker with status :=
          if r.trades ≠ [] then OrderStatus.partiallyFilled else OrderStatus.pending }
        { r with taker := t', book := (r.book.add_order t').1 }
      else
        { r with taker := { r.taker with status := OrderStatus.filled } }

/-- `MatchingEngine._match_limit_constrained_sync`: the price-bounded sweep
used by IOC and FOK; fills only, the caller sets the final status.  (Called
with a price; Python would raise comparing `None`.) -/
def matchLimitConstrainedSync (cfg : EngineCfg) (b : OrderBook) (order : Order) : MatchResult :=
  match order.price with
  | none => { taker := order, book := b, trades := [], created := [], enq := [] }
  | some p =>
      let takerIsBuy := decide (order.side = OrderSide.buy)
      let s0 : SweepSt := { levels := if takerIsBuy then b.asks else b.bids,
                            index := b.index, remaining := order.quantity, enq := [] }
      finishSweep takerIsBuy b order (runSweep cfg order takerIsBuy (some p) s0)

/-- `MatchingEngine._match_ioc_order_sync`: match as a price-constrained
sweep when priced, as MARKET otherwise; then status FILLED when nothing
remains, PARTIALLY_FILLED when any trade occurred, CANCELLED otherwise. -/
def matchIOCOrderSync (cfg : EngineCfg) (b : OrderBook) (order : Order) : MatchResult :=
  let r := match order.price with
    | none => matchMarketOrderSync cfg b order
    | some _ => matchLimitConstrainedSync cfg b order
  let t := r.taker
  { r with taker := { t with status :=
      if t.remaining_quantity = 0 then OrderStatus.filled
      else if r.trades ≠ [] then OrderStatus.partiallyFilled
      else OrderStatus.cancelled } }

/-- The stop test of the FOK pre-check: the price is beyond the order's limit
(only enforced for non-MARKET orders). -/
def precheckStop (isBuy : Bool) (oPrice : Option ℚ) (oType : OrderType) (p : ℚ) : Bool :=
  match oPrice with
  | some bp => (if isBuy then decide (bp < p) else decide (p < bp))
                && decide (oType ≠ OrderType.market)
  | none => false

/-- The `total_quantity` the pre-check reads for one price (`0` for an absent
level; the side's own prices are always present). -/
def lookupTotal (levels : List PriceLevel) (p : ℚ) : ℚ :=
  match levels.find? (fun l => l.price = p) with
  | some lvl => lvl.total_quantity
  | none => 0

/-- `MatchingEngine._check_can_fill_completely`'s accumulation loop over the
side's prices in best-first order: stop (False) at the first price beyond the
limit (for non-MARKET priced orders); otherwise add the level's
`total_quantity` and succeed as soon as the running total reaches the
order's quantity. -/
def precheckLoop (levels : List PriceLevel) (isBuy : Bool) (oPrice : Option ℚ)
    (oType : OrderType) (q : ℚ) : List ℚ → ℚ → Bool
  | [], _ => false
  | p :: ps, total =>
      if precheckStop isBuy oPrice oType p then false
      else
        let total' := total + lookupTotal levels p
        if q ≤ total' then true
        else precheckLoop levels isBuy oPrice oType q ps total'

/-- `MatchingEngine._check_can_fill_completely`: walk the opposite side's
prices sorted best-first (ascending asks for a BUY, descending bids for a
SELL) accumulating `total_quantity` until the order's quantity is reached. -/
def checkCanFillCompletely (b : OrderBook) (order : Order) : Bool :=
  if order.side = OrderSide.buy then
    precheckLoop b.asks true order.price order.order_type order.quantity
      ((b.asks.map PriceLevel.price).insertionSort (· ≤ ·)) 0
  else
    precheckLoop b.bids false order.price order.order_type order.quantity
      ((b.bids.map PriceLevel.price).insertionSort (· ≥ ·)) 0

/-- `MatchingEngine._match_fok_order_sync`: pre-check full attainability at
prices no worse than the limit; on failure CANCELLED with no trades and no
book mutation; on success execute (price-constrained when priced, market
otherwise); the defensive rollback path (unreachable under the book lock with
a consistent book) cancels and discards the trade list. -/
def matchFOKOrderSync (cfg : EngineCfg) (b : OrderBook) (order : Order) : MatchResult :=
  if !(checkCanFillCompletely b order) then
    { taker := { order with status := OrderStatus.cancelled },
      book := b, trades := [], created := [], enq := [] }
  else
    let r := match order.price with
      | some _ => matchLimitConstrainedSync cfg b order
      | none => matchMarketOrderSync cfg b order
    if 0 < r.taker.remaining_quantity then
      { r with taker := { r.taker with status := OrderStatus.cancelled }, trades := [] }
    else
      { r with taker := { r.taker with status := OrderStatus.filled } }

/-- `MatchingEngine._validate_order`. -/
def validateOrder (o : Order) : Bool × String :=
  if o.quantity ≤ 0 then (false, "Invalid quantity")
  else if o.order_type = OrderType.limit ∧ o.price = none then
    (false, "Price required for limit orders")
  else
    match o.price with
    | some p => if p ≤ 0 then (false, "Invalid price") else (true, "Valid")
    | none => (true, "Valid")

/-- The engine state the synchronous submit path touches: the book, the
in-memory trade ring (`deque(maxlen=10000)`), and the two persistence queues
(queue entries are modelled as snapshots taken at enqueue time). -/
structure MEState where
  book : OrderBook
  trades : List Trade
  orderQ : List Order
  tradeQ : List Trade
deriving Repr

/-- Append to the bounded trade ring, evicting the oldest beyond 10000. -/
def ringAppend (ring : List Trade) (ts : List Trade) : List Trade :=
  let r := ring ++ ts
  r.drop (r.length - 10000)

/-- `MatchingEngine.submit_order` (its synchronous content): validate without
touching any state; on failure return `(False, reason, [])` with the order
object untouched; otherwise dispatch on the order type, append the created
trades to the ring, enqueue the touched makers, the taker and the trades for
persistence, and return `(True, "Order processed successfully", trades)`.
An unsupported type returns `(False, ...)` from inside the critical section
with no mutation (Python interpolates the enum into the message). -/
def submitOrder (cfg : EngineCfg) (st : MEState) (order : Order) :
    (Bool × String × List Trade) × MEState × Order :=
  let v := validateOrder order
  if v.1 = false then ((false, v.2, []), st, order)
  else
    let finish := fun (r : MatchResult) =>
      ((true, "Order processed successfully", r.trades),
       { book := r.book,
         trades := ringAppend st.trades r.created,
         orderQ := st.orderQ ++ r.enq ++ [r.taker],
         tradeQ := st.tradeQ ++ r.trades },
       r.taker)
    match order.order_type with
    | OrderType.market => finish (matchMarketOrderSync cfg st.book order)
    | OrderType.limit => finish (matchLimitOrderSync cfg st.book order)
    | OrderType.ioc => finish (matchIOCOrderSync cfg st.book order)
    | OrderType.fok => finish (matchFOKOrderSync cfg st.book order)
    | _ => ((false, "Unsupported order type", []), st, order)

/-- `MatchingEngine.cancel_order` (its synchronous content). -/
def cancelOrder (st : MEState) (oid : String) : MEState × Bool × Option Order :=
  let r := st.book.cancel_order oid
  match r.2 with
  | some o => ({ st with book := r.1, orderQ := st.orderQ ++ [o] }, true, some o)
  | none => (st, false, none)

/-! ### Persistence of decimal columns (`persistence.py`)

`PersistenceManager._serialize_order` writes the decimal fields through
`float(...)` into SQLite REAL columns, and `StateRecoveryManager._replay_orders`
reads them back through `Decimal(str(...))`.  The store therefore holds not the
decimal but its nearest IEEE-754 binary64 value. -/

/-- Round a scaled significand to the nearest integer, ties to even
(IEEE-754 default rounding). -/
def rndTiesEven (s : ℚ) : ℤ :=
  let f := ⌊s⌋
  let frac := s - f
  if frac < 1/2 then f
  else if 1/2 < frac then f + 1
  else if f % 2 = 0 then f else f + 1

/-- The nearest IEEE-754 binary64 value of a positive rational in the normal
range: with `e = ⌊log₂ q⌋` the significand `q·2^(52-e) ∈ [2^52, 2^53)` is
rounded to the nearest integer, ties to even.  (Overflow and subnormals do
not arise for the engine's prices and quantities and are not modelled.) -/
def roundToDouble (q : ℚ) : ℚ :=
  if 0 < q then
    ((rndTiesEven (q * 2 ^ ((52 : ℤ) - Int.log 2 q)) : ℚ)) * 2 ^ (Int.log 2 q - (52 : ℤ))
  else 0

/-- The decimal → REAL column conversion applied by
`PersistenceManager._serialize_order` to `price`, `quantity` and
`filled_quantity` (Python `float(decimal)` rounds to the nearest binary64). -/
def serializeDecimal (q : ℚ) : ℚ :=
  roundToDouble q

/-! ### Concrete fixtures used by the witnesses -/

/-- An engine with the default fees of `MatchingEngine.__init__`
(`maker_fee = 0.001`, `taker_fee = 0.002`). -/
def sampleCfg : EngineCfg :=
  { symbol := "BTC-USDT", maker_fee := 1/1000, taker_fee := 2/1000 }

/-- A fresh empty book. -/
def emptyBook : OrderBook :=
  { bids := [], asks := [], index := [] }

/-- A fresh engine state. -/
def emptyState : MEState :=
  { book := emptyBook, trades := [], orderQ := [], tradeQ := [] }

/-- A freshly constructed order (`Order(...)` with default
`filled_quantity = 0` and status PENDING). -/
def mkOrder (oid : String) (side : OrderSide) (ty : OrderType) (pr : Option ℚ)
    (q : ℚ) (ts : ℕ) : Order :=
  { order_id := oid, symbol := "BTC-USDT", side := side, order_type := ty, price := pr,
    quantity := q, filled_quantity := 0, status := OrderStatus.pending, timestamp := ts,
    user_id := none }

/-- Book state with one resting ask `0.5 @ 50000` (scenarios S3/S4). -/
def stateAskHalf : MEState :=
  (submitOrder sampleCfg emptyState
    (mkOrder "M" OrderSide.sell OrderType.limit (some 50000) (1/2) 1)).2.1

/-- Book state with one resting ask `2.0 @ 50000` (scenario S5). -/
def stateAskTwo : MEState :=
  (submitOrder sampleCfg emptyState
    (mkOrder "M2" OrderSide.sell OrderType.limit (some 50000) 2 1)).2.1

/-- Book state with asks `1.0 @ 50000` and `0.5 @ 50100` (scenario S1). -/
def stateS1 : MEState :=
  (submitOrder sampleCfg
    ((submitOrder sampleCfg emptyState
      (mkOrder "A" OrderSide.sell OrderType.limit (some 50000) 1 1)).2.1)
    (mkOrder "B" OrderSide.sell OrderType.limit (some 50100) (1/2) 2)).2.1

/-- Book state with two resting sells `1.0 @ 50000` inserted A then B
(scenario S8). -/
def stateAB : MEState :=
  (submitOrder sampleCfg
    ((submitOrder sampleCfg emptyState
      (mkOrder "A" OrderSide.sell OrderType.limit (some 50000) 1 1)).2.1)
    (mkOrder "B" OrderSide.sell OrderType.limit (some 50000) 1 2)).2.1

/-! ### Well-formedness of reachable book states

These predicates state the spec's structural invariants (section 8, items 1
and 2, and the data-model lifecycle rules); the invariant theorems below
prove them preserved by every engine operation, and all behavioural theorems
quantify over states satisfying them. -/

/-- The resting orders of one side, in level order. -/
def sideOrders (levels : List PriceLevel) : List Order :=
  levels.flatMap PriceLevel.orders

/-- One price level is well formed on side `side`: it is retained only while
non-empty, its aggregate equals the sum of its orders' remainders, and every
resting order has a positive remainder and rests at this price on this
side. -/
def lvlWF (side : OrderSide) (l : PriceLevel) : Prop :=
  l.orders ≠ [] ∧
  l.total_quantity = l.agg ∧
  ∀ o ∈ l.orders, 0 < o.remaining_quantity ∧ o.price = some l.price ∧ o.side = side

/-- One side is well formed: pairwise-distinct level prices and well-formed
levels. -/
def sideWF (side : OrderSide) (levels : List PriceLevel) : Prop :=
  (levels.map PriceLevel.price).Nodup ∧ ∀ l ∈ levels, lvlWF side l

/-- The whole book is well formed: both sides well formed, globally distinct
resting order ids, a duplicate-free index, and every resting order
indexed. -/
def bookWF (b : OrderBook) : Prop :=
  sideWF OrderSide.buy b.bids ∧ sideWF OrderSide.sell b.asks ∧
  ((sideOrders b.bids ++ sideOrders b.asks).map Order.order_id).Nodup ∧
  (b.index.map Order.order_id).Nodup ∧
  ∀ oid ∈ (sideOrders b.bids ++ sideOrders b.asks).map Order.order_id,
    oid ∈ b.index.map Order.order_id

/-- The level qualification test of the bounded sweeps and of the FOK
pre-check: a level qualifies when its price is no worse than the limit. -/
def qualifies (takerIsBuy : Bool) (bound : Option ℚ) (l : PriceLevel) : Bool :=
  match bound with
  | some bp => if takerIsBuy then decide (l.price ≤ bp) else decide (bp ≤ l.price)
  | none => true

/-- Total displayed quantity over the qualifying levels of a side. -/
def qualTotal (takerIsBuy : Bool) (bound : Option ℚ) (levels : List PriceLevel) : ℚ :=
  ((levels.filter (qualifies takerIsBuy bound)).map PriceLevel.total_quantity).sum

/-- The bound test of the outer sweep loop: the best price is worse than the
limit (named form of the inline test of `sweepFuel`). -/
def boundViolated (tib : Bool) (bd : Option ℚ) (best : ℚ) : Bool :=
  match bd with
  | some bp => if tib then decide (bp < best) else decide (best < bp)
  | none => false

/-- The facts the inner FIFO walk (`fillLoop`) guarantees on a well-formed
level: conservation of quantity, aggregate consistency of the surviving
level, FIFO consumption, and index hygiene.  `out` is the walk's result. -/
structure FillFacts (taker : Order) (price : ℚ) (makerSide : OrderSide)
    (queue : List Order) (s : LevelSt) (out : List Trade × LevelSt) : Prop where
  rem_eq : out.2.remaining
    = s.remaining - min s.remaining ((queue.map Order.remaining_quantity).sum)
  rem_nonneg : 0 ≤ out.2.remaining
  price_eq : out.2.lvl.price = price
  attached_iff : queue ≠ [] →
    (out.2.attached = true ↔ s.remaining < (queue.map Order.remaining_quantity).sum)
  lvl_orders_ne : queue ≠ [] → out.2.attached = true → out.2.lvl.orders ≠ []
  lvl_tot : out.2.lvl.total_quantity = (out.2.lvl.orders.map Order.remaining_quantity).sum
  lvl_ord : ∀ o ∈ out.2.lvl.orders,
    0 < o.remaining_quantity ∧ o.price = some price ∧ o.side = makerSide
  lvl_tot_eq : out.2.lvl.total_quantity
    = (queue.map Order.remaining_quantity).sum
      - min s.remaining ((queue.map Order.remaining_quantity).sum)
  ids_suffix : ∃ k, out.2.lvl.orders.map Order.order_id = (queue.map Order.order_id).drop k
  idx_nodup : (out.2.index.map Order.order_id).Nodup
  idx_keep : ∀ oid ∈ s.index.map Order.order_id, oid ∉ queue.map Order.order_id →
    oid ∈ out.2.index.map Order.order_id
  idx_sub : ∀ oid ∈ out.2.index.map Order.order_id, oid ∈ s.index.map Order.order_id
  idx_resting : ∀ oid ∈ out.2.lvl.orders.map Order.order_id,
    oid ∈ out.2.index.map Order.order_id
  trades_makers : out.1.map Trade.maker_order_id
    = (queue.map Order.order_id).take out.1.length
  trades_fields : ∀ t ∈ out.1, t.price = price ∧ 0 < t.quantity ∧
    t.taker_order_id = taker.order_id ∧ t.aggressor_side = taker.side
  trades_sum : (out.1.map Trade.quantity).sum
    = min s.remaining ((queue.map Order.remaining_quantity).sum)

/-- The facts one outer sweep (`sweepFuel` with sufficient fuel) guarantees on
a well-formed side: conservation (exactly `min(remaining, qualifying
liquidity)` is filled), preservation of the side's well-formedness and of the
index's hygiene, and price-time ordering of the emitted trades. -/
structure SweepFacts (taker : Order) (takerIsBuy : Bool) (bound : Option ℚ)
    (makerSide : OrderSide) (s : SweepSt) (out : List Trade × SweepSt) : Prop where
  rem_eq : out.2.remaining
    = s.remaining - min s.remaining (qualTotal takerIsBuy bound s.levels)
  rem_nonneg : 0 ≤ out.2.remaining
  wf : sideWF makerSide out.2.levels
  ids_sub : ((out.2.levels.flatMap PriceLevel.orders).map Order.order_id).Sublist
    ((s.levels.flatMap PriceLevel.orders).map Order.order_id)
  resting_idx : ∀ oid ∈ (out.2.levels.flatMap PriceLevel.orders).map Order.order_id,
    oid ∈ out.2.index.map Order.order_id
  idx_nodup : (out.2.index.map Order.order_id).Nodup
  idx_keep : ∀ oid ∈ s.index.map Order.order_id,
    oid ∉ (s.levels.flatMap PriceLevel.orders).map Order.order_id →
    oid ∈ out.2.index.map Order.order_id
  idx_sub : ∀ oid ∈ out.2.index.map Order.order_id, oid ∈ s.index.map Order.order_id
  trades_sum : (out.1.map Trade.quantity).sum
    = min s.remaining (qualTotal takerIsBuy bound s.levels)
  trades_fields : ∀ t ∈ out.1, 0 < t.quantity ∧ t.taker_order_id = taker.order_id ∧
    t.aggressor_side = taker.side ∧
    ∃ lvl ∈ s.levels, t.price = lvl.price ∧ qualifies takerIsBuy bound lvl = true
  trades_mono : (out.1.map Trade.price).Pairwise
    (fun a b => if takerIsBuy then a ≤ b else b ≤ a)
  trades_fifo : ∀ lvl ∈ s.levels,
    (out.1.filter (fun t => t.price = lvl.price)).map Trade.maker_order_id
      = (lvl.orders.map Order.order_id).take
          ((out.1.filter (fun t => t.price = lvl.price)).length)

/-- Price-time priority of one submission's emitted trade list, judged
against the pre-submission opposite side: trade prices are monotone
best-to-worst for the taker (ascending for a BUY, descending for a SELL),
and within each opposite-side level the consumed maker ids form a prefix of
that level's FIFO queue, in queue order. -/
def tradesOrdered (tib : Bool) (levels : List PriceLevel) (ts : List Trade) : Prop :=
  ((ts.map Trade.price).Pairwise (fun a c => if tib then a ≤ c else c ≤ a)) ∧
  ∀ lvl ∈ levels,
    (ts.filter (fun t => t.price = lvl.price)).map Trade.maker_order_id
      = (lvl.orders.map Order.order_id).take
          ((ts.filter (fun t => t.price = lvl.price)).length)

/-! ## Theorems -/

/-! ### C1: the float64 persistence columns lose decimal precision -/

lemma rndTiesEven_eq_up (s : ℚ) (f : ℤ) (h1 : ⌊s⌋ = f) (h2 : 1/2 < s - (f : ℚ)) :
    rndTiesEven s = f + 1 := by
  unfold rndTiesEven
  rw [h1]
  rw [if_neg (by linarith), if_pos h2]

lemma log2_tenth : Int.log 2 ((1 : ℚ)/10) = -4 := by
  have h0 : (0 : ℚ) < 1/10 := by norm_num
  refine le_antisymm ?_ ?_
  · have := (Int.lt_zpow_iff_log_lt (b := 2) (by norm_num) (x := -3) h0).mp ?_
    · omega
    · push_cast
      rw [show ((-3 : ℤ)) = -(3 : ℤ) by ring, zpow_neg]
      norm_num
  · rw [← Int.zpow_le_iff_le_log (by norm_num) h0]
    push_cast
    rw [show ((-4 : ℤ)) = -(4 : ℤ) by ring, zpow_neg]
    norm_num

lemma log2_tenth_plus : Int.log 2 ((1 : ℚ)/10 + 1/10 ^ 27) = -4 := by
  have h0 : (0 : ℚ) < 1/10 + 1/10 ^ 27 := by norm_num
  refine le_antisymm ?_ ?_
  · have := (Int.lt_zpow_iff_log_lt (b := 2) (by norm_num) (x := -3) h0).mp ?_
    · omega
    · push_cast
      rw [show ((-3 : ℤ)) = -(3 : ℤ) by ring, zpow_neg]
      norm_num
  · rw [← Int.zpow_le_iff_le_log (by norm_num) h0]
    push_cast
    rw [show ((-4 : ℤ)) = -(4 : ℤ) by ring, zpow_neg]
    norm_num

lemma roundToDouble_tenth :
    roundToDouble ((1 : ℚ)/10) = 7205759403792794 * 2 ^ ((-56 : ℤ)) := by
  have h0 : (0 : ℚ) < 1/10 := by norm_num
  have hs : ((1 : ℚ)/10) * 2 ^ ((52 : ℤ) - Int.log 2 ((1 : ℚ)/10)) = 36028797018963968/5 := by
    rw [log2_tenth]
    norm_num
  have hfl : ⌊(36028797018963968 : ℚ)/5⌋ = 7205759403792793 := by
    rw [Int.floor_eq_iff]
    norm_num
  have hr : rndTiesEven (((1 : ℚ)/10) * 2 ^ ((52 : ℤ) - Int.log 2 ((1 : ℚ)/10)))
      = 7205759403792794 := by
    rw [hs]
    have h := rndTiesEven_eq_up ((36028797018963968 : ℚ)/5) 7205759403792793 hfl
      (by push_cast; norm_num)
    simpa using h
  unfold roundToDouble
  rw [if_pos h0, hr, log2_tenth]
  norm_num

lemma roundToDouble_tenth_plus :
    roundToDouble ((1 : ℚ)/10 + 1/10 ^ 27) = 7205759403792794 * 2 ^ ((-56 : ℤ)) := by
  have h0 : (0 : ℚ) < 1/10 + 1/10 ^ 27 := by norm_num
  have hs : ((1 : ℚ)/10 + 1/10 ^ 27) * 2 ^ ((52 : ℤ) - Int.log 2 ((1 : ℚ)/10 + 1/10 ^ 27))
      = 53687091200000000000000000536870912/7450580596923828125 := by
    rw [log2_tenth_plus]
    norm_num
  have hfl : ⌊(53687091200000000000000000536870912 : ℚ)/7450580596923828125⌋
      = 7205759403792793 := by
    rw [Int.floor_eq_iff]
    norm_num
  have hr : rndTiesEven (((1 : ℚ)/10 + 1/10 ^ 27)
      * 2 ^ ((52 : ℤ) - Int.log 2 ((1 : ℚ)/10 + 1/10 ^ 27))) = 7205759403792794 := by
    rw [hs]
    have h := rndTiesEven_eq_up
      ((53687091200000000000000000536870912 : ℚ)/7450580596923828125)
      7205759403792793 hfl (by push_cast; norm_num)
    simpa using h
  unfold roundToDouble
  rw [if_pos h0, hr, log2_tenth_plus]
  norm_num

/-- C1.  The claimed persistence round-trip (reload reconstructs `price`,
`quantity`, `filled_quantity` exactly) is impossible: the serializer of
`PersistenceManager._serialize_order` writes the decimals through `float`
into REAL columns, and the two distinct decimal quantities `0.1` and
`0.1 + 10⁻²⁷` are stored as the same binary64 value, so no reload can
reconstruct both.  (The spec itself states "Float64 is insufficient".) -/
theorem C1_float64_collapses_decimals :
    serializeDecimal ((1 : ℚ)/10) = serializeDecimal ((1 : ℚ)/10 + 1/10 ^ 27) ∧
    ((1 : ℚ)/10) ≠ (1 : ℚ)/10 + 1/10 ^ 27 := by
  constructor
  · show roundToDouble _ = roundToDouble _
    rw [roundToDouble_tenth, roundToDouble_tenth_plus]
  · norm_num

/-! ### C3: validation and rejection -/

/-- C3 (corrected).  `submit_order` rejects exactly when `quantity ≤ 0`, or
the order is LIMIT without a price, or a price is present with `price ≤ 0`;
on rejection it returns `(False, reason, [])` with engine state and the
order object — its status included — completely unchanged.  (The original
claim's "status is set to REJECTED" fails: see the counterexample; the code
never assigns `OrderStatus.REJECTED`.) -/
theorem C3_validation_rejects_without_mutation (cfg : EngineCfg) (st : MEState) (o : Order) :
    ((validateOrder o).1 = false ↔
      (o.quantity ≤ 0 ∨ (o.order_type = OrderType.limit ∧ o.price = none) ∨
       ∃ p, o.price = some p ∧ p ≤ 0)) ∧
    ((validateOrder o).1 = false →
      submitOrder cfg st o = ((false, (validateOrder o).2, []), st, o)) := by
  constructor
  · unfold validateOrder
    by_cases hq : o.quantity ≤ 0
    · simp [hq]
    · rcases hp : o.price with _ | p
      · by_cases hl : o.order_type = OrderType.limit
        · simp [hq, hl, hp]
        · simp [hq, hl, hp]
      · by_cases hpp : p ≤ 0
        · simp [hq, hp, hpp]
        · simp only [validateOrder]
          simp [hq, hp, hpp]
  · intro hf
    unfold submitOrder
    simp [hf]

/-- C3 counterexample: submitting a `quantity = 0` LIMIT order is rejected
with `(False, "Invalid quantity", [])`, but the order's status afterwards is
PENDING, not the claimed REJECTED. -/
theorem C3_counterexample_status_not_rejected :
    (submitOrder sampleCfg emptyState
        (mkOrder "V" OrderSide.buy OrderType.limit (some 1) 0 1)).1
      = (false, "Invalid quantity", []) ∧
    ((submitOrder sampleCfg emptyState
        (mkOrder "V" OrderSide.buy OrderType.limit (some 1) 0 1)).2.2).status
      = OrderStatus.pending ∧
    OrderStatus.pending ≠ OrderStatus.rejected := by
  refine ⟨?_, ?_, by decide⟩ <;> rfl

/-- C3 witness: the rejection theorem applied to a concrete invalid order and
engine state. -/
theorem C3_witness :
    submitOrder sampleCfg stateAskHalf
        (mkOrder "W3" OrderSide.sell OrderType.limit none 1 5)
      = ((false, "Price required for limit orders", []), stateAskHalf,
         mkOrder "W3" OrderSide.sell OrderType.limit none 1 5) := by
  have h := (C3_validation_rejects_without_mutation sampleCfg stateAskHalf
    (mkOrder "W3" OrderSide.sell OrderType.limit none 1 5)).2 (by rfl)
  exact h

/-! ### C9: fee computation -/

/-- C9.  Every trade created by `_create_trade_fast` carries
`maker_fee = price·quantity·maker_rate` and
`taker_fee = price·quantity·taker_rate`, computed exactly; with the default
rates 0.001/0.002 a trade of `(50000, 1.0)` yields fees 50 and 100. -/
theorem C9_fee_computation (cfg : EngineCfg) (price qty : ℚ) (maker taker : Order) :
    (createTradeFast cfg price qty maker taker).maker_fee = price * qty * cfg.maker_fee ∧
    (createTradeFast cfg price qty maker taker).taker_fee = price * qty * cfg.taker_fee ∧
    (createTradeFast sampleCfg 50000 1 maker taker).maker_fee = 50 ∧
    (createTradeFast sampleCfg 50000 1 maker taker).taker_fee = 100 := by
  refine ⟨?_, ?_, ?_, ?_⟩ <;> simp [createTradeFast, sampleCfg] <;> ring_nf <;> norm_num

/-! ### C10: the accepted flag only reflects validation -/

/-- C10.  For the four supported order types, an order that passes
`_validate_order` is always answered `(True, "Order processed successfully",
trades)` — whatever the matching outcome — and an `accepted = False` answer
can only come from a validation failure. -/
theorem C10_accepted_flag_only_validation (cfg : EngineCfg) (st : MEState) (o : Order)
    (hty : o.order_type = OrderType.market ∨ o.order_type = OrderType.limit ∨
           o.order_type = OrderType.ioc ∨ o.order_type = OrderType.fok) :
    ((validateOrder o).1 = true →
        (submitOrder cfg st o).1.1 = true ∧
        (submitOrder cfg st o).1.2.1 = "Order processed successfully") ∧
    ((submitOrder cfg st o).1.1 = false → (validateOrder o).1 = false) := by
  constructor
  · intro hv
    rcases hty with h | h | h | h <;> simp [submitOrder, hv, h]
  · intro hf
    by_contra hne
    have hv : (validateOrder o).1 = true := by
      cases hvv : (validateOrder o).1
      · exact absurd hvv hne
      · rfl
    rcases hty with h | h | h | h <;> simp [submitOrder, hv, h] at hf

unseal Rat.mul Rat.inv Rat.add Rat.sub in
/-- C10 witness: a FOK order that fails its pre-check is answered
`(True, success message, [])` while its status ends CANCELLED — the accepted
flag does not mean the order filled or rested. -/
theorem C10_witness :
    (submitOrder sampleCfg stateAskHalf
        (mkOrder "F" OrderSide.buy OrderType.fok (some 50000) 1 2)).1.1 = true ∧
    (submitOrder sampleCfg stateAskHalf
        (mkOrder "F" OrderSide.buy OrderType.fok (some 50000) 1 2)).1.2.1
      = "Order processed successfully" ∧
    (submitOrder sampleCfg stateAskHalf
        (mkOrder "F" OrderSide.buy OrderType.fok (some 50000) 1 2)).1.2.2 = [] ∧
    ((submitOrder sampleCfg stateAskHalf
        (mkOrder "F" OrderSide.buy OrderType.fok (some 50000) 1 2)).2.2).status
      = OrderStatus.cancelled := by
  have h := C10_accepted_flag_only_validation sampleCfg stateAskHalf
    (mkOrder "F" OrderSide.buy OrderType.fok (some 50000) 1 2)
    (Or.inr (Or.inr (Or.inr rfl)))
  have hv := h.1 (by decide)
  exact ⟨hv.1, hv.2, by decide, by decide⟩

/-! ### List utilities for the sweep proofs -/

lemma writeBack_map_id (o : Order) (os : List Order) :
    (writeBack o os).map Order.order_id = os.map Order.order_id := by
  induction os with
  | nil => rfl
  | cons a as ih =>
      by_cases h : a.order_id = o.order_id
      · simp [writeBack, h] at ih ⊢
        exact ih
      · simp [writeBack, h] at ih ⊢
        exact ih

lemma writeBack_cons_head (o m : Order) (rest : List Order) (h : o.order_id = m.order_id)
    (hrest : ∀ x ∈ rest, x.order_id ≠ m.order_id) :
    writeBack o (m :: rest) = o :: rest := by
  unfold writeBack
  rw [List.map_cons, if_pos h.symm]
  congr 1
  induction rest with
  | nil => rfl
  | cons b bs ih =>
      rw [List.map_cons, if_neg]
      · rw [ih (fun x hx => hrest x (List.mem_cons_of_mem b hx))]
      · rw [h]
        exact hrest b (List.mem_cons_self b bs)

lemma find?_writeBack (o : Order) (os : List Order)
    (h : o.order_id ∈ os.map Order.order_id) :
    (writeBack o os).find? (fun e => e.order_id = o.order_id) = some o := by
  induction os with
  | nil => simp at h
  | cons a as ih =>
      by_cases ha : a.order_id = o.order_id
      · unfold writeBack
        rw [List.map_cons, if_pos ha]
        exact List.find?_cons_of_pos _ (by simp)
      · have h' : o.order_id ∈ as.map Order.order_id := by
          rcases List.mem_map.mp h with ⟨x, hx, hid⟩
          rcases List.mem_cons.mp hx with rfl | hxs
          · exact absurd hid ha
          · exact List.mem_map.mpr ⟨x, hxs, hid⟩
        unfold writeBack
        rw [List.map_cons, if_neg ha]
        rw [List.find?_cons_of_neg _ (by simp [ha])]
        exact ih h'

lemma eraseP_id_map_mem (tid oid : String) (os : List Order) (hne : oid ≠ tid)
    (h : oid ∈ os.map Order.order_id) :
    oid ∈ (os.eraseP (fun e => e.order_id = tid)).map Order.order_id := by
  induction os with
  | nil => simp at h
  | cons a as ih =>
      by_cases ha : a.order_id = tid
      · rw [List.eraseP_cons_of_pos (by simp [ha])]
        rcases List.mem_map.mp h with ⟨x, hx, hid⟩
        rcases List.mem_cons.mp hx with rfl | hxs
        · exact absurd hid.symm (by rw [ha]; exact hne.symm ∘ Eq.symm)
        · exact List.mem_map.mpr ⟨x, hxs, hid⟩
      · rw [List.eraseP_cons_of_neg (by simp [ha])]
        rcases List.mem_map.mp h with ⟨x, hx, hid⟩
        rcases List.mem_cons.mp hx with rfl | hxs
        · exact List.mem_map.mpr ⟨x, List.mem_cons_self _ _, hid⟩
        · rw [List.map_cons]
          exact List.mem_cons_of_mem _ (ih (List.mem_map.mpr ⟨x, hxs, hid⟩))

lemma eraseP_id_map_subset (tid : String) (os : List Order) :
    ∀ oid ∈ (os.eraseP (fun e => e.order_id = tid)).map Order.order_id,
      oid ∈ os.map Order.order_id := by
  intro oid h
  exact ((List.eraseP_sublist os).map Order.order_id).mem h

lemma eraseP_id_nodup (tid : String) (os : List Order)
    (h : (os.map Order.order_id).Nodup) :
    ((os.eraseP (fun e => e.order_id = tid)).map Order.order_id).Nodup :=
  ((List.eraseP_sublist os).map Order.order_id).nodup h

lemma bestPriceList_eq_none (is_bid : Bool) (ps : List ℚ) :
    bestPriceList is_bid ps = none ↔ ps = [] := by
  cases ps with
  | nil => simp [bestPriceList]
  | cons p ps' =>
      simp only [bestPriceList]
      cases bestPriceList is_bid ps' <;> simp

lemma bestPriceList_mem (is_bid : Bool) (ps : List ℚ) (p : ℚ)
    (h : bestPriceList is_bid ps = some p) : p ∈ ps := by
  induction ps generalizing p with
  | nil => simp [bestPriceList] at h
  | cons q qs ih =>
      simp only [bestPriceList] at h
      cases hq : bestPriceList is_bid qs with
      | none =>
          rw [hq] at h
          simp at h
          simp [h]
      | some b =>
          rw [hq] at h
          simp at h
          cases is_bid with
          | true =>
              simp at h
              rcases max_choice q b with hm | hm <;> rw [hm] at h
              · simp [h]
              · exact List.mem_cons_of_mem _ (h ▸ ih b hq)
          | false =>
              simp at h
              rcases min_choice q b with hm | hm <;> rw [hm] at h
              · simp [h]
              · exact List.mem_cons_of_mem _ (h ▸ ih b hq)

lemma bestPriceList_min_le (ps : List ℚ) (p : ℚ)
    (h : bestPriceList false ps = some p) : ∀ q ∈ ps, p ≤ q := by
  induction ps generalizing p with
  | nil => simp [bestPriceList] at h
  | cons a as ih =>
      simp only [bestPriceList] at h
      cases hq : bestPriceList false as with
      | none =>
          rw [hq] at h
          have has : as = [] := (bestPriceList_eq_none false as).mp hq
          simp at h
          subst has
          intro q hqmem
          simp at hqmem
          subst hqmem
          exact le_of_eq h.symm
      | some b =>
          rw [hq] at h
          simp at h
          intro q hqmem
          rcases List.mem_cons.mp hqmem with rfl | hmem
          · rw [← h]; exact min_le_left _ _
          · rw [← h]; exact le_trans (min_le_right a b) (ih b hq q hmem)

lemma min_shift (r a b : ℚ) : min r (a + b) = a + min (r - a) b := by
  rcases le_total (r - a) b with h | h
  · rw [min_eq_left h, min_eq_left (by linarith)]
    ring
  · rw [min_eq_right h, min_eq_right (by linarith)]

lemma fillLoop_nonpos (cfg : EngineCfg) (taker : Order) (price : ℚ) (makerSide : OrderSide)
    (queue : List Order) (s : LevelSt) (h : s.remaining ≤ 0) :
    fillLoop cfg taker price makerSide queue s = ([], s) := by
  cases queue with
  | nil => rfl
  | cons m rest =>
      simp only [fillLoop]
      rw [if_pos h]

/-- One step of the inner walk: the head maker is fully filled, marked
FILLED, removed from the level and the index; the reconciled level survives
exactly when the rest of the FIFO still has displayed quantity. -/
lemma fillLoop_cons_full (cfg : EngineCfg) (taker : Order) (price : ℚ)
    (makerSide : OrderSide) (m : Order) (rest : List Order) (s : LevelSt)
    (m2 : Order) (s1 : LevelSt)
    (hr0 : ¬ s.remaining ≤ 0)
    (hsync : s.lvl.orders = m :: rest)
    (hatt : s.attached = true)
    (hrestne : ∀ x ∈ rest, x.order_id ≠ m.order_id)
    (hidx : m.order_id ∈ s.index.map Order.order_id)
    (hms : m.side = makerSide)
    (hmp : m.price = some s.lvl.price)
    (hm2 : m2 = { m with
                  filled_quantity := m.filled_quantity + min s.remaining m.remaining_quantity,
                  status := OrderStatus.filled })
    (hc : m2.remaining_quantity = 0)
    (htne : ¬ s.lvl.total_quantity ≤ 0)
    (hs1 : s1 = { lvl := { price := s.lvl.price, orders := rest,
                           total_quantity := (rest.map Order.remaining_quantity).sum },
                  attached := !decide ((rest.map Order.remaining_quantity).sum ≤ 0),
                  index := (writeBack m2 s.index).eraseP (fun e => e.order_id = m.order_id),
                  remaining := s.remaining - min s.remaining m.remaining_quantity,
                  enq := s.enq ++ [m2] }) :
    fillLoop cfg taker price makerSide (m :: rest) s =
      (createTradeFast cfg price (min s.remaining m.remaining_quantity) m taker ::
          (fillLoop cfg taker price makerSide rest s1).1,
       (fillLoop cfg taker price makerSide rest s1).2) := by
  subst hm2
  subst hs1
  have hcq : ({ m with
      filled_quantity := m.filled_quantity + min s.remaining m.remaining_quantity,
      status := OrderStatus.filled } : Order).quantity
      - ({ m with
          filled_quantity := m.filled_quantity + min s.remaining m.remaining_quantity,
          status := OrderStatus.filled } : Order).filled_quantity = 0 := hc
  have hwb : writeBack { m with
      filled_quantity := m.filled_quantity + min s.remaining m.remaining_quantity,
      status := OrderStatus.filled } s.lvl.orders
      = { m with
          filled_quantity := m.filled_quantity + min s.remaining m.remaining_quantity,
          status := OrderStatus.filled } :: rest := by
    rw [hsync]
    exact writeBack_cons_head _ m rest rfl hrestne
  have hfind2 : List.find? (fun e => decide (e.order_id = m.order_id))
      (writeBack { m with
        filled_quantity := m.filled_quantity + min s.remaining m.remaining_quantity,
        status := OrderStatus.filled } s.index)
      = some { m with
          filled_quantity := m.filled_quantity + min s.remaining m.remaining_quantity,
          status := OrderStatus.filled } :=
    find?_writeBack { m with
      filled_quantity := m.filled_quantity + min s.remaining m.remaining_quantity,
      status := OrderStatus.filled } s.index hidx
  simp only [fillLoop]
  rw [if_neg hr0]
  rw [if_pos (show ({ m with filled_quantity :=
      m.filled_quantity + min s.remaining m.remaining_quantity } : Order).remaining_quantity
      = 0 from hc)]
  rw [hfind2]
  dsimp only
  rw [hatt]
  rw [show decide (({ m with
      filled_quantity := m.filled_quantity + min s.remaining m.remaining_quantity,
      status := OrderStatus.filled } : Order).side = makerSide) = true
    from decide_eq_true hms]
  rw [show decide (({ m with
      filled_quantity := m.filled_quantity + min s.remaining m.remaining_quantity,
      status := OrderStatus.filled } : Order).price = some s.lvl.price) = true
    from decide_eq_true hmp]
  rw [hwb]
  rw [show PriceLevel.remove_order
      { price := s.lvl.price,
        orders := { m with
          filled_quantity := m.filled_quantity + min s.remaining m.remaining_quantity,
          status := OrderStatus.filled } :: rest,
        total_quantity := s.lvl.total_quantity } m.order_id
      = ({ price := s.lvl.price, orders := rest, total_quantity := s.lvl.total_quantity },
         true) from ?_]
  rotate_left
  · rw [PriceLevel.remove_order]
    rw [List.find?_cons_of_pos _ (by simp)]
    dsimp only
    rw [List.eraseP_cons_of_pos (by simp)]
    rw [show ({ m with
        filled_quantity := m.filled_quantity + min s.remaining m.remaining_quantity,
        status := OrderStatus.filled } : Order).remaining_quantity = 0 from hc]
    rw [sub_zero, if_neg (fun hlt => htne (le_of_lt hlt))]
  rw [show PriceLevel.emptyCheck
      { price := s.lvl.price, orders := rest, total_quantity := s.lvl.total_quantity }
      = (decide ((rest.map Order.remaining_quantity).sum ≤ 0),
         { price := s.lvl.price, orders := rest,
           total_quantity := (rest.map Order.remaining_quantity).sum }) from ?_]
  rotate_left
  · rw [PriceLevel.emptyCheck, if_neg htne]
    simp [PriceLevel.agg]
  simp only [Bool.true_and, Bool.and_true]
  cases hdec : decide ((rest.map Order.remaining_quantity).sum ≤ 0) <;> simp

/-- One step of the inner walk: the head maker is only partially filled,
marked PARTIALLY_FILLED; the level aggregate is decremented by the fill and
the maker stays at the head of the FIFO. -/
lemma fillLoop_cons_part (cfg : EngineCfg) (taker : Order) (price : ℚ)
    (makerSide : OrderSide) (m : Order) (rest : List Order) (s : LevelSt)
    (m2 : Order) (s1 : LevelSt)
    (hr0 : ¬ s.remaining ≤ 0)
    (hsync : s.lvl.orders = m :: rest)
    (hrestne : ∀ x ∈ rest, x.order_id ≠ m.order_id)
    (hm2 : m2 = { m with
                  filled_quantity := m.filled_quantity + min s.remaining m.remaining_quantity,
                  status := OrderStatus.partiallyFilled })
    (hc : ¬ ({ m with filled_quantity :=
        m.filled_quantity + min s.remaining m.remaining_quantity } : Order).remaining_quantity
        = 0)
    (hfq : ¬ min s.remaining m.remaining_quantity ≤ 0)
    (hm2pos : ¬ m2.remaining_quantity ≤ 0)
    (hnc : ¬ s.lvl.total_quantity - min s.remaining m.remaining_quantity < 0)
    (hs1 : s1 = { lvl := { price := s.lvl.price, orders := m2 :: rest,
                           total_quantity :=
                             s.lvl.total_quantity - min s.remaining m.remaining_quantity },
                  attached := s.attached,
                  index := writeBack m2 s.index,
                  remaining := s.remaining - min s.remaining m.remaining_quantity,
                  enq := s.enq ++ [m2] }) :
    fillLoop cfg taker price makerSide (m :: rest) s =
      (createTradeFast cfg price (min s.remaining m.remaining_quantity) m taker ::
          (fillLoop cfg taker price makerSide rest s1).1,
       (fillLoop cfg taker price makerSide rest s1).2) := by
  subst hm2
  subst hs1
  have hwb : writeBack { m with
      filled_quantity := m.filled_quantity + min s.remaining m.remaining_quantity,
      status := OrderStatus.partiallyFilled } s.lvl.orders
      = { m with
          filled_quantity := m.filled_quantity + min s.remaining m.remaining_quantity,
          status := OrderStatus.partiallyFilled } :: rest := by
    rw [hsync]
    exact writeBack_cons_head _ m rest rfl hrestne
  simp only [fillLoop]
  rw [if_neg hr0]
  rw [if_neg hc]
  rw [hwb]
  rw [show PriceLevel.update_quantity
      { price := s.lvl.price,
        orders := { m with
          filled_quantity := m.filled_quantity + min s.remaining m.remaining_quantity,
          status := OrderStatus.partiallyFilled } :: rest,
        total_quantity := s.lvl.total_quantity } m.order_id
        (min s.remaining m.remaining_quantity)
      = { price := s.lvl.price,
          orders := { m with
            filled_quantity := m.filled_quantity + min s.remaining m.remaining_quantity,
            status := OrderStatus.partiallyFilled } :: rest,
          total_quantity :=
            s.lvl.total_quantity - min s.remaining m.remaining_quantity } from ?_]
  · rw [PriceLevel.update_quantity, if_neg hfq]
    rw [List.find?_cons_of_pos _ (by simp)]
    dsimp only
    rw [if_neg hnc, if_neg hm2pos]

lemma fillLoop_spec (cfg : EngineCfg) (taker : Order) (price : ℚ) (makerSide : OrderSide)
    (queue : List Order) (s : LevelSt)
    (hsync : s.lvl.orders = queue)
    (hprice : s.lvl.price = price)
    (hatt : s.attached = true)
    (htot : s.lvl.total_quantity = (queue.map Order.remaining_quantity).sum)
    (hord : ∀ o ∈ queue, 0 < o.remaining_quantity ∧ o.price = some price ∧ o.side = makerSide)
    (hqN : (queue.map Order.order_id).Nodup)
    (hqI : ∀ oid ∈ queue.map Order.order_id, oid ∈ s.index.map Order.order_id)
    (hiN : (s.index.map Order.order_id).Nodup)
    (hr : 0 ≤ s.remaining) :
    FillFacts taker price makerSide queue s (fillLoop cfg taker price makerSide queue s) := by
  induction queue generalizing s with
  | nil =>
      rw [show fillLoop cfg taker price makerSide [] s = ([], s) from rfl]
      refine { rem_eq := ?b1, rem_nonneg := hr, price_eq := hprice,
               attached_iff := fun hne => absurd rfl hne,
               lvl_orders_ne := fun hne => absurd rfl hne,
               lvl_tot := ?b2, lvl_ord := ?b3, lvl_tot_eq := ?b4,
               ids_suffix := ⟨0, by simp [hsync]⟩, idx_nodup := hiN,
               idx_keep := fun oid h _ => h, idx_sub := fun oid h => h,
               idx_resting := ?b5, trades_makers := by simp,
               trades_fields := by simp, trades_sum := ?b6 }
      case b1 => simp [min_eq_right hr]
      case b2 =>
        rw [htot, hsync]
      case b3 =>
        intro o ho
        rw [hsync] at ho
        simp at ho
      case b4 =>
        rw [htot]
        simp [min_eq_right hr]
      case b5 =>
        intro oid h
        rw [hsync] at h
        simp at h
      case b6 => simp [min_eq_right hr]
  | cons m rest ih =>
      obtain ⟨hm_pos, hm_price, hm_side⟩ := hord m (List.mem_cons_self m rest)
      have hqNpair : (∀ x ∈ rest, ¬x.order_id = m.order_id)
          ∧ (rest.map Order.order_id).Nodup := by simpa using hqN
      have hrestne : ∀ x ∈ rest, x.order_id ≠ m.order_id := hqNpair.1
      have hqNrest : (rest.map Order.order_id).Nodup := hqNpair.2
      have hrest_nonneg : 0 ≤ (rest.map Order.remaining_quantity).sum :=
        List.sum_nonneg (by
          intro x hx
          rcases List.mem_map.mp hx with ⟨o, ho, rfl⟩
          exact le_of_lt (hord o (List.mem_cons_of_mem m ho)).1)
      have hA : ((m :: rest).map Order.remaining_quantity).sum
          = m.remaining_quantity + (rest.map Order.remaining_quantity).sum := by simp
      have hApos : 0 < ((m :: rest).map Order.remaining_quantity).sum := by
        rw [hA]
        linarith
      by_cases hr0 : s.remaining ≤ 0
      · have hre : s.remaining = 0 := le_antisymm hr0 hr
        rw [fillLoop_nonpos cfg taker price makerSide (m :: rest) s hr0]
        refine { rem_eq := ?c1, rem_nonneg := hr, price_eq := hprice,
                 attached_iff := ?c2, lvl_orders_ne := fun _ _ => by simp [hsync],
                 lvl_tot := by rw [htot, hsync], lvl_ord := ?c3, lvl_tot_eq := ?c4,
                 ids_suffix := ⟨0, by simp [hsync]⟩, idx_nodup := hiN,
                 idx_keep := fun oid h _ => h, idx_sub := fun oid h => h,
                 idx_resting := ?c5, trades_makers := by simp,
                 trades_fields := by simp, trades_sum := ?c6 }
        case c1 =>
          rw [hre]
          rw [min_eq_left (le_of_lt hApos)]
          simp
        case c2 =>
          intro _
          rw [hatt, hre]
          simp only [true_iff]
          exact hApos
        case c3 =>
          rw [hsync]
          exact hord
        case c4 =>
          rw [htot, hre]
          rw [min_eq_left (le_of_lt hApos)]
          simp
        case c5 =>
          intro oid h
          rw [hsync] at h
          exact hqI oid h
        case c6 =>
          rw [hre]
          rw [min_eq_left (le_of_lt hApos)]
          simp
      · have hmp' : m.price = some s.lvl.price := by rw [hprice]; exact hm_price
        have hidxm : m.order_id ∈ s.index.map Order.order_id :=
          hqI m.order_id (by simp)
        have htne' : ¬ s.lvl.total_quantity ≤ 0 := by
          rw [htot]
          exact not_le.mpr hApos
        by_cases hfull : ({ m with filled_quantity :=
            m.filled_quantity + min s.remaining m.remaining_quantity } : Order).remaining_quantity
            = 0
        · -- the head maker is fully consumed
          have hfr : min s.remaining m.remaining_quantity = m.remaining_quantity := by
            have h1 : m.quantity - (m.filled_quantity
                + min s.remaining m.remaining_quantity) = 0 := hfull
            simp only [Order.remaining_quantity] at h1 ⊢
            linarith
          have hmler : m.remaining_quantity ≤ s.remaining := by
            rw [← hfr]
            exact min_le_left _ _
          rw [fillLoop_cons_full cfg taker price makerSide m rest s _ _ hr0 hsync hatt
            hrestne hidxm hm_side hmp' rfl hfull htne' rfl]
          by_cases hrestnil : rest = []
          · -- rest = []: the level empties and detaches
            subst hrestnil
            rw [show ∀ z : LevelSt,
                fillLoop cfg taker price makerSide ([] : List Order) z = ([], z)
              from fun _ => rfl]
            refine { rem_eq := ?d1, rem_nonneg := ?d2, price_eq := hprice,
                     attached_iff := ?d3, lvl_orders_ne := ?d4,
                     lvl_tot := by simp, lvl_ord := by simp, lvl_tot_eq := ?d5,
                     ids_suffix := ⟨1, by simp⟩, idx_nodup := ?d6,
                     idx_keep := ?d7, idx_sub := ?d8,
                     idx_resting := by simp, trades_makers := by simp [createTradeFast],
                     trades_fields := ?d9, trades_sum := ?d10 }
            case d1 => simp [hfr]
            case d2 =>
              simp only [hfr]
              show (0 : ℚ) ≤ s.remaining - m.remaining_quantity
              linarith
            case d3 =>
              intro _
              constructor
              · intro hab
                simp at hab
              · intro hlt
                rw [hA] at hlt
                simp at hlt
                exact absurd hmler (not_le.mpr hlt)
            case d4 =>
              intro _ hab
              simp at hab
            case d5 => simp [hfr, hA]
            case d6 => exact eraseP_id_nodup _ _ (by rw [writeBack_map_id]; exact hiN)
            case d7 =>
              intro oid h hnot
              have hne : oid ≠ m.order_id := by
                intro hcontra
                exact hnot (by simp [hcontra])
              exact eraseP_id_map_mem m.order_id oid _ hne (by rw [writeBack_map_id]; exact h)
            case d8 =>
              intro oid h
              have h2 := eraseP_id_map_subset m.order_id _ oid h
              rwa [writeBack_map_id] at h2
            case d9 =>
              intro t ht
              simp at ht
              subst ht
              refine ⟨rfl, ?_, rfl, rfl⟩
              show 0 < min s.remaining m.remaining_quantity
              rw [hfr]
              exact hm_pos
            case d10 => simp [createTradeFast, hfr, hA]
          · -- rest nonempty: the level survives attached and the walk continues
            have hrestpos : 0 < (rest.map Order.remaining_quantity).sum := by
              apply List.sum_pos
              · intro q hq
                rcases List.mem_map.mp hq with ⟨o, ho, rfl⟩
                exact (hord o (List.mem_cons_of_mem m ho)).1
              · simpa using hrestnil
            have hdec : decide ((rest.map Order.remaining_quantity).sum ≤ 0) = false :=
              decide_eq_false (not_le.mpr hrestpos)
            have F := ih { lvl := { price := s.lvl.price, orders := rest, total_quantity := (rest.map Order.remaining_quantity).sum }, attached := !decide ((rest.map Order.remaining_quantity).sum ≤ 0), index := (writeBack { m with filled_quantity := m.filled_quantity + min s.remaining m.remaining_quantity, status := OrderStatus.filled } s.index).eraseP (fun e => e.order_id = m.order_id), remaining := s.remaining - min s.remaining m.remaining_quantity, enq := s.enq ++ [{ m with filled_quantity := m.filled_quantity + min s.remaining m.remaining_quantity, status := OrderStatus.filled }] }
              rfl (by rw [hprice]) (by simp [hdec]) rfl
              (fun o ho => hord o (List.mem_cons_of_mem m ho))
              hqNrest
              (fun oid hoid => by
                have hne : oid ≠ m.order_id := by
                  intro hcontra
                  rcases List.mem_map.mp hoid with ⟨x, hx, hid⟩
                  exact hrestne x hx (hid.trans hcontra)
                refine eraseP_id_map_mem m.order_id oid _ hne ?_
                rw [writeBack_map_id]
                refine hqI oid ?_
                simp only [List.map_cons, List.mem_cons]
                exact Or.inr hoid)
              (eraseP_id_nodup _ _ (by rw [writeBack_map_id]; exact hiN))
              (by
                simp only [hfr]
                show (0:ℚ) ≤ s.remaining - m.remaining_quantity
                linarith)
            have hsplit : min s.remaining ((m :: rest).map Order.remaining_quantity).sum
                = m.remaining_quantity
                  + min (s.remaining - m.remaining_quantity)
                      ((rest.map Order.remaining_quantity).sum) := by
              rw [hA]
              exact min_shift _ _ _
            have hs1rem : (({ lvl := { price := s.lvl.price, orders := rest, total_quantity := (rest.map Order.remaining_quantity).sum }, attached := !decide ((rest.map Order.remaining_quantity).sum ≤ 0), index := (writeBack { m with filled_quantity := m.filled_quantity + min s.remaining m.remaining_quantity, status := OrderStatus.filled } s.index).eraseP (fun e => e.order_id = m.order_id), remaining := s.remaining - min s.remaining m.remaining_quantity, enq := s.enq ++ [{ m with filled_quantity := m.filled_quantity + min s.remaining m.remaining_quantity, status := OrderStatus.filled }] } : LevelSt)).remaining
                = s.remaining - m.remaining_quantity := by
              simp [hfr]
            refine { rem_eq := ?e1, rem_nonneg := F.rem_nonneg, price_eq := F.price_eq,
                     attached_iff := ?e2, lvl_orders_ne := fun _ => F.lvl_orders_ne hrestnil,
                     lvl_tot := F.lvl_tot, lvl_ord := F.lvl_ord, lvl_tot_eq := ?e3,
                     ids_suffix := ?e4, idx_nodup := F.idx_nodup,
                     idx_keep := ?e5, idx_sub := ?e6, idx_resting := F.idx_resting,
                     trades_makers := ?e7, trades_fields := ?e8, trades_sum := ?e9 }
            case e1 =>
              show (fillLoop cfg taker price makerSide rest _).2.remaining = _
              rw [F.rem_eq, hs1rem, hsplit]
              ring
            case e2 =>
              intro _
              show (fillLoop cfg taker price makerSide rest _).2.attached = true ↔ _
              rw [F.attached_iff hrestnil, hs1rem, hA]
              constructor <;> intro h <;> linarith
            case e3 =>
              show (fillLoop cfg taker price makerSide rest _).2.lvl.total_quantity = _
              rw [F.lvl_tot_eq, hs1rem, hsplit, hA]
              ring
            case e4 =>
              obtain ⟨k, hk⟩ := F.ids_suffix
              exact ⟨k + 1, by rw [hk]; simp⟩
            case e5 =>
              intro oid h hnot
              have hne : oid ≠ m.order_id := by
                intro hcontra
                exact hnot (by simp [hcontra])
              have hnotrest : oid ∉ rest.map Order.order_id := by
                intro hcontra
                refine hnot ?_
                simp only [List.map_cons, List.mem_cons]
                exact Or.inr hcontra
              refine F.idx_keep oid ?_ hnotrest
              exact eraseP_id_map_mem m.order_id oid _ hne (by rw [writeBack_map_id]; exact h)
            case e6 =>
              intro oid h
              have h2 := F.idx_sub oid h
              have h3 := eraseP_id_map_subset m.order_id _ oid h2
              rwa [writeBack_map_id] at h3
            case e7 =>
              show (createTradeFast cfg price (min s.remaining m.remaining_quantity) m taker
                  :: (fillLoop cfg taker price makerSide rest _).1).map Trade.maker_order_id = _
              rw [List.map_cons, F.trades_makers]
              simp [createTradeFast]
            case e8 =>
              intro t ht
              rcases List.mem_cons.mp ht with rfl | hmem
              · refine ⟨rfl, ?_, rfl, rfl⟩
                show 0 < min s.remaining m.remaining_quantity
                rw [hfr]
                exact hm_pos
              · exact F.trades_fields t hmem
            case e9 =>
              show ((createTradeFast cfg price (min s.remaining m.remaining_quantity) m taker
                  :: (fillLoop cfg taker price makerSide rest _).1).map Trade.quantity).sum = _
              rw [List.map_cons, List.sum_cons, F.trades_sum, hs1rem, hsplit, hfr]
              simp [createTradeFast, hfr]
        · -- the head maker is only partially filled; the taker is exhausted
          have hkey : min s.remaining m.remaining_quantity = s.remaining
              ∧ s.remaining < m.remaining_quantity := by
            rcases min_cases s.remaining m.remaining_quantity with ⟨hmin, hle⟩ | ⟨hmin, hlt⟩
            · refine ⟨hmin, lt_of_le_of_ne hle ?_⟩
              intro hcontra
              apply hfull
              show m.quantity - (m.filled_quantity + min s.remaining m.remaining_quantity) = 0
              rw [hmin, hcontra]
              show m.quantity - (m.filled_quantity + (m.quantity - m.filled_quantity)) = 0
              ring
            · exfalso
              apply hfull
              show m.quantity - (m.filled_quantity + min s.remaining m.remaining_quantity) = 0
              rw [hmin]
              show m.quantity - (m.filled_quantity + (m.quantity - m.filled_quantity)) = 0
              ring
          have hfq : ¬ min s.remaining m.remaining_quantity ≤ 0 := by
            rw [hkey.1]
            exact hr0
          have hm2pos : ¬ ({ m with
              filled_quantity := m.filled_quantity + min s.remaining m.remaining_quantity,
              status := OrderStatus.partiallyFilled } : Order).remaining_quantity ≤ 0 := by
            show ¬ m.quantity - (m.filled_quantity + min s.remaining m.remaining_quantity) ≤ 0
            have h2 := hkey.2
            simp only [Order.remaining_quantity] at h2
            rw [hkey.1]
            intro hcontra
            linarith
          have hnc : ¬ s.lvl.total_quantity - min s.remaining m.remaining_quantity < 0 := by
            rw [htot, hkey.1, hA]
            have h2 := hkey.2
            simp only [Order.remaining_quantity] at h2
            intro hcontra
            simp only [Order.remaining_quantity] at hcontra
            linarith
          rw [fillLoop_cons_part cfg taker price makerSide m rest s _ _ hr0 hsync
            hrestne rfl hfull hfq hm2pos hnc rfl]
          rw [fillLoop_nonpos cfg taker price makerSide rest _ (by simp [hkey.1])]
          have hminA : min s.remaining ((m :: rest).map Order.remaining_quantity).sum
              = s.remaining := by
            apply min_eq_left
            rw [hA]
            have h2 := hkey.2
            linarith
          refine { rem_eq := ?f1, rem_nonneg := by simp [hkey.1], price_eq := hprice,
                   attached_iff := ?f2, lvl_orders_ne := fun _ _ => by simp,
                   lvl_tot := ?f3, lvl_ord := ?f4, lvl_tot_eq := ?f5,
                   ids_suffix := ⟨0, by simp⟩, idx_nodup := ?f6,
                   idx_keep := ?f7, idx_sub := ?f8, idx_resting := ?f9,
                   trades_makers := by simp [createTradeFast],
                   trades_fields := ?f10, trades_sum := ?f11 }
          case f1 =>
            rw [hminA]
            simp [hkey.1]
          case f2 =>
            intro _
            show s.attached = true ↔ _
            rw [hatt, hA]
            have h2 := hkey.2
            simp only [true_iff]
            linarith
          case f3 =>
            rw [htot]
            simp only [List.map_cons, List.sum_cons, Order.remaining_quantity]
            ring
          case f4 =>
            intro o ho
            rcases List.mem_cons.mp ho with rfl | hmem
            · refine ⟨?_, hm_price, hm_side⟩
              show 0 < m.quantity - (m.filled_quantity + min s.remaining m.remaining_quantity)
              have h2 := hkey.2
              simp only [Order.remaining_quantity] at h2
              rw [hkey.1]
              linarith
            · exact hord o (List.mem_cons_of_mem m hmem)
          case f5 =>
            show s.lvl.total_quantity - min s.remaining m.remaining_quantity = _
            rw [htot, hminA, hA, hkey.1]
          case f6 =>
            rw [writeBack_map_id]
            exact hiN
          case f7 =>
            intro oid h _
            rwa [writeBack_map_id]
          case f8 =>
            intro oid h
            rwa [writeBack_map_id] at h
          case f9 =>
            intro oid h
            rw [writeBack_map_id]
            apply hqI
            simpa using h
          case f10 =>
            intro t ht
            simp at ht
            subst ht
            refine ⟨rfl, ?_, rfl, rfl⟩
            show 0 < min s.remaining m.remaining_quantity
            rw [hkey.1]
            exact lt_of_not_le hr0
          case f11 =>
            rw [hminA]
            simp [createTradeFast, hkey.1]

lemma bestPriceList_le_max (ps : List ℚ) (p : ℚ)
    (h : bestPriceList true ps = some p) : ∀ q ∈ ps, q ≤ p := by
  induction ps generalizing p with
  | nil => simp [bestPriceList] at h
  | cons a as ih =>
      simp only [bestPriceList] at h
      cases hq : bestPriceList true as with
      | none =>
          rw [hq] at h
          have has : as = [] := (bestPriceList_eq_none true as).mp hq
          simp at h
          subst has
          intro q hqmem
          simp at hqmem
          subst hqmem
          exact le_of_eq h
      | some b =>
          rw [hq] at h
          simp at h
          intro q hqmem
          rcases List.mem_cons.mp hqmem with rfl | hmem
          · rw [← h]; exact le_max_left _ _
          · rw [← h]; exact le_trans (ih b hq q hmem) (le_max_right a b)

lemma lvlWF_agg_pos (side : OrderSide) (l : PriceLevel) (h : lvlWF side l) :
    0 < l.agg := by
  obtain ⟨hne, _, hpos⟩ := h
  refine List.sum_pos _ ?_ ?_
  · intro x hx
    rcases List.mem_map.mp hx with ⟨o, ho, rfl⟩
    exact (hpos o ho).1
  · simpa using hne

lemma lvlWF_total_pos (side : OrderSide) (l : PriceLevel) (h : lvlWF side l) :
    0 < l.total_quantity := by
  rw [h.2.1]
  exact lvlWF_agg_pos side l h

lemma lvlWF_emptyB_false (side : OrderSide) (l : PriceLevel) (h : lvlWF side l) :
    l.emptyB = false := by
  have hta := lvlWF_total_pos side l h
  have hag := lvlWF_agg_pos side l h
  unfold PriceLevel.emptyB PriceLevel.emptyCheck
  rw [if_neg (not_le.mpr hta)]
  simp [not_le.mpr hag]

lemma get_best_price_WF (is_bid : Bool) (side : OrderSide) (levels : List PriceLevel)
    (h : sideWF side levels) :
    get_best_price is_bid levels = bestPriceList is_bid (levels.map PriceLevel.price) := by
  unfold get_best_price
  congr 2
  rw [List.filter_eq_self]
  intro l hl
  rw [lvlWF_emptyB_false side l (h.2 l hl)]
  rfl

lemma find?_price_of_mem (levels : List PriceLevel) (p : ℚ)
    (hmem : p ∈ levels.map PriceLevel.price) :
    ∃ lvl, levels.find? (fun l => l.price = p) = some lvl ∧ lvl ∈ levels ∧ lvl.price = p := by
  cases hfind : levels.find? (fun l => l.price = p) with
  | none =>
      rcases List.mem_map.mp hmem with ⟨lvl, hl, hp⟩
      have := List.find?_eq_none.mp hfind lvl hl
      simp [hp] at this
  | some lvl =>
      refine ⟨lvl, rfl, List.mem_of_find?_eq_some hfind, ?_⟩
      have := List.find?_some hfind
      simpa using this

lemma removeLevel_decomp (p : ℚ) (levels : List PriceLevel) (lvl : PriceLevel)
    (hfind : levels.find? (fun l => l.price = p) = some lvl) :
    ∃ pre post, levels = pre ++ lvl :: post ∧ removeLevel p levels = pre ++ post ∧
      ∀ l ∈ pre, l.price ≠ p := by
  induction levels with
  | nil => simp at hfind
  | cons a as ih =>
      by_cases ha : a.price = p
      · rw [List.find?_cons_of_pos _ (by simpa using ha)] at hfind
        obtain rfl : a = lvl := Option.some.inj hfind
        refine ⟨[], as, rfl, ?_, by simp⟩
        simp [removeLevel, ha]
      · rw [List.find?_cons_of_neg _ (by simpa using ha)] at hfind
        obtain ⟨pre, post, h1, h2, h3⟩ := ih hfind
        refine ⟨a :: pre, post, by rw [h1]; rfl, ?_, ?_⟩
        · show removeLevel p (a :: as) = a :: (pre ++ post)
          simp only [removeLevel]
          rw [if_neg ha, h2]
        · intro l hl
          rcases List.mem_cons.mp hl with rfl | hm
          · exact ha
          · exact h3 l hm

lemma nodup_middle_price_ne (pre post : List PriceLevel) (lvl : PriceLevel)
    (hN : ((pre ++ lvl :: post).map PriceLevel.price).Nodup) :
    ∀ l ∈ post, l.price ≠ lvl.price := by
  rw [List.map_append, List.map_cons] at hN
  have h := (List.nodup_append.mp hN).2.1
  have hnm := (List.nodup_cons.mp h).1
  intro l hl heq
  exact hnm (heq ▸ List.mem_map_of_mem PriceLevel.price hl)

lemma replaceLevel_decomp (p : ℚ) (l' : PriceLevel) (pre post : List PriceLevel)
    (lvl : PriceLevel) (hpre : ∀ l ∈ pre, l.price ≠ p) (hlvl : lvl.price = p)
    (hpost : ∀ l ∈ post, l.price ≠ p) :
    replaceLevel p l' (pre ++ lvl :: post) = pre ++ l' :: post := by
  have mapid : ∀ (xs : List PriceLevel), (∀ l ∈ xs, l.price ≠ p) →
      xs.map (fun l => if l.price = p then l' else l) = xs := by
    intro xs
    induction xs with
    | nil => intro _; rfl
    | cons a as ih =>
        intro hx
        simp only [List.map_cons]
        rw [if_neg (hx a (List.mem_cons_self a as)),
          ih (fun l hl => hx l (List.mem_cons_of_mem a hl))]
  unfold replaceLevel
  rw [List.map_append, List.map_cons, if_pos hlvl, mapid pre hpre, mapid post hpost]

lemma qualTotal_append (tb : Bool) (bd : Option ℚ) (l₁ l₂ : List PriceLevel) :
    qualTotal tb bd (l₁ ++ l₂) = qualTotal tb bd l₁ + qualTotal tb bd l₂ := by
  unfold qualTotal
  rw [List.filter_append, List.map_append, List.sum_append]

lemma qualTotal_cons (tb : Bool) (bd : Option ℚ) (l : PriceLevel) (ls : List PriceLevel) :
    qualTotal tb bd (l :: ls)
      = (if qualifies tb bd l then l.total_quantity else 0) + qualTotal tb bd ls := by
  unfold qualTotal
  by_cases h : qualifies tb bd l <;> simp [List.filter_cons, h]

lemma qualTotal_nonneg (tb : Bool) (bd : Option ℚ) (levels : List PriceLevel)
    (h : ∀ l ∈ levels, 0 ≤ l.total_quantity) : 0 ≤ qualTotal tb bd levels := by
  refine List.sum_nonneg ?_
  intro x hx
  rcases List.mem_map.mp hx with ⟨l, hl, rfl⟩
  exact h l (List.mem_of_mem_filter hl)

lemma qualTotal_zero_of_none (tb : Bool) (bd : Option ℚ) (levels : List PriceLevel)
    (h : ∀ l ∈ levels, qualifies tb bd l = false) : qualTotal tb bd levels = 0 := by
  unfold qualTotal
  have : levels.filter (qualifies tb bd) = [] := by
    rw [List.filter_eq_nil_iff]
    intro a ha
    simp [h a ha]
  rw [this]
  rfl

lemma nodup_outer_not_mem {α : Type} (A B C : List α) (hN : (A ++ (B ++ C)).Nodup) :
    ∀ x, x ∈ A ∨ x ∈ C → x ∉ B := by
  intro x hx hxB
  rcases List.nodup_append.mp hN with ⟨_, hBC, hdisj⟩
  rcases List.nodup_append.mp hBC with ⟨_, _, hdisj2⟩
  rcases hx with h | h
  · exact hdisj h (List.mem_append.mpr (Or.inl hxB))
  · exact hdisj2 hxB h

lemma pairwise_of_all_eq {α : Type} (r : α → α → Prop) (c : α) (h : r c c) (l : List α)
    (hall : ∀ x ∈ l, x = c) : l.Pairwise r := by
  induction l with
  | nil => exact List.Pairwise.nil
  | cons a as ih =>
      refine List.Pairwise.cons ?_ (ih fun x hx => hall x (List.mem_cons_of_mem a hx))
      intro b hb
      rw [hall a (List.mem_cons_self a as), hall b (List.mem_cons_of_mem a hb)]
      exact h

lemma eq_of_price_nodup (levels : List PriceLevel)
    (hN : (levels.map PriceLevel.price).Nodup)
    (l₁ l₂ : PriceLevel) (h₁ : l₁ ∈ levels) (h₂ : l₂ ∈ levels)
    (hp : l₁.price = l₂.price) : l₁ = l₂ :=
  List.inj_on_of_nodup_map hN h₁ h₂ hp

lemma sweepFuel_nonpos (cfg : EngineCfg) (taker : Order) (tib : Bool) (bd : Option ℚ)
    (fuel : ℕ) (s : SweepSt) (h : s.remaining ≤ 0) :
    sweepFuel cfg taker tib bd fuel s = ([], s) := by
  cases fuel with
  | zero => rfl
  | succ f =>
      simp only [sweepFuel]
      rw [if_pos h]

lemma sweepFuel_no_best (cfg : EngineCfg) (taker : Order) (tib : Bool) (bd : Option ℚ)
    (fuel : ℕ) (s : SweepSt)
    (hbest : get_best_price (!tib) s.levels = none) :
    sweepFuel cfg taker tib bd (fuel + 1) s = ([], s) := by
  simp only [sweepFuel]
  by_cases hr0 : s.remaining ≤ 0
  · rw [if_pos hr0]
  · rw [if_neg hr0, hbest]

lemma sweepFuel_bound_stop (cfg : EngineCfg) (taker : Order) (tib : Bool) (bd : Option ℚ)
    (fuel : ℕ) (s : SweepSt) (best : ℚ)
    (hbest : get_best_price (!tib) s.levels = some best)
    (hbd : boundViolated tib bd best = true) :
    sweepFuel cfg taker tib bd (fuel + 1) s = ([], s) := by
  simp only [sweepFuel]
  by_cases hr0 : s.remaining ≤ 0
  · rw [if_pos hr0]
  · rw [if_neg hr0, hbest]
    dsimp only
    cases bd with
    | none => simp [boundViolated] at hbd
    | some bp =>
        simp only [boundViolated] at hbd
        dsimp only
        rw [if_pos hbd]

lemma sweepFuel_step (cfg : EngineCfg) (taker : Order) (tib : Bool) (bd : Option ℚ)
    (fuel : ℕ) (s : SweepSt) (best : ℚ) (lvl : PriceLevel)
    (hr0 : ¬ s.remaining ≤ 0)
    (hbest : get_best_price (!tib) s.levels = some best)
    (hbd : boundViolated tib bd best = false)
    (hfind : s.levels.find? (fun l => l.price = best) = some lvl) :
    sweepFuel cfg taker tib bd (fuel + 1) s =
      (let r := fillLoop cfg taker best (if tib then OrderSide.sell else OrderSide.buy)
         lvl.orders { lvl := lvl, attached := true, index := s.index,
                      remaining := s.remaining, enq := [] }
       let levels' := if r.2.attached then replaceLevel best r.2.lvl s.levels
                      else removeLevel best s.levels
       let r2 := sweepFuel cfg taker tib bd fuel
         { levels := levels', index := r.2.index, remaining := r.2.remaining,
           enq := s.enq ++ r.2.enq }
       (r.1 ++ r2.1, r2.2)) := by
  simp only [sweepFuel]
  rw [if_neg hr0, hbest]
  dsimp only
  cases bd with
  | none =>
      dsimp only
      simp only [Bool.false_eq_true, if_false]
      rw [hfind]
  | some bp =>
      simp only [boundViolated] at hbd
      dsimp only
      rw [hbd]
      simp only [Bool.false_eq_true, if_false]
      rw [hfind]

lemma sweepFacts_trivial (taker : Order) (takerIsBuy : Bool) (bound : Option ℚ)
    (makerSide : OrderSide) (s : SweepSt)
    (hWF : sideWF makerSide s.levels)
    (hSub : ∀ oid ∈ (s.levels.flatMap PriceLevel.orders).map Order.order_id,
      oid ∈ s.index.map Order.order_id)
    (hiN : (s.index.map Order.order_id).Nodup)
    (hr : 0 ≤ s.remaining)
    (hq0 : min s.remaining (qualTotal takerIsBuy bound s.levels) = 0) :
    SweepFacts taker takerIsBuy bound makerSide s ([], s) := by
  refine { rem_eq := ?a1, rem_nonneg := hr, wf := hWF, ids_sub := List.Sublist.refl _,
           resting_idx := hSub, idx_nodup := hiN, idx_keep := fun oid h _ => h,
           idx_sub := fun oid h => h, trades_sum := ?a2, trades_fields := by simp,
           trades_mono := by simp, trades_fifo := ?a3 }
  case a1 =>
    show s.remaining = s.remaining - min s.remaining (qualTotal takerIsBuy bound s.levels)
    rw [hq0]
    ring
  case a2 =>
    show (([] : List Trade).map Trade.quantity).sum = _
    rw [hq0]
    rfl
  case a3 =>
    intro lvl _
    simp

lemma best_rel (takerIsBuy : Bool) (ps : List ℚ) (best q : ℚ)
    (hbest : bestPriceList (!takerIsBuy) ps = some best) (hq : q ∈ ps) :
    if takerIsBuy then best ≤ q else q ≤ best := by
  cases takerIsBuy with
  | true =>
      show best ≤ q
      exact bestPriceList_min_le ps best (by simpa using hbest) q hq
  | false =>
      show q ≤ best
      exact bestPriceList_le_max ps best (by simpa using hbest) q hq

lemma sweep_spec (cfg : EngineCfg) (taker : Order) (takerIsBuy : Bool) (bound : Option ℚ)
    (makerSide : OrderSide) (fuel : ℕ) (s : SweepSt)
    (hms : makerSide = if takerIsBuy then OrderSide.sell else OrderSide.buy)
    (hWF : sideWF makerSide s.levels)
    (hN : ((s.levels.flatMap PriceLevel.orders).map Order.order_id).Nodup)
    (hSub : ∀ oid ∈ (s.levels.flatMap PriceLevel.orders).map Order.order_id,
      oid ∈ s.index.map Order.order_id)
    (hiN : (s.index.map Order.order_id).Nodup)
    (hr : 0 ≤ s.remaining)
    (hfuel : s.levels.length < fuel) :
    SweepFacts taker takerIsBuy bound makerSide s
      (sweepFuel cfg taker takerIsBuy bound fuel s) := by
  induction fuel generalizing s with
  | zero => exact absurd hfuel (Nat.not_lt_zero _)
  | succ f ih =>
      have htotnn : ∀ l ∈ s.levels, 0 ≤ l.total_quantity :=
        fun l hl => le_of_lt (lvlWF_total_pos makerSide l (hWF.2 l hl))
      have hqnn : 0 ≤ qualTotal takerIsBuy bound s.levels :=
        qualTotal_nonneg _ _ _ htotnn
      by_cases hr0 : s.remaining ≤ 0
      · rw [sweepFuel_nonpos cfg taker takerIsBuy bound (f+1) s hr0]
        refine sweepFacts_trivial _ _ _ _ _ hWF hSub hiN hr ?_
        have hz : s.remaining = 0 := le_antisymm hr0 hr
        rw [hz]
        exact min_eq_left hqnn
      · cases hbest : get_best_price (!takerIsBuy) s.levels with
        | none =>
            rw [sweepFuel_no_best cfg taker takerIsBuy bound f s hbest]
            have hlv : s.levels = [] := by
              rw [get_best_price_WF (!takerIsBuy) makerSide s.levels hWF] at hbest
              exact List.map_eq_nil_iff.mp ((bestPriceList_eq_none _ _).mp hbest)
            refine sweepFacts_trivial _ _ _ _ _ hWF hSub hiN hr ?_
            rw [hlv]
            exact min_eq_right hr
        | some best =>
            have hbest' : bestPriceList (!takerIsBuy) (s.levels.map PriceLevel.price)
                = some best := by
              rw [← get_best_price_WF (!takerIsBuy) makerSide s.levels hWF]
              exact hbest
            have hbmem : best ∈ s.levels.map PriceLevel.price :=
              bestPriceList_mem _ _ _ hbest'
            obtain ⟨bl, hfind, hblmem, hblp⟩ := find?_price_of_mem s.levels best hbmem
            obtain ⟨pre, post, hdec, hremL, hprene⟩ :=
              removeLevel_decomp best s.levels bl hfind
            by_cases hbd : boundViolated takerIsBuy bound best = true
            · rw [sweepFuel_bound_stop cfg taker takerIsBuy bound f s best hbest hbd]
              refine sweepFacts_trivial _ _ _ _ _ hWF hSub hiN hr ?_
              have hq0 : qualTotal takerIsBuy bound s.levels = 0 := by
                refine qualTotal_zero_of_none _ _ _ ?_
                intro l hl
                cases bound with
                | none => simp [boundViolated] at hbd
                | some bp =>
                    cases takerIsBuy with
                    | true =>
                        have hlt : bp < best := by simpa [boundViolated] using hbd
                        have hle : best ≤ l.price :=
                          bestPriceList_min_le (s.levels.map PriceLevel.price) best
                            (by simpa using hbest') l.price
                            (List.mem_map_of_mem PriceLevel.price hl)
                        show qualifies true (some bp) l = false
                        simp [qualifies]
                        linarith
                    | false =>
                        have hlt : best < bp := by simpa [boundViolated] using hbd
                        have hle : l.price ≤ best :=
                          bestPriceList_le_max (s.levels.map PriceLevel.price) best
                            (by simpa using hbest') l.price
                            (List.mem_map_of_mem PriceLevel.price hl)
                        show qualifies false (some bp) l = false
                        simp [qualifies]
                        linarith
              rw [hq0]
              exact min_eq_right hr
            · have hbdf : boundViolated takerIsBuy bound best = false :=
                Bool.eq_false_iff.mpr hbd
              rw [sweepFuel_step cfg taker takerIsBuy bound f s best bl hr0 hbest hbdf hfind]
              dsimp only
              rw [← hms]
              -- shared facts about the best level
              have hWFbl := hWF.2 bl hblmem
              have hqne : bl.orders ≠ [] := hWFbl.1
              have hA : bl.total_quantity = (bl.orders.map Order.remaining_quantity).sum :=
                hWFbl.2.1
              have hApos : 0 < (bl.orders.map Order.remaining_quantity).sum := by
                rw [← hA]
                exact lvlWF_total_pos makerSide bl hWFbl
              have hIds : (s.levels.flatMap PriceLevel.orders).map Order.order_id
                  = ((pre.flatMap PriceLevel.orders).map Order.order_id)
                    ++ ((bl.orders.map Order.order_id)
                      ++ ((post.flatMap PriceLevel.orders).map Order.order_id)) := by
                rw [hdec]
                simp [List.flatMap_append, List.flatMap_cons]
              have hNabc : (((pre.flatMap PriceLevel.orders).map Order.order_id)
                  ++ ((bl.orders.map Order.order_id)
                    ++ ((post.flatMap PriceLevel.orders).map Order.order_id))).Nodup :=
                hIds ▸ hN
              have hdisj := nodup_outer_not_mem _ _ _ hNabc
              have hPN : ((pre ++ bl :: post).map PriceLevel.price).Nodup := by
                rw [← hdec]
                exact hWF.1
              have hpostne : ∀ l ∈ post, l.price ≠ best := by
                intro l hl
                rw [← hblp]
                exact nodup_middle_price_ne pre post bl hPN l hl
              have hqual : qualifies takerIsBuy bound bl = true := by
                cases bound with
                | none => rfl
                | some bp =>
                    cases takerIsBuy with
                    | true =>
                        have hnb : ¬ bp < best := by simpa [boundViolated] using hbdf
                        show qualifies true (some bp) bl = true
                        simp [qualifies, hblp]
                        exact not_lt.mp hnb
                    | false =>
                        have hnb : ¬ best < bp := by simpa [boundViolated] using hbdf
                        show qualifies false (some bp) bl = true
                        simp [qualifies, hblp]
                        exact not_lt.mp hnb
              have hrestnn : 0 ≤ qualTotal takerIsBuy bound (pre ++ post) := by
                refine qualTotal_nonneg _ _ _ ?_
                intro l hl
                refine htotnn l ?_
                rw [hdec]
                rcases List.mem_append.mp hl with h | h
                · exact List.mem_append.mpr (Or.inl h)
                · exact List.mem_append.mpr (Or.inr (List.mem_cons_of_mem bl h))
              have hqdec : qualTotal takerIsBuy bound s.levels
                  = bl.total_quantity + qualTotal takerIsBuy bound (pre ++ post) := by
                rw [hdec, qualTotal_append, qualTotal_cons, if_pos hqual, qualTotal_append]
                ring
              -- the inner walk of the best level
              have F := fillLoop_spec cfg taker best makerSide bl.orders
                { lvl := bl, attached := true, index := s.index,
                  remaining := s.remaining, enq := [] }
                rfl hblp rfl hA
                (fun o ho => by
                  obtain ⟨h1, h2, h3⟩ := hWFbl.2.2 o ho
                  exact ⟨h1, by rw [h2, hblp], h3⟩)
                (List.nodup_append.mp ((List.nodup_append.mp hNabc).2.1)).1
                (fun oid ho => hSub oid (by
                  rw [hIds]
                  exact List.mem_append.mpr
                    (Or.inr (List.mem_append.mpr (Or.inl ho)))))
                hiN hr
              set FL := fillLoop cfg taker best makerSide bl.orders
                { lvl := bl, attached := true, index := s.index,
                  remaining := s.remaining, enq := [] } with hFL
              -- facts about the batch of trades at this level
              have hbprice : ∀ x ∈ FL.1.map Trade.price, x = best := by
                intro x hx
                rcases List.mem_map.mp hx with ⟨t, ht, rfl⟩
                exact (F.trades_fields t ht).1
              have hbmono : (FL.1.map Trade.price).Pairwise
                  (fun a b => if takerIsBuy then a ≤ b else b ≤ a) := by
                refine pairwise_of_all_eq _ best ?_ _ hbprice
                cases takerIsBuy <;> simp
              have hbfields : ∀ t ∈ FL.1, 0 < t.quantity ∧
                  t.taker_order_id = taker.order_id ∧ t.aggressor_side = taker.side ∧
                  ∃ lvl ∈ s.levels, t.price = lvl.price ∧
                    qualifies takerIsBuy bound lvl = true := by
                intro t ht
                obtain ⟨hp, hq, htk, hag⟩ := F.trades_fields t ht
                exact ⟨hq, htk, hag, bl, hblmem, by rw [hp, hblp], hqual⟩
              have hfiltb : FL.1.filter (fun t => t.price = bl.price) = FL.1 := by
                rw [List.filter_eq_self]
                intro t ht
                simp [(F.trades_fields t ht).1, hblp]
              have hfiltne : ∀ lvl : PriceLevel, lvl.price ≠ best →
                  FL.1.filter (fun t => t.price = lvl.price) = [] := by
                intro lvl hpe
                rw [List.filter_eq_nil_iff]
                intro t ht
                simp only [decide_eq_true_eq]
                intro hc
                exact hpe (by rw [← hc, (F.trades_fields t ht).1])
              by_cases hatt2 : FL.2.attached = true
              · -- the taker was exhausted inside this level; it stays attached
                rw [if_pos hatt2]
                have hrlt : s.remaining < (bl.orders.map Order.remaining_quantity).sum :=
                  (F.attached_iff hqne).mp hatt2
                have h0 : FL.2.remaining = 0 := by
                  rw [F.rem_eq, min_eq_left (le_of_lt hrlt)]
                  ring
                rw [show replaceLevel best FL.2.lvl s.levels = pre ++ FL.2.lvl :: post from by
                  rw [hdec]
                  exact replaceLevel_decomp best FL.2.lvl pre post bl hprene hblp hpostne]
                rw [sweepFuel_nonpos cfg taker takerIsBuy bound f _ (le_of_eq h0)]
                dsimp only
                rw [List.append_nil]
                have hminq : min s.remaining (qualTotal takerIsBuy bound s.levels)
                    = s.remaining := by
                  refine min_eq_left ?_
                  rw [hqdec, hA]
                  linarith
                refine { rem_eq := ?c1, rem_nonneg := ?c2, wf := ?c3, ids_sub := ?c4,
                         resting_idx := ?c5, idx_nodup := F.idx_nodup, idx_keep := ?c7,
                         idx_sub := F.idx_sub, trades_sum := ?c9, trades_fields := hbfields,
                         trades_mono := hbmono, trades_fifo := ?c12 }
                case c1 =>
                  show FL.2.remaining = _
                  rw [h0, hminq]
                  ring
                case c2 =>
                  show (0:ℚ) ≤ FL.2.remaining
                  rw [h0]
                case c3 =>
                  constructor
                  · show ((pre ++ FL.2.lvl :: post).map PriceLevel.price).Nodup
                    have hpr : (pre ++ FL.2.lvl :: post).map PriceLevel.price
                        = (pre ++ bl :: post).map PriceLevel.price := by
                      simp [F.price_eq, hblp]
                    rw [hpr]
                    exact hPN
                  · intro l hl
                    rcases List.mem_append.mp hl with h | h
                    · exact hWF.2 l (by rw [hdec]; exact List.mem_append.mpr (Or.inl h))
                    · rcases List.mem_cons.mp h with rfl | h2
                      · refine ⟨F.lvl_orders_ne hqne hatt2, F.lvl_tot, ?_⟩
                        intro o ho
                        obtain ⟨h1, h2, h3⟩ := F.lvl_ord o ho
                        exact ⟨h1, by rw [h2, F.price_eq], h3⟩
                      · exact hWF.2 l (by
                          rw [hdec]
                          exact List.mem_append.mpr (Or.inr (List.mem_cons_of_mem bl h2)))
                case c4 =>
                  show (((pre ++ FL.2.lvl :: post).flatMap PriceLevel.orders).map
                    Order.order_id).Sublist _
                  rw [hIds]
                  simp only [List.flatMap_append, List.flatMap_cons, List.map_append]
                  refine List.Sublist.append (List.Sublist.refl _) ?_
                  refine List.Sublist.append ?_ (List.Sublist.refl _)
                  obtain ⟨k, hk⟩ := F.ids_suffix
                  rw [hk]
                  exact List.drop_sublist _ _
                case c5 =>
                  intro oid ho
                  simp only [List.flatMap_append, List.flatMap_cons, List.map_append,
                    List.mem_append] at ho
                  rcases ho with h | h | h
                  · exact F.idx_keep oid
                      (hSub oid (by rw [hIds]; exact List.mem_append.mpr (Or.inl h)))
                      (hdisj oid (Or.inl h))
                  · exact F.idx_resting oid h
                  · exact F.idx_keep oid
                      (hSub oid (by
                        rw [hIds]
                        exact List.mem_append.mpr (Or.inr (List.mem_append.mpr (Or.inr h)))))
                      (hdisj oid (Or.inr h))
                case c7 =>
                  intro oid hm hnm
                  refine F.idx_keep oid hm ?_
                  intro hq
                  exact hnm (by
                    rw [hIds]
                    exact List.mem_append.mpr (Or.inr (List.mem_append.mpr (Or.inl hq))))
                case c9 =>
                  show (FL.1.map Trade.quantity).sum = _
                  rw [F.trades_sum, min_eq_left (le_of_lt hrlt), hminq]
                case c12 =>
                  intro lvl hl
                  by_cases hpe : lvl.price = best
                  · have hleq : lvl = bl :=
                      eq_of_price_nodup s.levels hWF.1 lvl bl hl hblmem
                        (by rw [hpe, hblp])
                    subst hleq
                    rw [hfiltb]
                    exact F.trades_makers
                  · show (FL.1.filter (fun t => t.price = lvl.price)).map Trade.maker_order_id
                      = (lvl.orders.map Order.order_id).take
                          ((FL.1.filter (fun t => t.price = lvl.price)).length)
                    rw [hfiltne lvl hpe]
                    simp
              · -- the level was emptied and detached; recurse on the rest of the side
                have hattf : FL.2.attached = false := Bool.eq_false_iff.mpr hatt2
                rw [if_neg hatt2, hremL]
                have hAle : (bl.orders.map Order.remaining_quantity).sum ≤ s.remaining := by
                  by_contra hc
                  push_neg at hc
                  have hx := (F.attached_iff hqne).mpr hc
                  rw [hattf] at hx
                  exact Bool.false_ne_true hx
                have hrem1 : FL.2.remaining
                    = s.remaining - (bl.orders.map Order.remaining_quantity).sum := by
                  rw [F.rem_eq, min_eq_right hAle]
                have hWF' : sideWF makerSide (pre ++ post) := by
                  constructor
                  · refine List.Nodup.sublist ?_ hPN
                    rw [List.map_append, List.map_append, List.map_cons]
                    exact List.Sublist.append (List.Sublist.refl _)
                      (List.sublist_cons_self _ _)
                  · intro l hl
                    refine hWF.2 l ?_
                    rw [hdec]
                    rcases List.mem_append.mp hl with h | h
                    · exact List.mem_append.mpr (Or.inl h)
                    · exact List.mem_append.mpr (Or.inr (List.mem_cons_of_mem bl h))
                have hIds' : ((pre ++ post).flatMap PriceLevel.orders).map Order.order_id
                    = ((pre.flatMap PriceLevel.orders).map Order.order_id)
                      ++ ((post.flatMap PriceLevel.orders).map Order.order_id) := by
                  simp [List.flatMap_append]
                have hsubl : (((pre ++ post).flatMap PriceLevel.orders).map
                    Order.order_id).Sublist
                    ((s.levels.flatMap PriceLevel.orders).map Order.order_id) := by
                  rw [hIds', hIds]
                  refine List.Sublist.append (List.Sublist.refl _) ?_
                  exact List.sublist_append_right _ _
                have hN' : (((pre ++ post).flatMap PriceLevel.orders).map
                    Order.order_id).Nodup := List.Nodup.sublist hsubl hN
                have hSub' : ∀ oid ∈ ((pre ++ post).flatMap PriceLevel.orders).map
                    Order.order_id, oid ∈ FL.2.index.map Order.order_id := by
                  intro oid ho
                  rw [hIds'] at ho
                  have hor : oid ∈ (pre.flatMap PriceLevel.orders).map Order.order_id
                      ∨ oid ∈ (post.flatMap PriceLevel.orders).map Order.order_id :=
                    List.mem_append.mp ho
                  refine F.idx_keep oid (hSub oid ?_) (hdisj oid hor)
                  rw [hIds]
                  rcases hor with h | h
                  · exact List.mem_append.mpr (Or.inl h)
                  · exact List.mem_append.mpr (Or.inr (List.mem_append.mpr (Or.inr h)))
                have hfuel' : (pre ++ post).length < f := by
                  have hlen : s.levels.length = (pre ++ post).length + 1 := by
                    rw [hdec]
                    simp only [List.length_append, List.length_cons]
                    omega
                  omega
                have SF := ih { levels := pre ++ post, index := FL.2.index, remaining := FL.2.remaining, enq := s.enq ++ FL.2.enq } hWF' hN' hSub' F.idx_nodup F.rem_nonneg hfuel'
                set SWr := sweepFuel cfg taker takerIsBuy bound f { levels := pre ++ post, index := FL.2.index, remaining := FL.2.remaining, enq := s.enq ++ FL.2.enq } with hSWr
                have SFr : SWr.2.remaining = FL.2.remaining
                    - min FL.2.remaining (qualTotal takerIsBuy bound (pre ++ post)) :=
                  SF.rem_eq
                have SFs : (SWr.1.map Trade.quantity).sum
                    = min FL.2.remaining (qualTotal takerIsBuy bound (pre ++ post)) :=
                  SF.trades_sum
                refine { rem_eq := ?d1, rem_nonneg := SF.rem_nonneg, wf := SF.wf,
                         ids_sub := ?d4, resting_idx := SF.resting_idx,
                         idx_nodup := SF.idx_nodup, idx_keep := ?d7, idx_sub := ?d8,
                         trades_sum := ?d9, trades_fields := ?d10, trades_mono := ?d11,
                         trades_fifo := ?d12 }
                case d1 =>
                  show SWr.2.remaining = _
                  rw [SFr, hrem1, hqdec, min_shift, hA]
                  ring
                case d4 =>
                  exact List.Sublist.trans SF.ids_sub hsubl
                case d7 =>
                  intro oid hm hnm
                  refine SF.idx_keep oid (F.idx_keep oid hm ?_) ?_
                  · intro hq
                    exact hnm (by
                      rw [hIds]
                      exact List.mem_append.mpr (Or.inr (List.mem_append.mpr (Or.inl hq))))
                  · intro hq
                    exact hnm (List.Sublist.subset hsubl hq)
                case d8 =>
                  exact fun oid h => F.idx_sub oid (SF.idx_sub oid h)
                case d9 =>
                  show ((FL.1 ++ SWr.1).map Trade.quantity).sum = _
                  rw [List.map_append, List.sum_append, F.trades_sum, SFs, hrem1,
                    hqdec, min_shift, hA, min_eq_right hAle]
                case d10 =>
                  intro t ht
                  rcases List.mem_append.mp ht with h | h
                  · exact hbfields t h
                  · obtain ⟨hq, htk, hag, lvl2, hl2, hp2, hq2⟩ := SF.trades_fields t h
                    refine ⟨hq, htk, hag, lvl2, ?_, hp2, hq2⟩
                    rw [hdec]
                    rcases List.mem_append.mp hl2 with h2 | h2
                    · exact List.mem_append.mpr (Or.inl h2)
                    · exact List.mem_append.mpr (Or.inr (List.mem_cons_of_mem bl h2))
                case d11 =>
                  show ((FL.1 ++ SWr.1).map Trade.price).Pairwise _
                  rw [List.map_append, List.pairwise_append]
                  refine ⟨hbmono, SF.trades_mono, ?_⟩
                  intro a ha b hb
                  rcases List.mem_map.mp hb with ⟨t, ht, rfl⟩
                  obtain ⟨_, _, _, lvl2, hl2, hp2, _⟩ := SF.trades_fields t ht
                  rw [hbprice a ha, hp2]
                  refine best_rel takerIsBuy (s.levels.map PriceLevel.price) best
                    lvl2.price hbest' (List.mem_map_of_mem PriceLevel.price ?_)
                  rw [hdec]
                  rcases List.mem_append.mp hl2 with h2 | h2
                  · exact List.mem_append.mpr (Or.inl h2)
                  · exact List.mem_append.mpr (Or.inr (List.mem_cons_of_mem bl h2))
                case d12 =>
                  intro lvl hl
                  show ((FL.1 ++ SWr.1).filter (fun t => t.price = lvl.price)).map
                      Trade.maker_order_id
                    = (lvl.orders.map Order.order_id).take
                        (((FL.1 ++ SWr.1).filter (fun t => t.price = lvl.price)).length)
                  rw [List.filter_append]
                  by_cases hpe : lvl.price = best
                  · have hleq : lvl = bl :=
                      eq_of_price_nodup s.levels hWF.1 lvl bl hl hblmem
                        (by rw [hpe, hblp])
                    subst hleq
                    have hrecnil : SWr.1.filter (fun t => t.price = lvl.price) = [] := by
                      rw [List.filter_eq_nil_iff]
                      intro t ht
                      obtain ⟨_, _, _, lvl2, hl2, hp2, _⟩ := SF.trades_fields t ht
                      have hne2 : lvl2.price ≠ best := by
                        rcases List.mem_append.mp hl2 with h2 | h2
                        · exact hprene lvl2 h2
                        · exact hpostne lvl2 h2
                      simp only [decide_eq_true_eq]
                      intro hc
                      refine hne2 ?_
                      rw [← hp2, hc, hblp]
                    rw [hrecnil, List.append_nil, hfiltb]
                    exact F.trades_makers
                  · rw [hfiltne lvl hpe, List.nil_append]
                    have hl' : lvl ∈ pre ++ post := by
                      rw [hdec] at hl
                      rcases List.mem_append.mp hl with h | h
                      · exact List.mem_append.mpr (Or.inl h)
                      · rcases List.mem_cons.mp h with rfl | h2
                        · exact absurd hblp hpe
                        · exact List.mem_append.mpr (Or.inr h2)
                    exact SF.trades_fifo lvl hl'

lemma runSweep_spec (cfg : EngineCfg) (taker : Order) (takerIsBuy : Bool) (bound : Option ℚ)
    (b : OrderBook) (hWF : bookWF b) (hq : 0 ≤ taker.quantity) :
    SweepFacts taker takerIsBuy bound
      (if takerIsBuy then OrderSide.sell else OrderSide.buy)
      { levels := if takerIsBuy then b.asks else b.bids, index := b.index,
        remaining := taker.quantity, enq := [] }
      (runSweep cfg taker takerIsBuy bound
        { levels := if takerIsBuy then b.asks else b.bids, index := b.index,
          remaining := taker.quantity, enq := [] }) := by
  obtain ⟨hbids, hasks, hNids, hiN, hSub⟩ := hWF
  have hNids' : (((sideOrders b.bids).map Order.order_id)
      ++ ((sideOrders b.asks).map Order.order_id)).Nodup := by
    rw [← List.map_append]
    exact hNids
  unfold runSweep
  refine sweep_spec cfg taker takerIsBuy bound _ _ _ rfl ?_ ?_ ?_ hiN hq ?_
  · cases takerIsBuy
    · exact hbids
    · exact hasks
  · cases takerIsBuy
    · exact (List.nodup_append.mp hNids').1
    · exact (List.nodup_append.mp hNids').2.1
  · intro oid ho
    refine hSub oid ?_
    rw [List.map_append]
    cases takerIsBuy
    · exact List.mem_append.mpr (Or.inl ho)
    · exact List.mem_append.mpr (Or.inr ho)
  · exact Nat.lt_succ_self _

lemma book_after_sweep_WF (cfg : EngineCfg) (taker : Order) (takerIsBuy : Bool)
    (bound : Option ℚ) (b : OrderBook) (hWF : bookWF b) (hq : 0 ≤ taker.quantity) :
    bookWF (finishSweep takerIsBuy b taker
      (runSweep cfg taker takerIsBuy bound
        { levels := if takerIsBuy then b.asks else b.bids, index := b.index,
          remaining := taker.quantity, enq := [] })).book := by
  have SW := runSweep_spec cfg taker takerIsBuy bound b hWF hq
  obtain ⟨hbids, hasks, hNids, hiN, hSub⟩ := hWF
  have hNids' : (((sideOrders b.bids).map Order.order_id)
      ++ ((sideOrders b.asks).map Order.order_id)).Nodup := by
    rw [← List.map_append]
    exact hNids
  rcases List.nodup_append.mp hNids' with ⟨hNbids, hNasks, hdisjBA⟩
  cases takerIsBuy with
  | true =>
      refine ⟨hbids, SW.wf, ?_, SW.idx_nodup, ?_⟩
      · rw [List.map_append]
        refine List.nodup_append.mpr ⟨hNbids, ?_, ?_⟩
        · exact List.Nodup.sublist SW.ids_sub hNasks
        · intro x hx hx2
          exact hdisjBA hx (List.Sublist.subset SW.ids_sub hx2)
      · intro oid ho
        rw [List.map_append] at ho
        rcases List.mem_append.mp ho with h | h
        · refine SW.idx_keep oid (hSub oid ?_) ?_
          · rw [List.map_append]
            exact List.mem_append.mpr (Or.inl h)
          · intro hc
            exact hdisjBA h hc
        · exact SW.resting_idx oid h
  | false =>
      refine ⟨SW.wf, hasks, ?_, SW.idx_nodup, ?_⟩
      · rw [List.map_append]
        refine List.nodup_append.mpr ⟨List.Nodup.sublist SW.ids_sub hNbids, hNasks, ?_⟩
        · intro x hx hx2
          exact hdisjBA (List.Sublist.subset SW.ids_sub hx) hx2
      · intro oid ho
        rw [List.map_append] at ho
        rcases List.mem_append.mp ho with h | h
        · exact SW.resting_idx oid h
        · refine SW.idx_keep oid (hSub oid ?_) ?_
          · rw [List.map_append]
            exact List.mem_append.mpr (Or.inr h)
          · intro hc
            exact hdisjBA hc h

lemma sweepResult_facts (cfg : EngineCfg) (b : OrderBook) (order : Order) (tib : Bool)
    (bound : Option ℚ) (out : List Trade × SweepSt) (r : MatchResult) (avail : ℚ)
    (hWF : bookWF b) (hq0 : 0 ≤ order.quantity) (hfq : order.filled_quantity = 0)
    (hnew : order.order_id ∉ b.index.map Order.order_id)
    (hout : out = runSweep cfg order tib bound
      { levels := if tib then b.asks else b.bids, index := b.index,
        remaining := order.quantity, enq := [] })
    (hres : r = finishSweep tib b order out)
    (havail : avail = qualTotal tib bound (if tib then b.asks else b.bids)) :
    r.taker.filled_quantity = min order.quantity avail ∧
    r.taker.quantity = order.quantity ∧
    r.taker.order_id = order.order_id ∧
    r.taker.remaining_quantity = order.quantity - min order.quantity avail ∧
    r.trades = out.1 ∧
    (r.trades.map Trade.quantity).sum = min order.quantity avail ∧
    0 ≤ avail ∧
    (r.trades = [] ↔ min order.quantity avail = 0) ∧
    r.book.index = out.2.index ∧
    bookWF r.book ∧
    order.order_id ∉ r.book.index.map Order.order_id ∧
    order.order_id ∉ ((sideOrders r.book.bids ++ sideOrders r.book.asks).map
      Order.order_id) := by
  subst hout hres havail
  have SW := runSweep_spec cfg order tib bound b hWF hq0
  have hbwf := book_after_sweep_WF cfg order tib bound b hWF hq0
  have hrem := SW.rem_eq
  have hsum := SW.trades_sum
  have havnn : 0 ≤ qualTotal tib bound (if tib then b.asks else b.bids) := by
    refine qualTotal_nonneg _ _ _ ?_
    intro l hl
    cases tib
    · exact le_of_lt (lvlWF_total_pos OrderSide.buy l (hWF.1.2 l hl))
    · exact le_of_lt (lvlWF_total_pos OrderSide.sell l (hWF.2.1.2 l hl))
  have hidx : (finishSweep tib b order (runSweep cfg order tib bound
      { levels := if tib then b.asks else b.bids, index := b.index,
        remaining := order.quantity, enq := [] })).book.index
      = (runSweep cfg order tib bound
      { levels := if tib then b.asks else b.bids, index := b.index,
        remaining := order.quantity, enq := [] }).2.index := by
    cases tib <;> rfl
  refine ⟨?f1, rfl, rfl, ?f4, rfl, hsum, havnn, ?f8, hidx, hbwf, ?f11, ?f12⟩
  case f1 =>
    show order.filled_quantity + (order.quantity - _) = _
    rw [hfq, hrem]
    ring
  case f4 =>
    show order.quantity - (order.filled_quantity + (order.quantity - _)) = _
    rw [hfq, hrem]
    ring
  case f8 =>
    show (runSweep cfg order tib bound
        { levels := if tib then b.asks else b.bids, index := b.index,
          remaining := order.quantity, enq := [] }).1 = [] ↔ _
    constructor
    · intro h
      rw [h] at hsum
      exact hsum.symm
    · intro h
      rw [h] at hsum
      cases htr : (runSweep cfg order tib bound
          { levels := if tib then b.asks else b.bids, index := b.index,
            remaining := order.quantity, enq := [] }).1 with
      | nil => rfl
      | cons t ts =>
          exfalso
          have hpos : 0 < ((t :: ts).map Trade.quantity).sum := by
            refine List.sum_pos _ ?_ (by simp)
            intro x hx
            rcases List.mem_map.mp hx with ⟨u, hu, rfl⟩
            exact (SW.trades_fields u (by rw [htr]; exact hu)).1
          rw [htr] at hsum
          rw [hsum] at hpos
          exact lt_irrefl 0 hpos
  case f11 =>
    intro hc
    rw [hidx] at hc
    exact hnew (SW.idx_sub _ hc)
  case f12 =>
    intro hc
    have h2 := hbwf.2.2.2.2 _ hc
    rw [hidx] at h2
    exact hnew (SW.idx_sub _ h2)

/-- C5.  MARKET matching: the sweep of the opposite side consumes exactly
`min(quantity, available liquidity)` of the taker, the emitted trades carry
exactly that quantity, the final status is FILLED on a full fill,
PARTIALLY_FILLED on a partial fill and PENDING exactly when nothing matched
(in which case there are no trades), and the MARKET taker is never added to
the book (neither indexed nor resting); the resulting book stays well
formed. -/
theorem C5_market_matching (cfg : EngineCfg) (b : OrderBook) (order : Order)
    (r : MatchResult) (avail : ℚ)
    (hWF : bookWF b) (hq : 0 < order.quantity) (hfq : order.filled_quantity = 0)
    (hnew : order.order_id ∉ b.index.map Order.order_id)
    (hr : r = matchMarketOrderSync cfg b order)
    (havail : avail = qualTotal (decide (order.side = OrderSide.buy)) none
      (if decide (order.side = OrderSide.buy) then b.asks else b.bids)) :
    r.taker.filled_quantity = min order.quantity avail ∧
    (r.trades.map Trade.quantity).sum = min order.quantity avail ∧
    (r.taker.status = OrderStatus.filled ↔ order.quantity ≤ avail) ∧
    (r.taker.status = OrderStatus.partiallyFilled ↔ 0 < avail ∧ avail < order.quantity) ∧
    (r.taker.status = OrderStatus.pending ↔ avail = 0) ∧
    (r.trades = [] ↔ avail = 0) ∧
    order.order_id ∉ r.book.index.map Order.order_id ∧
    order.order_id ∉ ((sideOrders r.book.bids ++ sideOrders r.book.asks).map
      Order.order_id) ∧
    bookWF r.book := by
  subst hr
  set tib := decide (order.side = OrderSide.buy) with htibdef
  set s0 : SweepSt := { levels := if tib then b.asks else b.bids, index := b.index, remaining := order.quantity, enq := [] } with hs0
  set OUT := runSweep cfg order tib none s0 with hOUT
  set FS := finishSweep tib b order OUT with hFS
  obtain ⟨hfil, hQ, hID, hremq, htr, hsum, havnn, hiff, hidx, hbwf, hnidx, hnrest⟩ :=
    sweepResult_facts cfg b order tib none OUT FS avail hWF (le_of_lt hq) hfq hnew
      (by rw [hOUT, hs0]) hFS havail
  have hst : (matchMarketOrderSync cfg b order).taker.status
      = (if FS.taker.filled_quantity = FS.taker.quantity then OrderStatus.filled
         else if 0 < FS.taker.filled_quantity then OrderStatus.partiallyFilled
         else OrderStatus.pending) := rfl
  rw [hfil, hQ] at hst
  have hfil' : (matchMarketOrderSync cfg b order).taker.filled_quantity
      = min order.quantity avail := hfil
  have hsum' : ((matchMarketOrderSync cfg b order).trades.map Trade.quantity).sum
      = min order.quantity avail := hsum
  have hiff' : (matchMarketOrderSync cfg b order).trades = []
      ↔ min order.quantity avail = 0 := hiff
  rcases le_or_lt order.quantity avail with hle | hlt
  · have hm : min order.quantity avail = order.quantity := min_eq_left hle
    rw [hm] at hst
    rw [if_pos rfl] at hst
    refine ⟨hfil', hsum', ⟨fun _ => hle, fun _ => hst⟩, ?_, ?_, ?_, hnidx, hnrest, hbwf⟩
    · constructor
      · intro h
        rw [hst] at h
        simp at h
      · rintro ⟨h1, h2⟩
        exact absurd (lt_of_le_of_lt hle h2) (lt_irrefl _)
    · constructor
      · intro h
        rw [hst] at h
        simp at h
      · intro h
        rw [h] at hle
        exact absurd (lt_of_lt_of_le hq hle) (lt_irrefl _)
    · rw [hiff', hm]
      constructor
      · intro h
        exact absurd h (ne_of_gt hq)
      · intro h
        rw [h] at hle
        exact absurd (lt_of_lt_of_le hq hle) (lt_irrefl _)
  · have hm : min order.quantity avail = avail := min_eq_right (le_of_lt hlt)
    rw [hm] at hst
    rw [if_neg (ne_of_lt hlt)] at hst
    rcases eq_or_lt_of_le havnn with hz | hpos
    · have hz' : avail = 0 := hz.symm
      rw [hz'] at hst
      rw [if_neg (lt_irrefl 0)] at hst
      refine ⟨hfil', hsum', ?_, ?_, ⟨fun _ => hz', fun _ => hst⟩, ?_, hnidx, hnrest, hbwf⟩
      · constructor
        · intro h
          rw [hst] at h
          simp at h
        · intro h
          rw [hz'] at h
          exact absurd (lt_of_lt_of_le hq h) (lt_irrefl _)
      · constructor
        · intro h
          rw [hst] at h
          simp at h
        · rintro ⟨h1, _⟩
          rw [hz'] at h1
          exact absurd h1 (lt_irrefl 0)
      · rw [hiff', hm]
    · rw [if_pos hpos] at hst
      refine ⟨hfil', hsum', ?_, ⟨fun _ => ⟨hpos, hlt⟩, fun _ => hst⟩, ?_, ?_,
        hnidx, hnrest, hbwf⟩
      · constructor
        · intro h
          rw [hst] at h
          simp at h
        · intro h
          exact absurd (lt_of_le_of_lt h hlt) (lt_irrefl _)
      · constructor
        · intro h
          rw [hst] at h
          simp at h
        · intro h
          rw [h] at hpos
          exact absurd hpos (lt_irrefl 0)
      · rw [hiff', hm]

unseal Rat.mul Rat.inv Rat.add Rat.sub in
/-- C5 witness (scenario S1): a MARKET BUY of `1.2` against asks
`1.0 @ 50000` and `0.5 @ 50100` fills exactly `min(1.2, 1.5) = 1.2`. -/
theorem C5_witness :
    (matchMarketOrderSync sampleCfg stateS1.book
        (mkOrder "T" OrderSide.buy OrderType.market none (6/5) 3)).taker.filled_quantity
      = min ((6/5 : ℚ)) (qualTotal true none stateS1.book.asks) :=
  (C5_market_matching sampleCfg stateS1.book
      (mkOrder "T" OrderSide.buy OrderType.market none (6/5) 3) _ _
      (by unfold bookWF sideWF lvlWF; decide) (by decide) rfl (by decide) rfl rfl).1

lemma iocStatus_core (cfg : EngineCfg) (b : OrderBook) (order : Order) (tib : Bool)
    (bound : Option ℚ) (r : MatchResult) (avail : ℚ) (FS : MatchResult)
    (hWF : bookWF b) (hq : 0 < order.quantity) (hfq : order.filled_quantity = 0)
    (hnew : order.order_id ∉ b.index.map Order.order_id)
    (hFS : FS = finishSweep tib b order (runSweep cfg order tib bound
      { levels := if tib then b.asks else b.bids, index := b.index,
        remaining := order.quantity, enq := [] }))
    (havail : avail = qualTotal tib bound (if tib then b.asks else b.bids))
    (hrt : r.taker.filled_quantity = FS.taker.filled_quantity)
    (hrst : r.taker.status = (if FS.taker.remaining_quantity = 0 then OrderStatus.filled
       else if FS.trades ≠ [] then OrderStatus.partiallyFilled else OrderStatus.cancelled))
    (hrtr : r.trades = FS.trades)
    (hrb : r.book = FS.book) :
    r.taker.filled_quantity = min order.quantity avail ∧
    (r.trades.map Trade.quantity).sum = min order.quantity avail ∧
    (r.taker.status = OrderStatus.filled ↔ order.quantity ≤ avail) ∧
    (r.taker.status = OrderStatus.partiallyFilled ↔ 0 < avail ∧ avail < order.quantity) ∧
    (r.taker.status = OrderStatus.cancelled ↔ avail = 0) ∧
    (r.trades = [] ↔ avail = 0) ∧
    order.order_id ∉ r.book.index.map Order.order_id ∧
    order.order_id ∉ ((sideOrders r.book.bids ++ sideOrders r.book.asks).map
      Order.order_id) ∧
    bookWF r.book := by
  obtain ⟨hfil, hQ, hID, hremq, htr, hsum, havnn, hiff, hidx, hbwf, hnidx, hnrest⟩ :=
    sweepResult_facts cfg b order tib bound _ FS avail hWF (le_of_lt hq) hfq hnew
      rfl hFS havail
  rw [hremq] at hrst
  rcases le_or_lt order.quantity avail with hle | hlt
  · have hm : min order.quantity avail = order.quantity := min_eq_left hle
    rw [hm] at hrst
    rw [show order.quantity - order.quantity = (0:ℚ) from by ring] at hrst
    rw [if_pos rfl] at hrst
    refine ⟨by rw [hrt]; exact hfil, by rw [hrtr]; exact hsum,
      ⟨fun _ => hle, fun _ => hrst⟩, ?_, ?_, ?_,
      by rw [hrb]; exact hnidx, by rw [hrb]; exact hnrest, by rw [hrb]; exact hbwf⟩
    · constructor
      · intro h
        rw [hrst] at h
        simp at h
      · rintro ⟨_, h2⟩
        exact absurd (lt_of_le_of_lt hle h2) (lt_irrefl _)
    · constructor
      · intro h
        rw [hrst] at h
        simp at h
      · intro h
        rw [h] at hle
        exact absurd (lt_of_lt_of_le hq hle) (lt_irrefl _)
    · rw [hrtr, hiff, hm]
      constructor
      · intro h
        exact absurd h (ne_of_gt hq)
      · intro h
        rw [h] at hle
        exact absurd (lt_of_lt_of_le hq hle) (lt_irrefl _)
  · have hm : min order.quantity avail = avail := min_eq_right (le_of_lt hlt)
    rw [hm] at hrst
    have hne0 : order.quantity - avail ≠ 0 := ne_of_gt (by linarith)
    rw [if_neg hne0] at hrst
    rcases eq_or_lt_of_le havnn with hz | hpos
    · have hz' : avail = 0 := hz.symm
      have htnil : FS.trades = [] := by
        rw [hiff, hm, hz']
      rw [if_neg (fun hc => hc htnil)] at hrst
      refine ⟨by rw [hrt]; exact hfil, by rw [hrtr]; exact hsum, ?_, ?_,
        ⟨fun _ => hz', fun _ => hrst⟩, ?_,
        by rw [hrb]; exact hnidx, by rw [hrb]; exact hnrest, by rw [hrb]; exact hbwf⟩
      · constructor
        · intro h
          rw [hrst] at h
          simp at h
        · intro h
          rw [hz'] at h
          exact absurd (lt_of_lt_of_le hq h) (lt_irrefl _)
      · constructor
        · intro h
          rw [hrst] at h
          simp at h
        · rintro ⟨h1, _⟩
          rw [hz'] at h1
          exact absurd h1 (lt_irrefl 0)
      · rw [hrtr, hiff, hm]
    · have htne : FS.trades ≠ [] := by
        intro hc
        rw [hiff, hm] at hc
        exact absurd hc (ne_of_gt hpos)
      rw [if_pos htne] at hrst
      refine ⟨by rw [hrt]; exact hfil, by rw [hrtr]; exact hsum, ?_,
        ⟨fun _ => ⟨hpos, hlt⟩, fun _ => hrst⟩, ?_, ?_,
        by rw [hrb]; exact hnidx, by rw [hrb]; exact hnrest, by rw [hrb]; exact hbwf⟩
      · constructor
        · intro h
          rw [hrst] at h
          simp at h
        · intro h
          exact absurd (lt_of_le_of_lt h hlt) (lt_irrefl _)
      · constructor
        · intro h
          rw [hrst] at h
          simp at h
        · intro h
          rw [h] at hpos
          exact absurd hpos (lt_irrefl 0)
      · rw [hrtr, hiff, hm]

/-- C7.  IOC never rests: an IOC order sweeps as a price-constrained match
when priced and as a MARKET match otherwise (captured uniformly by using the
order's own optional price as the sweep bound); it fills exactly
`min(quantity, qualifying liquidity)`; the final status is exactly FILLED on
a full fill, PARTIALLY_FILLED when trades occurred but a remainder is left,
and CANCELLED when no trades occurred; the unfilled remainder is never added
to the book (the taker is neither indexed nor resting afterwards). -/
theorem C7_ioc_never_rests (cfg : EngineCfg) (b : OrderBook) (order : Order)
    (r : MatchResult) (avail : ℚ)
    (hWF : bookWF b) (hq : 0 < order.quantity) (hfq : order.filled_quantity = 0)
    (hnew : order.order_id ∉ b.index.map Order.order_id)
    (hr : r = matchIOCOrderSync cfg b order)
    (havail : avail = qualTotal (decide (order.side = OrderSide.buy)) order.price
      (if decide (order.side = OrderSide.buy) then b.asks else b.bids)) :
    r.taker.filled_quantity = min order.quantity avail ∧
    (r.trades.map Trade.quantity).sum = min order.quantity avail ∧
    (r.taker.status = OrderStatus.filled ↔ order.quantity ≤ avail) ∧
    (r.taker.status = OrderStatus.partiallyFilled ↔ 0 < avail ∧ avail < order.quantity) ∧
    (r.taker.status = OrderStatus.cancelled ↔ avail = 0) ∧
    (r.trades = [] ↔ avail = 0) ∧
    order.order_id ∉ r.book.index.map Order.order_id ∧
    order.order_id ∉ ((sideOrders r.book.bids ++ sideOrders r.book.asks).map
      Order.order_id) ∧
    bookWF r.book := by
  cases hp : order.price with
  | none =>
      refine iocStatus_core cfg b order (decide (order.side = OrderSide.buy)) none r avail
        (finishSweep (decide (order.side = OrderSide.buy)) b order
          (runSweep cfg order (decide (order.side = OrderSide.buy)) none
            { levels := if decide (order.side = OrderSide.buy) then b.asks else b.bids,
              index := b.index, remaining := order.quantity, enq := [] }))
        hWF hq hfq hnew rfl (by rw [havail, hp]) ?_ ?_ ?_ ?_
      · rw [hr]
        simp only [matchIOCOrderSync, hp]
        rfl
      · rw [hr]
        simp only [matchIOCOrderSync, hp]
        rfl
      · rw [hr]
        simp only [matchIOCOrderSync, hp]
        rfl
      · rw [hr]
        simp only [matchIOCOrderSync, hp]
        rfl
  | some p =>
      refine iocStatus_core cfg b order (decide (order.side = OrderSide.buy)) (some p)
        r avail
        (finishSweep (decide (order.side = OrderSide.buy)) b order
          (runSweep cfg order (decide (order.side = OrderSide.buy)) (some p)
            { levels := if decide (order.side = OrderSide.buy) then b.asks else b.bids,
              index := b.index, remaining := order.quantity, enq := [] }))
        hWF hq hfq hnew rfl (by rw [havail, hp]) ?_ ?_ ?_ ?_
      · rw [hr]
        simp only [matchIOCOrderSync, matchLimitConstrainedSync, hp]
      · rw [hr]
        simp only [matchIOCOrderSync, matchLimitConstrainedSync, hp]
      · rw [hr]
        simp only [matchIOCOrderSync, matchLimitConstrainedSync, hp]
      · rw [hr]
        simp only [matchIOCOrderSync, matchLimitConstrainedSync, hp]

unseal Rat.mul Rat.inv Rat.add Rat.sub in
/-- C7 witness (scenario S3): an unpriced IOC BUY of `1.0` against a single
ask `0.5 @ 50000` ends PARTIALLY_FILLED (liquidity `0.5` is positive and
less than the quantity). -/
theorem C7_witness :
    (matchIOCOrderSync sampleCfg stateAskHalf.book
        (mkOrder "T" OrderSide.buy OrderType.ioc none 1 2)).taker.status
      = OrderStatus.partiallyFilled :=
  ((C7_ioc_never_rests sampleCfg stateAskHalf.book
      (mkOrder "T" OrderSide.buy OrderType.ioc none 1 2) _ _
      (by unfold bookWF sideWF lvlWF; decide) (by decide) rfl (by decide)
      rfl rfl).2.2.2.1).mpr ⟨by decide, by decide⟩

lemma tradesOrdered_nil (tib : Bool) (levels : List PriceLevel) :
    tradesOrdered tib levels [] := by
  constructor
  · simp
  · intro lvl _
    simp

lemma market_trades_ordered (cfg : EngineCfg) (b : OrderBook) (order : Order)
    (hWF : bookWF b) (hq0 : 0 ≤ order.quantity) :
    tradesOrdered (decide (order.side = OrderSide.buy))
      (if decide (order.side = OrderSide.buy) then b.asks else b.bids)
      (matchMarketOrderSync cfg b order).trades := by
  have SW := runSweep_spec cfg order (decide (order.side = OrderSide.buy)) none b hWF hq0
  exact ⟨SW.trades_mono, SW.trades_fifo⟩

lemma constr_trades_ordered (cfg : EngineCfg) (b : OrderBook) (order : Order) (p : ℚ)
    (hp : order.price = some p) (hWF : bookWF b) (hq0 : 0 ≤ order.quantity) :
    tradesOrdered (decide (order.side = OrderSide.buy))
      (if decide (order.side = OrderSide.buy) then b.asks else b.bids)
      (matchLimitConstrainedSync cfg b order).trades := by
  have SW := runSweep_spec cfg order (decide (order.side = OrderSide.buy)) (some p) b
    hWF hq0
  have heq : matchLimitConstrainedSync cfg b order
      = finishSweep (decide (order.side = OrderSide.buy)) b order
        (runSweep cfg order (decide (order.side = OrderSide.buy)) (some p)
          { levels := if decide (order.side = OrderSide.buy) then b.asks else b.bids,
            index := b.index, remaining := order.quantity, enq := [] }) := by
    simp only [matchLimitConstrainedSync, hp]
  rw [heq]
  exact ⟨SW.trades_mono, SW.trades_fifo⟩

lemma limit_trades_ordered (cfg : EngineCfg) (b : OrderBook) (order : Order)
    (hWF : bookWF b) (hq0 : 0 ≤ order.quantity) :
    tradesOrdered (decide (order.side = OrderSide.buy))
      (if decide (order.side = OrderSide.buy) then b.asks else b.bids)
      (matchLimitOrderSync cfg b order).trades := by
  cases hp : order.price with
  | none =>
      have heq : (matchLimitOrderSync cfg b order).trades = [] := by
        simp only [matchLimitOrderSync, hp]
      rw [heq]
      exact tradesOrdered_nil _ _
  | some p =>
      cases hside : order.side with
      | buy =>
          cases hba : b.get_best_ask with
          | none =>
              have heq : (matchLimitOrderSync cfg b order).trades = [] := by
                simp [matchLimitOrderSync, hp, hside, hba,
                  apply_ite MatchResult.trades, ite_self]
                rfl
              rw [heq]
              exact tradesOrdered_nil _ _
          | some ba =>
              by_cases hle : ba.1 ≤ p
              · have SW := runSweep_spec cfg order true (some p) b hWF hq0
                have heq : (matchLimitOrderSync cfg b order).trades
                    = (runSweep cfg order true (some p)
                        { levels := b.asks, index := b.index,
                          remaining := order.quantity, enq := [] }).1 := by
                  simp [matchLimitOrderSync, hp, hside, hba, hle,
                    apply_ite MatchResult.trades, ite_self]
                  rfl
                rw [heq]
                exact ⟨SW.trades_mono, SW.trades_fifo⟩
              · have heq : (matchLimitOrderSync cfg b order).trades = [] := by
                  simp [matchLimitOrderSync, hp, hside, hba, hle,
                    apply_ite MatchResult.trades, ite_self]
                  rfl
                rw [heq]
                exact tradesOrdered_nil _ _
      | sell =>
          cases hbb : b.get_best_bid with
          | none =>
              have heq : (matchLimitOrderSync cfg b order).trades = [] := by
                simp [matchLimitOrderSync, hp, hside, hbb,
                  apply_ite MatchResult.trades, ite_self]
                rfl
              rw [heq]
              exact tradesOrdered_nil _ _
          | some bb =>
              by_cases hle : p ≤ bb.1
              · have SW := runSweep_spec cfg order false (some p) b hWF hq0
                have heq : (matchLimitOrderSync cfg b order).trades
                    = (runSweep cfg order false (some p)
                        { levels := b.bids, index := b.index,
                          remaining := order.quantity, enq := [] }).1 := by
                  simp [matchLimitOrderSync, hp, hside, hbb, hle,
                    apply_ite MatchResult.trades, ite_self]
                  rfl
                rw [heq]
                exact ⟨SW.trades_mono, SW.trades_fifo⟩
              · have heq : (matchLimitOrderSync cfg b order).trades = [] := by
                  simp [matchLimitOrderSync, hp, hside, hbb, hle,
                    apply_ite MatchResult.trades, ite_self]
                  rfl
                rw [heq]
                exact tradesOrdered_nil _ _

lemma ioc_trades_ordered (cfg : EngineCfg) (b : OrderBook) (order : Order)
    (hWF : bookWF b) (hq0 : 0 ≤ order.quantity) :
    tradesOrdered (decide (order.side = OrderSide.buy))
      (if decide (order.side = OrderSide.buy) then b.asks else b.bids)
      (matchIOCOrderSync cfg b order).trades := by
  cases hp : order.price with
  | none =>
      have heq : (matchIOCOrderSync cfg b order).trades
          = (matchMarketOrderSync cfg b order).trades := by
        simp only [matchIOCOrderSync, hp]
      rw [heq]
      exact market_trades_ordered cfg b order hWF hq0
  | some p =>
      have heq : (matchIOCOrderSync cfg b order).trades
          = (matchLimitConstrainedSync cfg b order).trades := by
        simp only [matchIOCOrderSync, hp]
      rw [heq]
      exact constr_trades_ordered cfg b order p hp hWF hq0

lemma fok_trades_ordered (cfg : EngineCfg) (b : OrderBook) (order : Order)
    (hWF : bookWF b) (hq0 : 0 ≤ order.quantity) :
    tradesOrdered (decide (order.side = OrderSide.buy))
      (if decide (order.side = OrderSide.buy) then b.asks else b.bids)
      (matchFOKOrderSync cfg b order).trades := by
  by_cases hok : checkCanFillCompletely b order = true
  · cases hp : order.price with
    | none =>
        by_cases hrem : 0 < (matchMarketOrderSync cfg b order).taker.remaining_quantity
        · have heq : (matchFOKOrderSync cfg b order).trades = [] := by
            simp only [matchFOKOrderSync, hok, hp, Bool.not_true, Bool.false_eq_true,
              if_false]
            rw [if_pos hrem]
          rw [heq]
          exact tradesOrdered_nil _ _
        · have heq : (matchFOKOrderSync cfg b order).trades
              = (matchMarketOrderSync cfg b order).trades := by
            simp only [matchFOKOrderSync, hok, hp, Bool.not_true, Bool.false_eq_true,
              if_false]
            rw [if_neg hrem]
          rw [heq]
          exact market_trades_ordered cfg b order hWF hq0
    | some p =>
        by_cases hrem : 0 < (matchLimitConstrainedSync cfg b
            order).taker.remaining_quantity
        · have heq : (matchFOKOrderSync cfg b order).trades = [] := by
            simp only [matchFOKOrderSync, hok, hp, Bool.not_true, Bool.false_eq_true,
              if_false]
            rw [if_pos hrem]
          rw [heq]
          exact tradesOrdered_nil _ _
        · have heq : (matchFOKOrderSync cfg b order).trades
              = (matchLimitConstrainedSync cfg b order).trades := by
            simp only [matchFOKOrderSync, hok, hp, Bool.not_true, Bool.false_eq_true,
              if_false]
            rw [if_neg hrem]
          rw [heq]
          exact constr_trades_ordered cfg b order p hp hWF hq0
  · have hokf : checkCanFillCompletely b order = false := Bool.eq_false_iff.mpr hok
    have heq : (matchFOKOrderSync cfg b order).trades = [] := by
      simp [matchFOKOrderSync, hokf]
    rw [heq]
    exact tradesOrdered_nil _ _

unseal Rat.mul Rat.inv Rat.add Rat.sub in
/-- C4.  Price-time priority for every submission: whatever the order type
(MARKET, LIMIT, IOC, FOK, an unsupported type, or a rejected order), the
trades returned by `submit_order` are emitted best-price-first (ascending
prices for a BUY taker, descending for a SELL taker), and within each
opposite-side price level the consumed makers are exactly a prefix of that
level's FIFO queue, in queue order; concretely (scenario S8), with two
resting sells `1.0 @ 50000` inserted A then B, a MARKET BUY of `1.5`
consumes A first: the emitted makers are `[A, B]` and
`trades[0].maker_order_id = "A"`. -/
theorem C4_price_time_priority (cfg : EngineCfg) (st : MEState) (order : Order)
    (ts : List Trade)
    (hWF : bookWF st.book) (hq : 0 ≤ order.quantity)
    (hts : ts = (submitOrder cfg st order).1.2.2) :
    tradesOrdered (decide (order.side = OrderSide.buy))
      (if decide (order.side = OrderSide.buy) then st.book.asks else st.book.bids)
      ts ∧
    ((submitOrder sampleCfg stateAB
        (mkOrder "T" OrderSide.buy OrderType.market none (3/2) 3)).1.2.2.map
      Trade.maker_order_id) = ["A", "B"] := by
  subst hts
  refine ⟨?_, by decide⟩
  by_cases hv : (validateOrder order).1 = true
  · cases hty : order.order_type with
    | market =>
        have heq : (submitOrder cfg st order).1.2.2
            = (matchMarketOrderSync cfg st.book order).trades := by
          simp [submitOrder, hv, hty]
        rw [heq]
        exact market_trades_ordered cfg st.book order hWF hq
    | limit =>
        have heq : (submitOrder cfg st order).1.2.2
            = (matchLimitOrderSync cfg st.book order).trades := by
          simp [submitOrder, hv, hty]
        rw [heq]
        exact limit_trades_ordered cfg st.book order hWF hq
    | ioc =>
        have heq : (submitOrder cfg st order).1.2.2
            = (matchIOCOrderSync cfg st.book order).trades := by
          simp [submitOrder, hv, hty]
        rw [heq]
        exact ioc_trades_ordered cfg st.book order hWF hq
    | fok =>
        have heq : (submitOrder cfg st order).1.2.2
            = (matchFOKOrderSync cfg st.book order).trades := by
          simp [submitOrder, hv, hty]
        rw [heq]
        exact fok_trades_ordered cfg st.book order hWF hq
    | stopLoss =>
        have heq : (submitOrder cfg st order).1.2.2 = [] := by
          simp [submitOrder, hv, hty]
        rw [heq]
        exact tradesOrdered_nil _ _
    | stopLimit =>
        have heq : (submitOrder cfg st order).1.2.2 = [] := by
          simp [submitOrder, hv, hty]
        rw [heq]
        exact tradesOrdered_nil _ _
    | takeProfit =>
        have heq : (submitOrder cfg st order).1.2.2 = [] := by
          simp [submitOrder, hv, hty]
        rw [heq]
        exact tradesOrdered_nil _ _
  · have hvf : (validateOrder order).1 = false := Bool.eq_false_iff.mpr hv
    have heq : (submitOrder cfg st order).1.2.2 = [] := by
      simp [submitOrder, hvf]
    rw [heq]
    exact tradesOrdered_nil _ _

unseal Rat.mul Rat.inv Rat.add Rat.sub in
/-- C4 witness: the all-submissions ordering theorem applied to scenario S8 —
the trades of a MARKET BUY submitted against the book with two same-price
resting sells are price-monotone and consume the level's FIFO queue as a
prefix. -/
theorem C4_witness :
    tradesOrdered true stateAB.book.asks
      (submitOrder sampleCfg stateAB
        (mkOrder "T" OrderSide.buy OrderType.market none (3/2) 3)).1.2.2 :=
  (C4_price_time_priority sampleCfg stateAB
      (mkOrder "T" OrderSide.buy OrderType.market none (3/2) 3) _
      (by unfold bookWF sideWF lvlWF; decide) (by decide) rfl).1

lemma perm_middle_snoc {α : Type} (A B C : List α) (x : α) :
    (A ++ ((B ++ [x]) ++ C)).Perm ((A ++ (B ++ C)) ++ [x]) := by
  have h1 : (A ++ ((B ++ [x]) ++ C)) = A ++ (B ++ ([x] ++ C)) := by
    simp [List.append_assoc]
  have h2 : ((A ++ (B ++ C)) ++ [x]) = A ++ (B ++ (C ++ [x])) := by
    simp [List.append_assoc]
  rw [h1, h2]
  exact List.Perm.append_left A (List.Perm.append_left B (List.perm_append_comm))

lemma sideAddOrder_mem (levels : List PriceLevel) (o : Order) (p : ℚ)
    (hp : o.price = some p) (hN : (levels.map PriceLevel.price).Nodup) :
    ∃ lvl ∈ sideAddOrder levels o, lvl.price = p
      ∧ o.order_id ∈ lvl.orders.map Order.order_id := by
  unfold sideAddOrder
  rw [hp]
  dsimp only
  cases hf : levels.find? (fun l => l.price = p) with
  | none =>
      dsimp only
      refine ⟨PriceLevel.add_order { price := p, orders := [], total_quantity := 0 } o,
        ?_, rfl, ?_⟩
      · exact List.mem_append.mpr (Or.inr (List.mem_singleton.mpr rfl))
      · simp [PriceLevel.add_order]
  | some lvl0 =>
      dsimp only
      obtain ⟨pre, post, hdec, _, hprene⟩ := removeLevel_decomp p levels lvl0 hf
      have hl0p : lvl0.price = p := by
        have := List.find?_some hf
        simpa using this
      have hPN : ((pre ++ lvl0 :: post).map PriceLevel.price).Nodup := by
        rw [← hdec]
        exact hN
      have hpostne : ∀ l ∈ post, l.price ≠ p := by
        intro l hl
        rw [← hl0p]
        exact nodup_middle_price_ne pre post lvl0 hPN l hl
      rw [hdec, replaceLevel_decomp p (lvl0.add_order o) pre post lvl0 hprene hl0p hpostne]
      refine ⟨lvl0.add_order o, ?_, hl0p, ?_⟩
      · exact List.mem_append.mpr (Or.inr (List.mem_cons_self _ _))
      · simp [PriceLevel.add_order]

lemma sideAddOrder_WF (side : OrderSide) (levels : List PriceLevel) (o : Order) (p : ℚ)
    (hWF : sideWF side levels) (hp : o.price = some p) (hside : o.side = side)
    (hrem : 0 < o.remaining_quantity) :
    sideWF side (sideAddOrder levels o) := by
  unfold sideAddOrder
  rw [hp]
  dsimp only
  cases hf : levels.find? (fun l => l.price = p) with
  | none =>
      dsimp only
      have hnomem : ∀ l ∈ levels, l.price ≠ p := by
        intro l hl hc
        have := List.find?_eq_none.mp hf l hl
        simp [hc] at this
      constructor
      · rw [List.map_append]
        refine List.nodup_append.mpr ⟨hWF.1, by simp, ?_⟩
        intro x hx hx2
        rcases List.mem_map.mp hx with ⟨l, hl, rfl⟩
        simp [PriceLevel.add_order] at hx2
        exact hnomem l hl hx2
      · intro l hl
        rcases List.mem_append.mp hl with h | h
        · exact hWF.2 l h
        · have hle : l = PriceLevel.add_order
              { price := p, orders := [], total_quantity := 0 } o :=
            List.mem_singleton.mp h
          subst hle
          refine ⟨by simp [PriceLevel.add_order], ?_, ?_⟩
          · show (0:ℚ) + o.remaining_quantity = _
            simp [PriceLevel.agg, PriceLevel.add_order]
          · intro x hx
            simp [PriceLevel.add_order] at hx
            subst hx
            exact ⟨hrem, hp, hside⟩
  | some lvl0 =>
      dsimp only
      obtain ⟨pre, post, hdec, _, hprene⟩ := removeLevel_decomp p levels lvl0 hf
      have hl0p : lvl0.price = p := by
        have := List.find?_some hf
        simpa using this
      have hPN : ((pre ++ lvl0 :: post).map PriceLevel.price).Nodup := by
        rw [← hdec]
        exact hWF.1
      have hpostne : ∀ l ∈ post, l.price ≠ p := by
        intro l hl
        rw [← hl0p]
        exact nodup_middle_price_ne pre post lvl0 hPN l hl
      rw [hdec, replaceLevel_decomp p (lvl0.add_order o) pre post lvl0 hprene hl0p hpostne]
      have hmem0 : lvl0 ∈ levels := by
        rw [hdec]
        exact List.mem_append.mpr (Or.inr (List.mem_cons_self _ _))
      have hWFl0 : lvlWF side lvl0 := hWF.2 lvl0 hmem0
      constructor
      · have hpr : ((pre ++ lvl0.add_order o :: post).map PriceLevel.price)
            = ((pre ++ lvl0 :: post).map PriceLevel.price) := by
          simp [PriceLevel.add_order]
        rw [hpr]
        exact hPN
      · intro l hl
        rcases List.mem_append.mp hl with h | h
        · exact hWF.2 l (by rw [hdec]; exact List.mem_append.mpr (Or.inl h))
        · rcases List.mem_cons.mp h with rfl | h2
          · refine ⟨by simp [PriceLevel.add_order], ?_, ?_⟩
            · show lvl0.total_quantity + o.remaining_quantity = _
              rw [hWFl0.2.1]
              simp [PriceLevel.agg, PriceLevel.add_order]
            · intro x hx
              rw [show (lvl0.add_order o).orders = lvl0.orders ++ [o] from rfl] at hx
              rcases List.mem_append.mp hx with h3 | h3
              · have := hWFl0.2.2 x h3
                exact ⟨this.1, by rw [this.2.1]; rfl, this.2.2⟩
              · have hxo : x = o := List.mem_singleton.mp h3
                rw [hxo]
                refine ⟨hrem, ?_, hside⟩
                rw [hp]
                show _ = some (lvl0.add_order o).price
                rw [show (lvl0.add_order o).price = lvl0.price from rfl, hl0p]
          · exact hWF.2 l (by
              rw [hdec]
              exact List.mem_append.mpr (Or.inr (List.mem_cons_of_mem lvl0 h2)))

lemma sideAddOrder_ids_perm (levels : List PriceLevel) (o : Order) (p : ℚ)
    (hp : o.price = some p) (hN : (levels.map PriceLevel.price).Nodup) :
    (((sideAddOrder levels o).flatMap PriceLevel.orders).map Order.order_id).Perm
      (((levels.flatMap PriceLevel.orders).map Order.order_id) ++ [o.order_id]) := by
  unfold sideAddOrder
  rw [hp]
  dsimp only
  cases hf : levels.find? (fun l => l.price = p) with
  | none =>
      dsimp only
      rw [show ((levels ++ [PriceLevel.add_order
          { price := p, orders := [], total_quantity := 0 } o]).flatMap
          PriceLevel.orders) = (levels.flatMap PriceLevel.orders) ++ [o] from by
        simp [List.flatMap_append, PriceLevel.add_order]]
      rw [List.map_append]
      exact List.Perm.refl _
  | some lvl0 =>
      dsimp only
      obtain ⟨pre, post, hdec, _, hprene⟩ := removeLevel_decomp p levels lvl0 hf
      have hl0p : lvl0.price = p := by
        have := List.find?_some hf
        simpa using this
      have hPN : ((pre ++ lvl0 :: post).map PriceLevel.price).Nodup := by
        rw [← hdec]
        exact hN
      have hpostne : ∀ l ∈ post, l.price ≠ p := by
        intro l hl
        rw [← hl0p]
        exact nodup_middle_price_ne pre post lvl0 hPN l hl
      rw [hdec, replaceLevel_decomp p (lvl0.add_order o) pre post lvl0 hprene hl0p hpostne]
      have hL : (((pre ++ lvl0.add_order o :: post).flatMap PriceLevel.orders).map
          Order.order_id)
          = ((pre.flatMap PriceLevel.orders).map Order.order_id)
            ++ ((((lvl0.orders.map Order.order_id) ++ [o.order_id]))
              ++ ((post.flatMap PriceLevel.orders).map Order.order_id)) := by
        simp [List.flatMap_append, List.flatMap_cons, PriceLevel.add_order]
      have hR : (((pre ++ lvl0 :: post).flatMap PriceLevel.orders).map Order.order_id)
          = ((pre.flatMap PriceLevel.orders).map Order.order_id)
            ++ (((lvl0.orders.map Order.order_id))
              ++ ((post.flatMap PriceLevel.orders).map Order.order_id)) := by
        simp [List.flatMap_append, List.flatMap_cons]
      rw [hL, hR]
      exact perm_middle_snoc _ _ _ _

lemma perm_snoc_append {α : Type} (A A' C : List α) (x : α) (h : A'.Perm (A ++ [x])) :
    (A' ++ C).Perm ((A ++ C) ++ [x]) := by
  have h1 : (A' ++ C).Perm ((A ++ [x]) ++ C) := List.Perm.append_right C h
  have h2 : ((A ++ [x]) ++ C) = A ++ ([x] ++ C) := by simp [List.append_assoc]
  have h3 : (A ++ ([x] ++ C)).Perm (A ++ (C ++ [x])) :=
    List.Perm.append_left A List.perm_append_comm
  have h4 : A ++ (C ++ [x]) = (A ++ C) ++ [x] := by simp [List.append_assoc]
  rw [h4] at h3
  rw [h2] at h1
  exact h1.trans h3

lemma perm_append_snoc {α : Type} (A C C' : List α) (x : α) (h : C'.Perm (C ++ [x])) :
    (A ++ C').Perm ((A ++ C) ++ [x]) := by
  have h1 : (A ++ C').Perm (A ++ (C ++ [x])) := List.Perm.append_left A h
  have h2 : A ++ (C ++ [x]) = (A ++ C) ++ [x] := by simp [List.append_assoc]
  rw [h2] at h1
  exact h1

lemma OrderBook_add_order_WF (b : OrderBook) (o : Order) (p : ℚ)
    (hWF : bookWF b) (hp : o.price = some p)
    (hnew : o.order_id ∉ b.index.map Order.order_id)
    (hrem : 0 < o.remaining_quantity) :
    bookWF (b.add_order o).1 ∧
    o.order_id ∈ (b.add_order o).1.index.map Order.order_id ∧
    (∃ lvl ∈ (if o.side = OrderSide.buy then (b.add_order o).1.bids
              else (b.add_order o).1.asks),
      lvl.price = p ∧ o.order_id ∈ lvl.orders.map Order.order_id) := by
  obtain ⟨hbids, hasks, hNids, hiN, hSub⟩ := hWF
  have hany : b.index.any (fun e => e.order_id = o.order_id) = false := by
    rw [List.any_eq_false]
    intro e he
    simp only [decide_eq_true_eq]
    intro hc
    exact hnew (List.mem_map.mpr ⟨e, he, hc⟩)
  have hidxN' : ((b.index ++ [o]).map Order.order_id).Nodup := by
    rw [List.map_append]
    refine List.nodup_append.mpr ⟨hiN, by simp, ?_⟩
    intro x hx hx2
    rcases List.mem_singleton.mp (by simpa using hx2) with rfl
    exact hnew hx
  have hNids' : ((((sideOrders b.bids).map Order.order_id)
      ++ ((sideOrders b.asks).map Order.order_id)) ++ [o.order_id]).Nodup := by
    refine List.nodup_append.mpr ⟨by rw [← List.map_append]; exact hNids, by simp, ?_⟩
    intro x hx hx2
    rcases List.mem_singleton.mp (by simpa using hx2) with rfl
    refine hnew (hSub _ ?_)
    rw [List.map_append]
    exact hx
  have hmemidx : o.order_id ∈ ((b.index ++ [o]).map Order.order_id) := by
    rw [List.map_append]
    exact List.mem_append.mpr (Or.inr (by simp))
  have hkeepidx : ∀ oid ∈ b.index.map Order.order_id,
      oid ∈ ((b.index ++ [o]).map Order.order_id) := by
    intro oid h
    rw [List.map_append]
    exact List.mem_append.mpr (Or.inl h)
  unfold OrderBook.add_order
  rw [if_neg (by rw [hany]; exact Bool.false_ne_true)]
  cases hside : o.side with
  | buy =>
      have hperm := sideAddOrder_ids_perm b.bids o p hp hbids.1
      have hpermAll : (((sideOrders (sideAddOrder b.bids o)).map Order.order_id)
          ++ ((sideOrders b.asks).map Order.order_id)).Perm
          ((((sideOrders b.bids).map Order.order_id)
            ++ ((sideOrders b.asks).map Order.order_id)) ++ [o.order_id]) :=
        perm_snoc_append _ _ _ _ hperm
      refine ⟨⟨sideAddOrder_WF OrderSide.buy b.bids o p hbids hp hside hrem, hasks,
        ?_, hidxN', ?_⟩, hmemidx, ?_⟩
      · rw [List.map_append]
        exact List.Nodup.perm hNids' hpermAll.symm
      · intro oid ho
        rw [List.map_append] at ho
        rcases List.mem_append.mp ((List.Perm.mem_iff hpermAll).mp ho) with h | h
        · exact hkeepidx oid (hSub _ (by rw [List.map_append]; exact h))
        · rcases List.mem_singleton.mp h with rfl
          exact hmemidx
      · rw [if_pos rfl]
        obtain ⟨lvl, hlm, hlp, hlo⟩ := sideAddOrder_mem b.bids o p hp hbids.1
        exact ⟨lvl, hlm, hlp, hlo⟩
  | sell =>
      have hperm := sideAddOrder_ids_perm b.asks o p hp hasks.1
      have hpermAll : (((sideOrders b.bids).map Order.order_id)
          ++ ((sideOrders (sideAddOrder b.asks o)).map Order.order_id)).Perm
          ((((sideOrders b.bids).map Order.order_id)
            ++ ((sideOrders b.asks).map Order.order_id)) ++ [o.order_id]) :=
        perm_append_snoc _ _ _ _ hperm
      refine ⟨⟨hbids, sideAddOrder_WF OrderSide.sell b.asks o p hasks hp hside hrem,
        ?_, hidxN', ?_⟩, hmemidx, ?_⟩
      · rw [List.map_append]
        exact List.Nodup.perm hNids' hpermAll.symm
      · intro oid ho
        rw [List.map_append] at ho
        rcases List.mem_append.mp ((List.Perm.mem_iff hpermAll).mp ho) with h | h
        · exact hkeepidx oid (hSub _ (by rw [List.map_append]; exact h))
        · rcases List.mem_singleton.mp h with rfl
          exact hmemidx
      · rw [if_neg (by intro hc; exact OrderSide.noConfusion hc)]
        obtain ⟨lvl, hlm, hlp, hlo⟩ := sideAddOrder_mem b.asks o p hp hasks.1
        exact ⟨lvl, hlm, hlp, hlo⟩

lemma bestFromSide_get (is_bid : Bool) (levels : List PriceLevel) (bp tq : ℚ)
    (hb : bestFromSide is_bid levels = some (bp, tq)) :
    get_best_price is_bid levels = some bp := by
  unfold bestFromSide at hb
  cases h : get_best_price is_bid levels with
  | none =>
      rw [h] at hb
      simp at hb
  | some q =>
      rw [h] at hb
      dsimp only at hb
      cases hf : levels.find? (fun l => l.price = q) with
      | none =>
          rw [hf] at hb
          simp at hb
      | some lvl =>
          rw [hf] at hb
          dsimp only at hb
          by_cases he : lvl.emptyB = true
          · rw [if_pos he] at hb
            simp at hb
          · rw [if_neg he] at hb
            simp at hb
            rw [hb.1]

lemma bestFromSide_none_iff (is_bid : Bool) (side : OrderSide) (levels : List PriceLevel)
    (h : sideWF side levels) :
    bestFromSide is_bid levels = none ↔ levels = [] := by
  unfold bestFromSide
  rw [get_best_price_WF is_bid side levels h]
  cases hb : bestPriceList is_bid (levels.map PriceLevel.price) with
  | none =>
      dsimp only
      constructor
      · intro _
        exact List.map_eq_nil_iff.mp ((bestPriceList_eq_none _ _).mp hb)
      · intro _
        rfl
  | some bp =>
      dsimp only
      have hbm := bestPriceList_mem _ _ _ hb
      obtain ⟨lvl, hfind, hmem, hlp⟩ := find?_price_of_mem levels bp hbm
      rw [hfind]
      dsimp only
      rw [lvlWF_emptyB_false side lvl (h.2 lvl hmem)]
      constructor
      · intro hc
        simp at hc
      · intro hc
        subst hc
        simp at hmem

lemma qualTotal_zero_of_best_gt (levels : List PriceLevel) (side : OrderSide) (p bp : ℚ)
    (h : sideWF side levels)
    (hb : bestPriceList false (levels.map PriceLevel.price) = some bp)
    (hgt : p < bp) :
    qualTotal true (some p) levels = 0 := by
  refine qualTotal_zero_of_none _ _ _ ?_
  intro l hl
  have hle := bestPriceList_min_le _ _ hb l.price (List.mem_map_of_mem PriceLevel.price hl)
  show qualifies true (some p) l = false
  simp [qualifies]
  linarith

lemma qualTotal_zero_of_best_lt (levels : List PriceLevel) (side : OrderSide) (p bp : ℚ)
    (h : sideWF side levels)
    (hb : bestPriceList true (levels.map PriceLevel.price) = some bp)
    (hlt : bp < p) :
    qualTotal false (some p) levels = 0 := by
  refine qualTotal_zero_of_none _ _ _ ?_
  intro l hl
  have hle := bestPriceList_le_max _ _ hb l.price (List.mem_map_of_mem PriceLevel.price hl)
  show qualifies false (some p) l = false
  simp [qualifies]
  linarith

lemma runSweep_stop (cfg : EngineCfg) (taker : Order) (tib : Bool) (bd : Option ℚ)
    (s0 : SweepSt)
    (h : get_best_price (!tib) s0.levels = none
      ∨ ∃ best, get_best_price (!tib) s0.levels = some best
          ∧ boundViolated tib bd best = true) :
    runSweep cfg taker tib bd s0 = ([], s0) := by
  unfold runSweep
  rcases h with h | ⟨best, hb, hv⟩
  · exact sweepFuel_no_best cfg taker tib bd s0.levels.length s0 h
  · exact sweepFuel_bound_stop cfg taker tib bd s0.levels.length s0 best hb hv

lemma limitStatus_core (cfg : EngineCfg) (b : OrderBook) (order : Order) (tib : Bool)
    (sde : OrderSide) (p avail : ℚ) (r : MatchResult) (out : List Trade × SweepSt)
    (hWF : bookWF b) (hq : 0 < order.quantity) (hfq : order.filled_quantity = 0)
    (hnew : order.order_id ∉ b.index.map Order.order_id)
    (hsde : order.side = sde)
    (hpr : order.price = some p)
    (hout : out = runSweep cfg order tib (some p)
      { levels := if tib then b.asks else b.bids, index := b.index,
        remaining := order.quantity, enq := [] })
    (havail : avail = qualTotal tib (some p) (if tib then b.asks else b.bids))
    (hr : r = (if 0 < out.2.remaining then
        { finishSweep tib b order out with
          taker := { (finishSweep tib b order out).taker with status :=
            if (finishSweep tib b order out).trades ≠ [] then OrderStatus.partiallyFilled
            else OrderStatus.pending },
          book := ((finishSweep tib b order out).book.add_order
            { (finishSweep tib b order out).taker with status :=
              if (finishSweep tib b order out).trades ≠ [] then
                OrderStatus.partiallyFilled
              else OrderStatus.pending }).1 }
      else { finishSweep tib b order out with taker :=
        { (finishSweep tib b order out).taker with status := OrderStatus.filled } })) :
    r.taker.filled_quantity = min order.quantity avail ∧
    (r.trades.map Trade.quantity).sum = min order.quantity avail ∧
    (∀ t ∈ r.trades, if tib then t.price ≤ p else p ≤ t.price) ∧
    (r.taker.status = OrderStatus.filled ↔ order.quantity ≤ avail) ∧
    (r.taker.status = OrderStatus.partiallyFilled ↔ 0 < avail ∧ avail < order.quantity) ∧
    (r.taker.status = OrderStatus.pending ↔ avail = 0) ∧
    (avail < order.quantity →
      order.order_id ∈ r.book.index.map Order.order_id ∧
      ∃ lvl ∈ (if sde = OrderSide.buy then r.book.bids else r.book.asks),
        lvl.price = p ∧ order.order_id ∈ lvl.orders.map Order.order_id) ∧
    (order.quantity ≤ avail →
      order.order_id ∉ r.book.index.map Order.order_id ∧
      order.order_id ∉ ((sideOrders r.book.bids ++ sideOrders r.book.asks).map
        Order.order_id)) ∧
    bookWF r.book := by
  have SW := runSweep_spec cfg order tib (some p) b hWF (le_of_lt hq)
  obtain ⟨hfil, hQ, hID, hremFS, htr, hsum, havnn, hiff, hidx, hbwf, hnidx, hnrest⟩ :=
    sweepResult_facts cfg b order tib (some p) out (finishSweep tib b order out) avail
      hWF (le_of_lt hq) hfq hnew hout rfl havail
  have hrm : out.2.remaining = order.quantity - min order.quantity avail := by
    rw [hout, havail]
    exact SW.rem_eq
  have htp : ∀ t ∈ out.1, if tib then t.price ≤ p else p ≤ t.price := by
    intro t ht
    rw [hout] at ht
    obtain ⟨_, _, _, lvl, _, hpt, hql⟩ := SW.trades_fields t ht
    cases tib
    · show p ≤ t.price
      rw [hpt]
      simpa [qualifies] using hql
    · show t.price ≤ p
      rw [hpt]
      simpa [qualifies] using hql
  have htp' : ∀ t ∈ (finishSweep tib b order out).trades,
      if tib then t.price ≤ p else p ≤ t.price := by
    intro t ht
    refine htp t ?_
    rw [← htr]
    exact ht
  subst hr
  by_cases hc : 0 < out.2.remaining
  · rw [if_pos hc]
    have hltq : avail < order.quantity := by
      rw [hrm] at hc
      rcases le_or_lt order.quantity avail with hle | hlt
      · rw [min_eq_left hle] at hc
        linarith
      · exact hlt
    have hm : min order.quantity avail = avail := min_eq_right (le_of_lt hltq)
    set t' : Order := { (finishSweep tib b order out).taker with status :=
        if (finishSweep tib b order out).trades ≠ [] then OrderStatus.partiallyFilled
        else OrderStatus.pending } with ht'
    have ht'pr : t'.price = some p := hpr
    have ht'id : t'.order_id = order.order_id := hID
    have ht'rem : 0 < t'.remaining_quantity := by
      show 0 < t'.quantity - t'.filled_quantity
      rw [show t'.quantity = order.quantity from hQ,
        show t'.filled_quantity = min order.quantity avail from hfil, hm]
      linarith
    obtain ⟨haddWF, haddmem, haddlvl⟩ :=
      OrderBook_add_order_WF (finishSweep tib b order out).book t' p hbwf ht'pr
        (by rw [ht'id]; exact hnidx) ht'rem
    refine ⟨hfil, hsum, htp', ?_, ?_, ?_,
      fun _ => ⟨haddmem, by rw [← hsde]; exact haddlvl⟩, ?_, haddWF⟩
    · constructor
      · intro h
        rw [show t'.status = (if (finishSweep tib b order out).trades ≠ [] then
            OrderStatus.partiallyFilled else OrderStatus.pending) from rfl] at h
        by_cases hnil : (finishSweep tib b order out).trades = []
        · rw [if_neg (fun hcc => hcc hnil)] at h
          simp at h
        · rw [if_pos hnil] at h
          simp at h
      · intro h
        exact absurd (lt_of_le_of_lt h hltq) (lt_irrefl _)
    · rcases eq_or_lt_of_le havnn with hz | hpos
      · have hz' : avail = 0 := hz.symm
        have hnil : (finishSweep tib b order out).trades = [] := by
          rw [hiff, hm, hz']
        constructor
        · intro h
          rw [show t'.status = (if (finishSweep tib b order out).trades ≠ [] then
              OrderStatus.partiallyFilled else OrderStatus.pending) from rfl,
            if_neg (fun hcc => hcc hnil)] at h
          simp at h
        · rintro ⟨h1, _⟩
          rw [hz'] at h1
          exact absurd h1 (lt_irrefl 0)
      · have hne : (finishSweep tib b order out).trades ≠ [] := by
          intro hcc
          rw [hiff, hm] at hcc
          exact absurd hcc (ne_of_gt hpos)
        exact ⟨fun _ => ⟨hpos, hltq⟩, fun _ => by
          rw [show t'.status = (if (finishSweep tib b order out).trades ≠ [] then
              OrderStatus.partiallyFilled else OrderStatus.pending) from rfl,
            if_pos hne]⟩
    · rcases eq_or_lt_of_le havnn with hz | hpos
      · have hz' : avail = 0 := hz.symm
        have hnil : (finishSweep tib b order out).trades = [] := by
          rw [hiff, hm, hz']
        exact ⟨fun _ => hz', fun _ => by
          rw [show t'.status = (if (finishSweep tib b order out).trades ≠ [] then
              OrderStatus.partiallyFilled else OrderStatus.pending) from rfl,
            if_neg (fun hcc => hcc hnil)]⟩
      · have hne : (finishSweep tib b order out).trades ≠ [] := by
          intro hcc
          rw [hiff, hm] at hcc
          exact absurd hcc (ne_of_gt hpos)
        constructor
        · intro h
          rw [show t'.status = (if (finishSweep tib b order out).trades ≠ [] then
              OrderStatus.partiallyFilled else OrderStatus.pending) from rfl,
            if_pos hne] at h
          simp at h
        · intro h
          rw [h] at hpos
          exact absurd hpos (lt_irrefl 0)
    · intro h
      exact absurd (lt_of_le_of_lt h hltq) (lt_irrefl _)
  · rw [if_neg hc]
    have hge : order.quantity ≤ avail := by
      rw [hrm] at hc
      push_neg at hc
      rcases le_or_lt order.quantity avail with hle | hlt
      · exact hle
      · rw [min_eq_right (le_of_lt hlt)] at hc
        linarith
    refine ⟨hfil, hsum, htp', ⟨fun _ => hge, fun _ => rfl⟩, ?_, ?_,
      fun h => absurd (lt_of_lt_of_le h hge) (lt_irrefl _),
      fun _ => ⟨hnidx, hnrest⟩, hbwf⟩
    · constructor
      · intro h
        simp at h
      · rintro ⟨_, h2⟩
        exact absurd (lt_of_le_of_lt hge h2) (lt_irrefl _)
    · constructor
      · intro h
        simp at h
      · intro h
        rw [h] at hge
        exact absurd (lt_of_lt_of_le hq hge) (lt_irrefl _)

lemma matchLimit_facts (cfg : EngineCfg) (b : OrderBook) (order : Order)
    (r : MatchResult) (p avail : ℚ)
    (hWF : bookWF b) (hq : 0 < order.quantity) (hfq : order.filled_quantity = 0)
    (hnew : order.order_id ∉ b.index.map Order.order_id)
    (hp : order.price = some p)
    (hr : r = matchLimitOrderSync cfg b order)
    (havail : avail = qualTotal (decide (order.side = OrderSide.buy)) (some p)
      (if decide (order.side = OrderSide.buy) then b.asks else b.bids)) :
    r.taker.filled_quantity = min order.quantity avail ∧
    (r.trades.map Trade.quantity).sum = min order.quantity avail ∧
    (∀ t ∈ r.trades, if decide (order.side = OrderSide.buy) then t.price ≤ p
      else p ≤ t.price) ∧
    (r.taker.status = OrderStatus.filled ↔ order.quantity ≤ avail) ∧
    (r.taker.status = OrderStatus.partiallyFilled ↔ 0 < avail ∧ avail < order.quantity) ∧
    (r.taker.status = OrderStatus.pending ↔ avail = 0) ∧
    (avail < order.quantity →
      order.order_id ∈ r.book.index.map Order.order_id ∧
      ∃ lvl ∈ (if order.side = OrderSide.buy then r.book.bids else r.book.asks),
        lvl.price = p ∧ order.order_id ∈ lvl.orders.map Order.order_id) ∧
    (order.quantity ≤ avail →
      order.order_id ∉ r.book.index.map Order.order_id ∧
      order.order_id ∉ ((sideOrders r.book.bids ++ sideOrders r.book.asks).map
        Order.order_id)) ∧
    bookWF r.book := by
  cases hside : order.side with
  | buy =>
      have hav' : avail
          = qualTotal true (some p) (if (true : Bool) then b.asks else b.bids) := by
        rw [havail, hside]
        rfl
      cases hba : b.get_best_ask with
      | none =>
          have hasks : b.asks = [] :=
            (bestFromSide_none_iff false OrderSide.sell b.asks hWF.2.1).mp hba
          have hstop : runSweep cfg order true (some p)
              { levels := if (true : Bool) then b.asks else b.bids, index := b.index, remaining := order.quantity, enq := [] }
              = ([], { levels := if (true : Bool) then b.asks else b.bids, index := b.index, remaining := order.quantity, enq := [] }) := by
            refine runSweep_stop cfg order true (some p) _ (Or.inl ?_)
            show get_best_price false b.asks = none
            rw [hasks]
            rfl
          refine limitStatus_core cfg b order true OrderSide.buy p avail r _
            hWF hq hfq hnew hside hp rfl hav' ?_
          rw [hr, hstop]
          simp [matchLimitOrderSync, hp, hside, hba]
      | some ba =>
          by_cases hcross : ba.1 ≤ p
          · refine limitStatus_core cfg b order true OrderSide.buy p avail r _
              hWF hq hfq hnew hside hp rfl hav' ?_
            rw [hr]
            simp [matchLimitOrderSync, hp, hside, hba, hcross]
          · have hbp : get_best_price false b.asks = some ba.1 :=
              bestFromSide_get false b.asks ba.1 ba.2 hba
            have hstop : runSweep cfg order true (some p)
                { levels := if (true : Bool) then b.asks else b.bids, index := b.index, remaining := order.quantity, enq := [] }
                = ([], { levels := if (true : Bool) then b.asks else b.bids, index := b.index, remaining := order.quantity, enq := [] }) := by
              refine runSweep_stop cfg order true (some p) _ (Or.inr ⟨ba.1, ?_, ?_⟩)
              · exact hbp
              · show boundViolated true (some p) ba.1 = true
                simp [boundViolated]
                exact not_le.mp hcross
            refine limitStatus_core cfg b order true OrderSide.buy p avail r _
              hWF hq hfq hnew hside hp rfl hav' ?_
            rw [hr, hstop]
            simp [matchLimitOrderSync, hp, hside, hba, hcross]
  | sell =>
      have hav' : avail
          = qualTotal false (some p) (if (false : Bool) then b.asks else b.bids) := by
        rw [havail, hside]
        rfl
      cases hbb : b.get_best_bid with
      | none =>
          have hbids : b.bids = [] :=
            (bestFromSide_none_iff true OrderSide.buy b.bids hWF.1).mp hbb
          have hstop : runSweep cfg order false (some p)
              { levels := if (false : Bool) then b.asks else b.bids, index := b.index, remaining := order.quantity, enq := [] }
              = ([], { levels := if (false : Bool) then b.asks else b.bids, index := b.index, remaining := order.quantity, enq := [] }) := by
            refine runSweep_stop cfg order false (some p) _ (Or.inl ?_)
            show get_best_price true b.bids = none
            rw [hbids]
            rfl
          refine limitStatus_core cfg b order false OrderSide.sell p avail r _
            hWF hq hfq hnew hside hp rfl hav' ?_
          rw [hr, hstop]
          simp [matchLimitOrderSync, hp, hside, hbb]
      | some bb =>
          by_cases hcross : p ≤ bb.1
          · refine limitStatus_core cfg b order false OrderSide.sell p avail r _
              hWF hq hfq hnew hside hp rfl hav' ?_
            rw [hr]
            simp [matchLimitOrderSync, hp, hside, hbb, hcross]
          · have hbp : get_best_price true b.bids = some bb.1 :=
              bestFromSide_get true b.bids bb.1 bb.2 hbb
            have hstop : runSweep cfg order false (some p)
                { levels := if (false : Bool) then b.asks else b.bids, index := b.index, remaining := order.quantity, enq := [] }
                = ([], { levels := if (false : Bool) then b.asks else b.bids, index := b.index, remaining := order.quantity, enq := [] }) := by
              refine runSweep_stop cfg order false (some p) _ (Or.inr ⟨bb.1, ?_, ?_⟩)
              · exact hbp
              · show boundViolated false (some p) bb.1 = true
                simp [boundViolated]
                exact not_le.mp hcross
            refine limitStatus_core cfg b order false OrderSide.sell p avail r _
              hWF hq hfq hnew hside hp rfl hav' ?_
            rw [hr, hstop]
            simp [matchLimitOrderSync, hp, hside, hbb, hcross]

/-- C6.  LIMIT matching: a LIMIT order fills exactly `min(quantity, liquidity
at prices no worse than its limit)`; every trade executes at a price no worse
than the limit; any positive remainder rests at the order's own price on its
own side (the order is then indexed and present in a level at its limit
price) with status PARTIALLY_FILLED when trades occurred and PENDING
otherwise, while a fully filled LIMIT taker is FILLED and never rests; the
book stays well formed.  (When the opposite best does not cross the limit the
gate skips matching; no liquidity then qualifies, so the same `min` formula
with zero qualifying liquidity describes that case.) -/
theorem C6_limit_matching (cfg : EngineCfg) (b : OrderBook) (order : Order)
    (r : MatchResult) (p avail : ℚ)
    (hWF : bookWF b) (hq : 0 < order.quantity) (hfq : order.filled_quantity = 0)
    (hnew : order.order_id ∉ b.index.map Order.order_id)
    (hp : order.price = some p)
    (hr : r = matchLimitOrderSync cfg b order)
    (havail : avail = qualTotal (decide (order.side = OrderSide.buy)) (some p)
      (if decide (order.side = OrderSide.buy) then b.asks else b.bids)) :
    r.taker.filled_quantity = min order.quantity avail ∧
    (r.trades.map Trade.quantity).sum = min order.quantity avail ∧
    (∀ t ∈ r.trades, if decide (order.side = OrderSide.buy) then t.price ≤ p
      else p ≤ t.price) ∧
    (r.taker.status = OrderStatus.filled ↔ order.quantity ≤ avail) ∧
    (r.taker.status = OrderStatus.partiallyFilled ↔ 0 < avail ∧ avail < order.quantity) ∧
    (r.taker.status = OrderStatus.pending ↔ avail = 0) ∧
    (avail < order.quantity →
      order.order_id ∈ r.book.index.map Order.order_id ∧
      ∃ lvl ∈ (if order.side = OrderSide.buy then r.book.bids else r.book.asks),
        lvl.price = p ∧ order.order_id ∈ lvl.orders.map Order.order_id) ∧
    (order.quantity ≤ avail →
      order.order_id ∉ r.book.index.map Order.order_id ∧
      order.order_id ∉ ((sideOrders r.book.bids ++ sideOrders r.book.asks).map
        Order.order_id)) ∧
    bookWF r.book :=
  matchLimit_facts cfg b order r p avail hWF hq hfq hnew hp hr havail

unseal Rat.mul Rat.inv Rat.add Rat.sub in
/-- C6 witness (scenario S2): a LIMIT BUY `49000 × 2.0` on an empty book
matches nothing (no qualifying liquidity) and ends PENDING, resting. -/
theorem C6_witness :
    (matchLimitOrderSync sampleCfg emptyBook
        (mkOrder "L" OrderSide.buy OrderType.limit (some 49000) 2 1)).taker.status
      = OrderStatus.pending :=
  ((C6_limit_matching sampleCfg emptyBook
      (mkOrder "L" OrderSide.buy OrderType.limit (some 49000) 2 1) _ 49000 _
      (by unfold bookWF sideWF lvlWF; decide) (by decide) rfl (by decide) rfl rfl
      rfl).2.2.2.2.2.1).mpr (by decide)

lemma lookupTotal_nonneg (side : OrderSide) (levels : List PriceLevel) (p : ℚ)
    (hWF : sideWF side levels) : 0 ≤ lookupTotal levels p := by
  unfold lookupTotal
  cases hf : levels.find? (fun l => l.price = p) with
  | none => exact le_refl 0
  | some lvl =>
      exact le_of_lt (lvlWF_total_pos side lvl (hWF.2 lvl (List.mem_of_find?_eq_some hf)))

lemma precheckStop_not_eq (isBuy : Bool) (oPrice : Option ℚ) (oType : OrderType)
    (l : PriceLevel) (ht : oType ≠ OrderType.market) :
    (!(precheckStop isBuy oPrice oType l.price)) = qualifies isBuy oPrice l := by
  cases oPrice with
  | none => rfl
  | some bp =>
      cases isBuy with
      | true =>
          show (!(decide (bp < l.price) && decide (oType ≠ OrderType.market)))
            = decide (l.price ≤ bp)
          rw [decide_eq_true ht, Bool.and_true, ← decide_not]
          simp [not_lt]
      | false =>
          show (!(decide (l.price < bp) && decide (oType ≠ OrderType.market)))
            = decide (bp ≤ l.price)
          rw [decide_eq_true ht, Bool.and_true, ← decide_not]
          simp [not_lt]

lemma precheckLoop_iff (levels : List PriceLevel) (isBuy : Bool) (oPrice : Option ℚ)
    (oType : OrderType) (q : ℚ) (ps : List ℚ) (total : ℚ)
    (ht : oType ≠ OrderType.market)
    (hsorted : ps.Pairwise (fun a c => if isBuy then a ≤ c else c ≤ a))
    (hnn : ∀ p ∈ ps, 0 ≤ lookupTotal levels p)
    (htq : total < q) :
    (precheckLoop levels isBuy oPrice oType q ps total = true
      ↔ q ≤ total + ((ps.filter (fun p => !(precheckStop isBuy oPrice oType p))).map
          (lookupTotal levels)).sum) := by
  induction ps generalizing total with
  | nil =>
      simp only [precheckLoop, List.filter_nil, List.map_nil, List.sum_nil, add_zero]
      constructor
      · intro h
        exact absurd h Bool.false_ne_true
      · intro h
        exact absurd h (not_le.mpr htq)
  | cons p ps ih =>
      have hpair := List.pairwise_cons.mp hsorted
      by_cases hstop : precheckStop isBuy oPrice oType p = true
      · have hall : ∀ p' ∈ ps, precheckStop isBuy oPrice oType p' = true := by
          intro p' hp'
          have hrel := hpair.1 p' hp'
          cases hop : oPrice with
          | none => rw [hop] at hstop; simp [precheckStop] at hstop
          | some bp =>
              rw [hop] at hstop
              cases hbuy : isBuy with
              | true =>
                  rw [hbuy] at hstop hrel
                  simp only [if_true] at hrel
                  have h1 : decide (bp < p) = true := by
                    have h2 := (Bool.and_eq_true _ _).mp hstop
                    exact h2.1
                  have h3 : bp < p := of_decide_eq_true h1
                  show (decide (bp < p') && decide (oType ≠ OrderType.market)) = true
                  rw [decide_eq_true ht, Bool.and_true]
                  exact decide_eq_true (lt_of_lt_of_le h3 (by simpa using hrel))
              | false =>
                  rw [hbuy] at hstop hrel
                  have h1 : decide (p < bp) = true := by
                    have h2 := (Bool.and_eq_true _ _).mp hstop
                    exact h2.1
                  have h3 : p < bp := of_decide_eq_true h1
                  show (decide (p' < bp) && decide (oType ≠ OrderType.market)) = true
                  rw [decide_eq_true ht, Bool.and_true]
                  exact decide_eq_true (lt_of_le_of_lt (by simpa using hrel) h3)
        have hfilter : (p :: ps).filter
            (fun x => !(precheckStop isBuy oPrice oType x)) = [] := by
          rw [List.filter_eq_nil_iff]
          intro a ha
          rcases List.mem_cons.mp ha with rfl | ha'
          · simp [hstop]
          · simp [hall a ha']
        rw [hfilter]
        simp only [List.map_nil, List.sum_nil, add_zero, precheckLoop]
        rw [if_pos hstop]
        constructor
        · intro h
          exact absurd h Bool.false_ne_true
        · intro h
          exact absurd h (not_le.mpr htq)
      · have hstop' : precheckStop isBuy oPrice oType p = false :=
          Bool.eq_false_iff.mpr hstop
        have hfilter : (p :: ps).filter (fun x => !(precheckStop isBuy oPrice oType x))
            = p :: ps.filter (fun x => !(precheckStop isBuy oPrice oType x)) := by
          simp [List.filter_cons, hstop']
        rw [hfilter]
        simp only [precheckLoop]
        rw [if_neg (by rw [hstop']; exact Bool.false_ne_true)]
        have hrest_nn : 0 ≤ ((ps.filter
            (fun x => !(precheckStop isBuy oPrice oType x))).map
            (lookupTotal levels)).sum := by
          refine List.sum_nonneg ?_
          intro x hx
          rcases List.mem_map.mp hx with ⟨a, ha, rfl⟩
          exact hnn a (List.mem_cons_of_mem p (List.mem_of_mem_filter ha))
        by_cases hq2 : q ≤ total + lookupTotal levels p
        · rw [if_pos hq2]
          simp only [List.map_cons, List.sum_cons]
          constructor
          · intro _
            linarith
          · intro _
            trivial
        · rw [if_neg hq2]
          push_neg at hq2
          rw [ih (total + lookupTotal levels p) hpair.2
            (fun a ha => hnn a (List.mem_cons_of_mem p ha)) hq2]
          simp only [List.map_cons, List.sum_cons]
          constructor
          · intro h
            linarith
          · intro h
            linarith

lemma lookup_filter_sum_eq_qualTotal (levels : List PriceLevel) (isBuy : Bool)
    (oPrice : Option ℚ) (oType : OrderType) (ht : oType ≠ OrderType.market)
    (hN : (levels.map PriceLevel.price).Nodup) (ps : List ℚ)
    (hperm : ps.Perm (levels.map PriceLevel.price)) :
    ((ps.filter (fun p => !(precheckStop isBuy oPrice oType p))).map
      (lookupTotal levels)).sum = qualTotal isBuy oPrice levels := by
  have h1 : ((ps.filter (fun p => !(precheckStop isBuy oPrice oType p))).map
      (lookupTotal levels)).sum
      = (((levels.map PriceLevel.price).filter
          (fun p => !(precheckStop isBuy oPrice oType p))).map
        (lookupTotal levels)).sum :=
    List.Perm.sum_eq (List.Perm.map _ (List.Perm.filter _ hperm))
  rw [h1]
  clear h1 hperm
  induction levels with
  | nil => rfl
  | cons a as ih =>
      have hanp : a.price ∉ as.map PriceLevel.price := (List.nodup_cons.mp hN).1
      have hNas : (as.map PriceLevel.price).Nodup := (List.nodup_cons.mp hN).2
      have hlook_a : lookupTotal (a :: as) a.price = a.total_quantity := by
        unfold lookupTotal
        rw [List.find?_cons_of_pos _ (by simp)]
      have hlook_tail : ∀ x ∈ (as.map PriceLevel.price).filter
          (fun p => !(precheckStop isBuy oPrice oType p)),
          lookupTotal (a :: as) x = lookupTotal as x := by
        intro x hx
        have hxm : x ∈ as.map PriceLevel.price := List.mem_of_mem_filter hx
        have hxa : a.price ≠ x := by
          intro hc
          exact hanp (hc ▸ hxm)
        unfold lookupTotal
        rw [List.find?_cons_of_neg _ (by simpa using hxa)]
      have hq : (!(precheckStop isBuy oPrice oType a.price)) = qualifies isBuy oPrice a :=
        precheckStop_not_eq isBuy oPrice oType a ht
      rw [List.map_cons]
      rw [qualTotal_cons]
      by_cases hqa : qualifies isBuy oPrice a = true
      · rw [List.filter_cons_of_pos (by rw [hq]; exact hqa)]
        rw [List.map_cons, List.sum_cons, hlook_a, if_pos hqa]
        rw [List.map_congr_left hlook_tail, ih hNas]
      · have hqa' : qualifies isBuy oPrice a = false := Bool.eq_false_iff.mpr hqa
        rw [List.filter_cons_of_neg (by rw [hq, hqa']; exact Bool.false_ne_true)]
        rw [if_neg hqa, List.map_congr_left hlook_tail, ih hNas]
        ring

lemma checkCanFill_iff (b : OrderBook) (order : Order)
    (hWF : bookWF b) (ht : order.order_type ≠ OrderType.market)
    (hq : 0 < order.quantity) :
    (checkCanFillCompletely b order = true
      ↔ order.quantity ≤ qualTotal (decide (order.side = OrderSide.buy)) order.price
          (if decide (order.side = OrderSide.buy) then b.asks else b.bids)) := by
  unfold checkCanFillCompletely
  by_cases hside : order.side = OrderSide.buy
  · rw [if_pos hside]
    have hsorted : ((b.asks.map PriceLevel.price).insertionSort (· ≤ ·)).Pairwise
        (fun a c => if (true : Bool) then a ≤ c else c ≤ a) :=
      List.sorted_insertionSort (· ≤ ·) (b.asks.map PriceLevel.price)
    have hiff := precheckLoop_iff b.asks true order.price order.order_type order.quantity
      ((b.asks.map PriceLevel.price).insertionSort (· ≤ ·)) 0 ht hsorted
      (fun p _ => lookupTotal_nonneg OrderSide.sell b.asks p hWF.2.1) hq
    rw [hiff, lookup_filter_sum_eq_qualTotal b.asks true order.price order.order_type ht
      hWF.2.1.1 _ (List.perm_insertionSort _ _), zero_add]
    rw [show decide (order.side = OrderSide.buy) = true from decide_eq_true hside]
    rw [if_pos rfl]
  · rw [if_neg hside]
    have hsorted : ((b.bids.map PriceLevel.price).insertionSort (· ≥ ·)).Pairwise
        (fun a c => if (false : Bool) then a ≤ c else c ≤ a) :=
      List.sorted_insertionSort (· ≥ ·) (b.bids.map PriceLevel.price)
    have hiff := precheckLoop_iff b.bids false order.price order.order_type order.quantity
      ((b.bids.map PriceLevel.price).insertionSort (· ≥ ·)) 0 ht hsorted
      (fun p _ => lookupTotal_nonneg OrderSide.buy b.bids p hWF.1) hq
    rw [hiff, lookup_filter_sum_eq_qualTotal b.bids false order.price order.order_type ht
      hWF.1.1 _ (List.perm_insertionSort _ _), zero_add]
    rw [show decide (order.side = OrderSide.buy) = false from decide_eq_false hside]
    rw [if_neg (by exact Bool.false_ne_true)]

/-- C2.  FOK is all-or-nothing: the pre-check `_check_can_fill_completely`
(summing `total_quantity` over the side's prices best-first, stopping at the
limit) succeeds exactly when the full quantity is attainable from the
qualifying liquidity (levels priced no worse than the limit, every level when
unpriced); when it fails the order ends CANCELLED with an empty trade list,
no fills, and the book completely unchanged; when it succeeds the order is
fully filled — status FILLED, `filled_quantity = quantity`, trades carrying
exactly the full quantity — and the taker never rests on the (still
well-formed) book. -/
theorem C2_fok_all_or_nothing (cfg : EngineCfg) (b : OrderBook) (order : Order)
    (r : MatchResult) (avail : ℚ)
    (hWF : bookWF b) (hq : 0 < order.quantity) (hfq : order.filled_quantity = 0)
    (hnew : order.order_id ∉ b.index.map Order.order_id)
    (htype : order.order_type = OrderType.fok)
    (hr : r = matchFOKOrderSync cfg b order)
    (havail : avail = qualTotal (decide (order.side = OrderSide.buy)) order.price
      (if decide (order.side = OrderSide.buy) then b.asks else b.bids)) :
    (checkCanFillCompletely b order = true ↔ order.quantity ≤ avail) ∧
    (¬ order.quantity ≤ avail →
      r.taker.status = OrderStatus.cancelled ∧
      r.taker.filled_quantity = order.filled_quantity ∧
      r.trades = [] ∧ r.book = b) ∧
    (order.quantity ≤ avail →
      r.taker.status = OrderStatus.filled ∧
      r.taker.filled_quantity = order.quantity ∧
      (r.trades.map Trade.quantity).sum = order.quantity ∧
      order.order_id ∉ r.book.index.map Order.order_id ∧
      order.order_id ∉ ((sideOrders r.book.bids ++ sideOrders r.book.asks).map
        Order.order_id) ∧
      bookWF r.book) := by
  have hnotm : order.order_type ≠ OrderType.market := by
    rw [htype]
    intro hc
    exact OrderType.noConfusion hc
  have hchk := checkCanFill_iff b order hWF hnotm hq
  rw [← havail] at hchk
  refine ⟨hchk, ?_, ?_⟩
  · intro hlt
    have hok : checkCanFillCompletely b order = false := by
      cases hco : checkCanFillCompletely b order
      · rfl
      · exact absurd (hchk.mp hco) hlt
    rw [hr]
    simp only [matchFOKOrderSync, hok]
    exact ⟨rfl, rfl, rfl, rfl⟩
  · intro hle
    have hok : checkCanFillCompletely b order = true := hchk.mpr hle
    have hm : min order.quantity avail = order.quantity := min_eq_left hle
    cases hp : order.price with
    | none =>
        set tib := decide (order.side = OrderSide.buy) with htib
        set s0 : SweepSt := { levels := if tib then b.asks else b.bids, index := b.index, remaining := order.quantity, enq := [] } with hs0
        set OUT := runSweep cfg order tib none s0 with hOUT
        set FS := finishSweep tib b order OUT with hFS
        obtain ⟨hfil, hQ, hID, hremq, htr, hsum, havnn, hiff, hidx, hbwf, hnidx, hnrest⟩ :=
          sweepResult_facts cfg b order tib none OUT FS avail hWF (le_of_lt hq) hfq hnew
            (by rw [hOUT, hs0]) hFS (by rw [havail, hp])
        have hrem0 : (matchMarketOrderSync cfg b order).taker.remaining_quantity = 0 := by
          show FS.taker.remaining_quantity = 0
          rw [hremq, hm]
          ring
        have hr2 : matchFOKOrderSync cfg b order
            = { matchMarketOrderSync cfg b order with taker :=
                { (matchMarketOrderSync cfg b order).taker with
                  status := OrderStatus.filled } } := by
          have hnlt : ¬ 0 < (matchMarketOrderSync cfg b order).taker.remaining_quantity := by
            rw [hrem0]
            exact lt_irrefl 0
          simp only [matchFOKOrderSync, hok, hp, Bool.not_true, Bool.false_eq_true,
            if_false]
          rw [if_neg hnlt]
        refine ⟨?_, ?_, ?_, ?_, ?_, ?_⟩
        · rw [hr, hr2]
        · rw [hr, hr2]
          show FS.taker.filled_quantity = order.quantity
          rw [hfil, hm]
        · rw [hr, hr2]
          show (FS.trades.map Trade.quantity).sum = order.quantity
          rw [hsum, hm]
        · rw [hr, hr2]
          exact hnidx
        · rw [hr, hr2]
          exact hnrest
        · rw [hr, hr2]
          exact hbwf
    | some p =>
        set tib := decide (order.side = OrderSide.buy) with htib
        set s0 : SweepSt := { levels := if tib then b.asks else b.bids, index := b.index, remaining := order.quantity, enq := [] } with hs0
        set OUT := runSweep cfg order tib (some p) s0 with hOUT
        set FS := finishSweep tib b order OUT with hFS
        obtain ⟨hfil, hQ, hID, hremq, htr, hsum, havnn, hiff, hidx, hbwf, hnidx, hnrest⟩ :=
          sweepResult_facts cfg b order tib (some p) OUT FS avail hWF (le_of_lt hq) hfq
            hnew (by rw [hOUT, hs0]) hFS (by rw [havail, hp])
        have hconstr : matchLimitConstrainedSync cfg b order = FS := by
          rw [hFS, hOUT, hs0]
          simp only [matchLimitConstrainedSync, hp]
        have hrem0 : (matchLimitConstrainedSync cfg b order).taker.remaining_quantity
            = 0 := by
          rw [hconstr, hremq, hm]
          ring
        have hr2 : matchFOKOrderSync cfg b order
            = { matchLimitConstrainedSync cfg b order with taker :=
                { (matchLimitConstrainedSync cfg b order).taker with
                  status := OrderStatus.filled } } := by
          have hnlt : ¬ 0 < (matchLimitConstrainedSync cfg b order).taker.remaining_quantity := by
            rw [hrem0]
            exact lt_irrefl 0
          simp only [matchFOKOrderSync, hok, hp, Bool.not_true, Bool.false_eq_true,
            if_false]
          rw [if_neg hnlt]
        refine ⟨?_, ?_, ?_, ?_, ?_, ?_⟩
        · rw [hr, hr2]
        · rw [hr, hr2]
          show (matchLimitConstrainedSync cfg b order).taker.filled_quantity
            = order.quantity
          rw [hconstr, hfil, hm]
        · rw [hr, hr2]
          show ((matchLimitConstrainedSync cfg b order).trades.map Trade.quantity).sum
            = order.quantity
          rw [hconstr, hsum, hm]
        · rw [hr, hr2]
          show order.order_id ∉ (matchLimitConstrainedSync cfg b order).book.index.map
            Order.order_id
          rw [hconstr]
          exact hnidx
        · rw [hr, hr2]
          show order.order_id ∉ ((sideOrders (matchLimitConstrainedSync cfg
              b order).book.bids ++ sideOrders (matchLimitConstrainedSync cfg
              b order).book.asks).map Order.order_id)
          rw [hconstr]
          exact hnrest
        · rw [hr, hr2]
          show bookWF (matchLimitConstrainedSync cfg b order).book
          rw [hconstr]
          exact hbwf

unseal Rat.mul Rat.inv Rat.add Rat.sub in
/-- C2 witness (scenario S5): a FOK BUY `1.0 @ 50000` against a resting ask
`2.0 @ 50000` passes the pre-check and fills completely, ending FILLED. -/
theorem C2_witness :
    (matchFOKOrderSync sampleCfg stateAskTwo.book
        (mkOrder "F" OrderSide.buy OrderType.fok (some 50000) 1 2)).taker.status
      = OrderStatus.filled :=
  ((C2_fok_all_or_nothing sampleCfg stateAskTwo.book
      (mkOrder "F" OrderSide.buy OrderType.fok (some 50000) 1 2) _ _
      (by unfold bookWF sideWF lvlWF; decide) (by decide) rfl (by decide) rfl rfl
      rfl).2.2 (by decide)).1

lemma matchMarket_bookWF (cfg : EngineCfg) (b : OrderBook) (order : Order)
    (hWF : bookWF b) (hq0 : 0 ≤ order.quantity) :
    bookWF (matchMarketOrderSync cfg b order).book :=
  book_after_sweep_WF cfg order (decide (order.side = OrderSide.buy)) none b hWF hq0

lemma matchConstr_bookWF (cfg : EngineCfg) (b : OrderBook) (order : Order) (p : ℚ)
    (hp : order.price = some p) (hWF : bookWF b) (hq0 : 0 ≤ order.quantity) :
    bookWF (matchLimitConstrainedSync cfg b order).book := by
  have h := book_after_sweep_WF cfg order (decide (order.side = OrderSide.buy)) (some p)
    b hWF hq0
  have heq : matchLimitConstrainedSync cfg b order
      = finishSweep (decide (order.side = OrderSide.buy)) b order
        (runSweep cfg order (decide (order.side = OrderSide.buy)) (some p)
          { levels := if decide (order.side = OrderSide.buy) then b.asks else b.bids,
            index := b.index, remaining := order.quantity, enq := [] }) := by
    simp only [matchLimitConstrainedSync, hp]
  rw [heq]
  exact h

lemma matchIOC_bookWF (cfg : EngineCfg) (b : OrderBook) (order : Order)
    (hWF : bookWF b) (hq0 : 0 ≤ order.quantity) :
    bookWF (matchIOCOrderSync cfg b order).book := by
  cases hp : order.price with
  | none =>
      have heq : (matchIOCOrderSync cfg b order).book
          = (matchMarketOrderSync cfg b order).book := by
        simp only [matchIOCOrderSync, hp]
      rw [heq]
      exact matchMarket_bookWF cfg b order hWF hq0
  | some p =>
      have heq : (matchIOCOrderSync cfg b order).book
          = (matchLimitConstrainedSync cfg b order).book := by
        simp only [matchIOCOrderSync, hp]
      rw [heq]
      exact matchConstr_bookWF cfg b order p hp hWF hq0

lemma matchFOK_bookWF (cfg : EngineCfg) (b : OrderBook) (order : Order)
    (hWF : bookWF b) (hq0 : 0 ≤ order.quantity) :
    bookWF (matchFOKOrderSync cfg b order).book := by
  by_cases hok : checkCanFillCompletely b order = true
  · cases hp : order.price with
    | none =>
        have heq : (matchFOKOrderSync cfg b order).book
            = (matchMarketOrderSync cfg b order).book := by
          simp only [matchFOKOrderSync, hok, hp, Bool.not_true, Bool.false_eq_true,
            if_false]
          by_cases hrem : 0 < (matchMarketOrderSync cfg b order).taker.remaining_quantity
          · rw [if_pos hrem]
          · rw [if_neg hrem]
        rw [heq]
        exact matchMarket_bookWF cfg b order hWF hq0
    | some p =>
        have heq : (matchFOKOrderSync cfg b order).book
            = (matchLimitConstrainedSync cfg b order).book := by
          simp only [matchFOKOrderSync, hok, hp, Bool.not_true, Bool.false_eq_true,
            if_false]
          by_cases hrem : 0 < (matchLimitConstrainedSync cfg b
              order).taker.remaining_quantity
          · rw [if_pos hrem]
          · rw [if_neg hrem]
        rw [heq]
        exact matchConstr_bookWF cfg b order p hp hWF hq0
  · have hokf : checkCanFillCompletely b order = false := Bool.eq_false_iff.mpr hok
    have heq : (matchFOKOrderSync cfg b order).book = b := by
      simp [matchFOKOrderSync, hokf]
    rw [heq]
    exact hWF

lemma matchLimit_bookWF (cfg : EngineCfg) (b : OrderBook) (order : Order) (p : ℚ)
    (hWF : bookWF b) (hq : 0 < order.quantity) (hfq : order.filled_quantity = 0)
    (hnew : order.order_id ∉ b.index.map Order.order_id)
    (hp : order.price = some p) :
    bookWF (matchLimitOrderSync cfg b order).book :=
  (matchLimit_facts cfg b order _ p _ hWF hq hfq hnew hp rfl rfl).2.2.2.2.2.2.2.2

lemma validate_limit_price (o : Order) (hty : o.order_type = OrderType.limit)
    (hv : (validateOrder o).1 = true) : ∃ p, o.price = some p := by
  cases hp : o.price with
  | some p => exact ⟨p, rfl⟩
  | none =>
      exfalso
      unfold validateOrder at hv
      by_cases hq0 : o.quantity ≤ 0
      · rw [if_pos hq0] at hv
        exact Bool.false_ne_true hv
      · rw [if_neg hq0, if_pos ⟨hty, hp⟩] at hv
        exact Bool.false_ne_true hv

lemma find?_eraseP_orders (os : List Order) (oid : String) (o : Order)
    (hfind : os.find? (fun x => x.order_id = oid) = some o) :
    ∃ pre post, os = pre ++ o :: post ∧
      os.eraseP (fun x => x.order_id = oid) = pre ++ post ∧
      ∀ x ∈ pre, ¬ (x.order_id = oid) := by
  induction os with
  | nil => simp at hfind
  | cons a as ih =>
      by_cases ha : a.order_id = oid
      · rw [List.find?_cons_of_pos _ (by simpa using ha)] at hfind
        obtain rfl : a = o := Option.some.inj hfind
        refine ⟨[], as, rfl, ?_, by simp⟩
        simp [List.eraseP_cons, ha]
      · rw [List.find?_cons_of_neg _ (by simpa using ha)] at hfind
        obtain ⟨pre, post, h1, h2, h3⟩ := ih hfind
        refine ⟨a :: pre, post, by rw [h1]; rfl, ?_, ?_⟩
        · simp [List.eraseP_cons, ha, h2]
        · intro x hx
          rcases List.mem_cons.mp hx with rfl | hm
          · exact ha
          · exact h3 x hm

lemma sideRemoveOrder_WF (side : OrderSide) (levels : List PriceLevel) (oid : String)
    (p : ℚ) (hWF : sideWF side levels) :
    sideWF side (sideRemoveOrder levels oid p).1 := by
  unfold sideRemoveOrder
  cases hf : levels.find? (fun l => l.price = p) with
  | none => exact hWF
  | some lvl =>
      dsimp only
      have hlmem : lvl ∈ levels := List.mem_of_find?_eq_some hf
      have hlWF := hWF.2 lvl hlmem
      have hlp : lvl.price = p := by simpa using List.find?_some hf
      obtain ⟨pre, post, hdec, hremL, hprene⟩ := removeLevel_decomp p levels lvl hf
      have hPN : ((pre ++ lvl :: post).map PriceLevel.price).Nodup := by
        rw [← hdec]
        exact hWF.1
      have hpostne : ∀ l ∈ post, l.price ≠ p := by
        intro l hl
        rw [← hlp]
        exact nodup_middle_price_ne pre post lvl hPN l hl
      cases hfo : lvl.orders.find? (fun x => x.order_id = oid) with
      | none =>
          have hro : lvl.remove_order oid = (lvl, false) := by
            unfold PriceLevel.remove_order
            rw [hfo]
          rw [hro]
          exact hWF
      | some o =>
          obtain ⟨preO, postO, hodec, hoerase, hopre⟩ :=
            find?_eraseP_orders lvl.orders oid o hfo
          have hmem_orig : ∀ y ∈ preO ++ postO, y ∈ lvl.orders := by
            intro y hy
            rw [hodec]
            rcases List.mem_append.mp hy with h | h
            · exact List.mem_append.mpr (Or.inl h)
            · exact List.mem_append.mpr (Or.inr (List.mem_cons_of_mem o h))
          have hprepost_nn : 0 ≤ ((preO ++ postO).map Order.remaining_quantity).sum := by
            refine List.sum_nonneg ?_
            intro x hx
            rcases List.mem_map.mp hx with ⟨y, hy, rfl⟩
            exact le_of_lt (hlWF.2.2 y (hmem_orig y hy)).1
          have htq0 : lvl.total_quantity - o.remaining_quantity
              = ((preO ++ postO).map Order.remaining_quantity).sum := by
            rw [hlWF.2.1]
            show (lvl.orders.map Order.remaining_quantity).sum - _ = _
            rw [hodec]
            simp [List.map_append, List.sum_append]
            ring
          have hro : lvl.remove_order oid = ({ lvl with total_quantity := lvl.total_quantity - o.remaining_quantity, orders := preO ++ postO }, true) := by
            unfold PriceLevel.remove_order
            rw [hfo]
            dsimp only
            rw [if_neg (by rw [htq0]; exact not_lt.mpr hprepost_nn), hoerase]
          rw [hro]
          dsimp only
          rw [if_pos (rfl : true = true)]
          by_cases hnil : preO ++ postO = []
          · have htz : lvl.total_quantity - o.remaining_quantity = 0 := by
              rw [htq0, hnil]
              rfl
            have hec : ({ lvl with total_quantity := lvl.total_quantity - o.remaining_quantity, orders := preO ++ postO } : PriceLevel).emptyCheck = (true, { lvl with total_quantity := lvl.total_quantity - o.remaining_quantity, orders := preO ++ postO }) := by
              unfold PriceLevel.emptyCheck
              rw [if_pos (le_of_eq htz)]
            rw [hec]
            dsimp only
            rw [if_pos (rfl : true = true), hremL]
            constructor
            · refine List.Nodup.sublist ?_ hPN
              rw [List.map_append, List.map_append, List.map_cons]
              exact List.Sublist.append (List.Sublist.refl _)
                (List.sublist_cons_self _ _)
            · intro l hl
              refine hWF.2 l ?_
              rw [hdec]
              rcases List.mem_append.mp hl with h | h
              · exact List.mem_append.mpr (Or.inl h)
              · exact List.mem_append.mpr (Or.inr (List.mem_cons_of_mem lvl h))
          · have hpos : 0 < ((preO ++ postO).map Order.remaining_quantity).sum := by
              refine List.sum_pos _ ?_ ?_
              · intro x hx
                rcases List.mem_map.mp hx with ⟨y, hy, rfl⟩
                exact (hlWF.2.2 y (hmem_orig y hy)).1
              · simpa using hnil
            have hapos : 0 < ({ lvl with total_quantity := lvl.total_quantity - o.remaining_quantity, orders := preO ++ postO } : PriceLevel).agg := hpos
            have htqpos : 0 < ({ lvl with total_quantity := lvl.total_quantity - o.remaining_quantity, orders := preO ++ postO } : PriceLevel).total_quantity := by
              show 0 < lvl.total_quantity - o.remaining_quantity
              rw [htq0]
              exact hpos
            have hec : ({ lvl with total_quantity := lvl.total_quantity - o.remaining_quantity, orders := preO ++ postO } : PriceLevel).emptyCheck = (false, { lvl with total_quantity := ((preO ++ postO).map Order.remaining_quantity).sum, orders := preO ++ postO }) := by
              unfold PriceLevel.emptyCheck
              rw [if_neg (not_le.mpr htqpos)]
              rw [decide_eq_false (not_le.mpr hapos)]
              rfl
            rw [hec]
            dsimp only
            rw [if_neg Bool.false_ne_true]
            rw [hdec, replaceLevel_decomp p _ pre post lvl hprene hlp hpostne]
            constructor
            · have hpr : ((pre ++ { lvl with total_quantity := ((preO ++ postO).map Order.remaining_quantity).sum, orders := preO ++ postO } :: post).map PriceLevel.price) = ((pre ++ lvl :: post).map PriceLevel.price) := by
                simp
              rw [hpr]
              exact hPN
            · intro l hl
              rcases List.mem_append.mp hl with h | h
              · exact hWF.2 l (by rw [hdec]; exact List.mem_append.mpr (Or.inl h))
              · rcases List.mem_cons.mp h with rfl | h2
                · refine ⟨hnil, rfl, ?_⟩
                  intro x hx
                  have := hlWF.2.2 x (hmem_orig x hx)
                  exact ⟨this.1, this.2.1, this.2.2⟩
                · exact hWF.2 l (by
                    rw [hdec]
                    exact List.mem_append.mpr (Or.inr (List.mem_cons_of_mem lvl h2)))

lemma cancel_order_sides (b : OrderBook) (oid : String)
    (hb : sideWF OrderSide.buy b.bids) (ha : sideWF OrderSide.sell b.asks) :
    sideWF OrderSide.buy (b.cancel_order oid).1.bids ∧
    sideWF OrderSide.sell (b.cancel_order oid).1.asks := by
  unfold OrderBook.cancel_order
  cases hf : b.index.find? (fun e => e.order_id = oid) with
  | none => exact ⟨hb, ha⟩
  | some e =>
      dsimp only
      cases hes : e.side with
      | buy =>
          cases hep : e.price with
          | none => exact ⟨hb, ha⟩
          | some pe =>
              exact ⟨sideRemoveOrder_WF OrderSide.buy b.bids oid pe hb, ha⟩
      | sell =>
          cases hep : e.price with
          | none => exact ⟨hb, ha⟩
          | some pe =>
              exact ⟨hb, sideRemoveOrder_WF OrderSide.sell b.asks oid pe ha⟩

lemma cancelOrder_sides (st : MEState) (oid : String) (hWF : bookWF st.book) :
    sideWF OrderSide.buy (cancelOrder st oid).1.book.bids ∧
    sideWF OrderSide.sell (cancelOrder st oid).1.book.asks := by
  have h := cancel_order_sides st.book oid hWF.1 hWF.2.1
  unfold cancelOrder
  dsimp only
  cases hr2 : (st.book.cancel_order oid).2 with
  | some o =>
      dsimp only
      exact h
  | none =>
      dsimp only
      exact ⟨hWF.1, hWF.2.1⟩

lemma submit_book_WF (cfg : EngineCfg) (st : MEState) (o : Order)
    (hWF : bookWF st.book) (hq : 0 < o.quantity) (hfq : o.filled_quantity = 0)
    (hnew : o.order_id ∉ st.book.index.map Order.order_id) :
    sideWF OrderSide.buy (submitOrder cfg st o).2.1.book.bids ∧
    sideWF OrderSide.sell (submitOrder cfg st o).2.1.book.asks := by
  by_cases hv : (validateOrder o).1 = true
  · cases hty : o.order_type with
    | market =>
        have heq : (submitOrder cfg st o).2.1.book
            = (matchMarketOrderSync cfg st.book o).book := by
          simp [submitOrder, hv, hty]
        rw [heq]
        have h := matchMarket_bookWF cfg st.book o hWF (le_of_lt hq)
        exact ⟨h.1, h.2.1⟩
    | limit =>
        obtain ⟨p, hp⟩ := validate_limit_price o hty hv
        have heq : (submitOrder cfg st o).2.1.book
            = (matchLimitOrderSync cfg st.book o).book := by
          simp [submitOrder, hv, hty]
        rw [heq]
        have h := matchLimit_bookWF cfg st.book o p hWF hq hfq hnew hp
        exact ⟨h.1, h.2.1⟩
    | ioc =>
        have heq : (submitOrder cfg st o).2.1.book
            = (matchIOCOrderSync cfg st.book o).book := by
          simp [submitOrder, hv, hty]
        rw [heq]
        have h := matchIOC_bookWF cfg st.book o hWF (le_of_lt hq)
        exact ⟨h.1, h.2.1⟩
    | fok =>
        have heq : (submitOrder cfg st o).2.1.book
            = (matchFOKOrderSync cfg st.book o).book := by
          simp [submitOrder, hv, hty]
        rw [heq]
        have h := matchFOK_bookWF cfg st.book o hWF (le_of_lt hq)
        exact ⟨h.1, h.2.1⟩
    | stopLoss =>
        have heq : (submitOrder cfg st o).2.1 = st := by
          simp [submitOrder, hv, hty]
        rw [heq]
        exact ⟨hWF.1, hWF.2.1⟩
    | stopLimit =>
        have heq : (submitOrder cfg st o).2.1 = st := by
          simp [submitOrder, hv, hty]
        rw [heq]
        exact ⟨hWF.1, hWF.2.1⟩
    | takeProfit =>
        have heq : (submitOrder cfg st o).2.1 = st := by
          simp [submitOrder, hv, hty]
        rw [heq]
        exact ⟨hWF.1, hWF.2.1⟩
  · have hvf : (validateOrder o).1 = false := Bool.eq_false_iff.mpr hv
    have heq : (submitOrder cfg st o).2.1 = st := by
      simp [submitOrder, hvf]
    rw [heq]
    exact ⟨hWF.1, hWF.2.1⟩

lemma sideWF_levels (side : OrderSide) (levels : List PriceLevel)
    (h : sideWF side levels) :
    ∀ lvl ∈ levels, lvl.total_quantity
        = (lvl.orders.map Order.remaining_quantity).sum ∧
      0 ≤ lvl.total_quantity := by
  intro lvl hl
  exact ⟨(h.2 lvl hl).2.1, le_of_lt (lvlWF_total_pos side lvl (h.2 lvl hl))⟩

/-! ### C8: the PriceLevel aggregate invariant at quiescent points -/

/-- C8.  For every `PriceLevel` held in the book at a quiescent point,
`total_quantity` equals the sum of `remaining_quantity` over the level's
orders and is non-negative; both facts hold before an operation, after a full
`submit_order` (validation, any of the four matchers, or the unsupported-type
path), and after a `cancel_order`. -/
theorem C8_price_level_aggregate (cfg : EngineCfg) (st : MEState) (o : Order)
    (oid : String) (hWF : bookWF st.book) (hq : 0 < o.quantity)
    (hfq : o.filled_quantity = 0)
    (hnew : o.order_id ∉ st.book.index.map Order.order_id) :
    (∀ lvl ∈ st.book.bids ++ st.book.asks, lvl.total_quantity = (lvl.orders.map Order.remaining_quantity).sum ∧ 0 ≤ lvl.total_quantity) ∧
    (∀ lvl ∈ (submitOrder cfg st o).2.1.book.bids ++ (submitOrder cfg st o).2.1.book.asks, lvl.total_quantity = (lvl.orders.map Order.remaining_quantity).sum ∧ 0 ≤ lvl.total_quantity) ∧
    (∀ lvl ∈ (cancelOrder st oid).1.book.bids ++ (cancelOrder st oid).1.book.asks, lvl.total_quantity = (lvl.orders.map Order.remaining_quantity).sum ∧ 0 ≤ lvl.total_quantity) := by
  have hpre : ∀ (bids asks : List PriceLevel), sideWF OrderSide.buy bids → sideWF OrderSide.sell asks → ∀ lvl ∈ bids ++ asks, lvl.total_quantity = (lvl.orders.map Order.remaining_quantity).sum ∧ 0 ≤ lvl.total_quantity := by
    intro bids asks hb ha lvl hl
    rcases List.mem_append.mp hl with h | h
    · exact sideWF_levels OrderSide.buy bids hb lvl h
    · exact sideWF_levels OrderSide.sell asks ha lvl h
  refine ⟨hpre _ _ hWF.1 hWF.2.1, ?_, ?_⟩
  · obtain ⟨hb, ha⟩ := submit_book_WF cfg st o hWF hq hfq hnew
    exact hpre _ _ hb ha
  · obtain ⟨hb, ha⟩ := cancelOrder_sides st oid hWF
    exact hpre _ _ hb ha

unseal Rat.mul Rat.inv Rat.add Rat.sub in
/-- C8 witness: on the book with one resting ask `0.5 @ 50000`, the aggregate
invariant holds on every ask level before any operation, after submitting a
MARKET BUY of `0.2` (which leaves the level at `0.3`), and after cancelling
the resting maker. -/
theorem C8_witness :
    (stateAskHalf.book.asks.all (fun lvl => decide (lvl.total_quantity = (lvl.orders.map Order.remaining_quantity).sum ∧ 0 ≤ lvl.total_quantity)) = true) ∧
    ((submitOrder sampleCfg stateAskHalf (mkOrder "W8" OrderSide.buy OrderType.market none (1/5) 9)).2.1.book.asks.all (fun lvl => decide (lvl.total_quantity = (lvl.orders.map Order.remaining_quantity).sum ∧ 0 ≤ lvl.total_quantity)) = true) ∧
    ((cancelOrder stateAskHalf "M").1.book.asks.all (fun lvl => decide (lvl.total_quantity = (lvl.orders.map Order.remaining_quantity).sum ∧ 0 ≤ lvl.total_quantity)) = true) := by
  have h := C8_price_level_aggregate sampleCfg stateAskHalf
    (mkOrder "W8" OrderSide.buy OrderType.market none (1/5) 9) "M"
    (by unfold bookWF sideWF lvlWF; decide) (by decide) rfl (by decide)
  refine ⟨?_, ?_, ?_⟩
  · rw [List.all_eq_true]
    intro lvl hl
    exact decide_eq_true (h.1 lvl (List.mem_append.mpr (Or.inr hl)))
  · rw [List.all_eq_true]
    intro lvl hl
    exact decide_eq_true (h.2.1 lvl (List.mem_append.mpr (Or.inr hl)))
  · rw [List.all_eq_true]
    intro lvl hl
    exact decide_eq_true (h.2.2 lvl (List.mem_append.mpr (Or.inr hl)))

end CME
